import Mathlib

/-!
Degree histogram of a node/edge graph (`index.js`, class `GraphClass`)

A shallow embedding of `src/index.js`.

* JavaScript values that can reach the graph are `JsVal`: the JSON values plus
  `undefined`.  Numbers are the safe integers (`SafeInt`, of magnitude below 2^53),
  which a number holds exactly and prints in plain decimal; other numbers are not
  values of the model.  Arrays and objects carry a reference, because `===` compares
  them by identity.
* Converting a value to a string or to a property key can throw (an object with an own
  `toString` entry, which `JSON.parse` never makes callable): conversions return an
  `Option`, and a method that can be left by an exception returns a `Run`, the state
  reached together with the flag of the pending exception.
* A plain JavaScript object used as a map (`nodeDegrees`, `degreeHistogram`) is a
  `PropMap`: its own properties in enumeration order.  A property key is a string;
  `PropKey.idx n` stands for the canonical decimal numeral of `n` (an integer key,
  enumerated first and in ascending order), `PropKey.name s` for any other string
  (enumerated afterwards in insertion order).  The numerals that are integer keys are
  those below 2^32 - 1; the key of an identifier is an `idx` only below that bound, and
  the histogram writes degrees and loop counters, which an array of edges keeps at or
  below 2^32 - 1, where ascending order and enumeration order still agree.
* Object fields mutated by the methods become explicit state: every method takes
  the `GraphClass` value and returns the new one.
* The chart is embedded twice: in exact rational arithmetic (`JsNum`,
  `displayHistogram`) and in binary64 arithmetic, with every operation rounded to the
  nearest double (`F64`, `displayHistogram64`).
-/

/-! ## Values -/

/-- The integers that a JavaScript number holds exactly (`Number.isSafeInteger`). -/
structure SafeInt where
  val : Int
  safe : val.natAbs ≤ 9007199254740991
  deriving DecidableEq

instance : OfNat SafeInt 0 := ⟨⟨0, by decide⟩⟩
instance : OfNat SafeInt 1 := ⟨⟨1, by decide⟩⟩
instance : OfNat SafeInt 2 := ⟨⟨2, by decide⟩⟩
instance : OfNat SafeInt 3 := ⟨⟨3, by decide⟩⟩
instance : OfNat SafeInt 5 := ⟨⟨5, by decide⟩⟩

/-- JavaScript values: what `JSON.parse` can build, plus `undefined`. -/
inductive JsVal where
  | undefined
  | null
  | bool (b : Bool)
  | num (n : SafeInt)
  | str (s : String)
  | arr (ref : Nat) (items : List JsVal)
  | obj (ref : Nat) (props : List (String × JsVal))

/-- Strict equality `a === b`: primitives by value, arrays and objects by reference. -/
def strictEq : JsVal → JsVal → Bool
  | .undefined, .undefined => true
  | .null, .null => true
  | .bool a, .bool b => a == b
  | .num a, .num b => a.val == b.val
  | .str a, .str b => a == b
  | .arr r _, .arr r' _ => r == r'
  | .obj r _, .obj r' _ => r == r'
  | _, _ => false

/-- Truthiness of a value in a condition (`if (v)`). -/
def JsVal.truthy : JsVal → Bool
  | .undefined => false
  | .null => false
  | .bool b => b
  | .num n => n.val != 0
  | .str s => s != ""
  | .arr _ _ => true
  | .obj _ _ => true

/-- Property keys of a plain object. -/
inductive PropKey where
  | idx (n : Nat)
  | name (s : String)
  deriving DecidableEq, Repr

/-- Value of a decimal digit character. -/
def digitVal (c : Char) : Option Nat :=
  if '0' ≤ c ∧ c ≤ '9' then some (c.toNat - '0'.toNat) else none

/-- Reads a run of decimal digits. -/
def parseDigits : List Char → Nat → Option Nat
  | [], acc => some acc
  | c :: cs, acc =>
    match digitVal c with
    | some d => parseDigits cs (acc * 10 + d)
    | none => none

/-- The number a string denotes when it is a canonical decimal numeral
(digits only, no leading zero except for the numeral of zero itself). -/
def parseIndex (cs : List Char) : Option Nat :=
  match cs with
  | [] => none
  | ['0'] => some 0
  | '0' :: _ => none
  | _ => parseDigits cs 0

/-- The property key a string names: an integer key when the string is the canonical
numeral of an array index, that is of a number below 2^32 - 1. -/
def canonKey (s : String) : PropKey :=
  match parseIndex s.data with
  | some n => if n < 4294967295 then PropKey.idx n else PropKey.name s
  | none => PropKey.name s

mutual
/-- String conversion `String(v)`; `none` when it throws a `TypeError`.  An object is
converted by its `toString` method: the inherited one gives `[object Object]`; an own
`toString` entry is not callable, and neither it nor `valueOf` yields a primitive. -/
def JsVal.toJsString : JsVal → Option String
  | .undefined => some "undefined"
  | .null => some "null"
  | .bool true => some "true"
  | .bool false => some "false"
  | .num n => some (toString n.val)
  | .str s => some s
  | .arr _ items => JsVal.joinItems items
  | .obj _ props =>
    if props.any (fun p => p.1 == "toString") then none else some "[object Object]"
/-- The comma-separated conversion of an array (`Array.prototype.join`), which converts
the items from left to right. -/
def JsVal.joinItems : List JsVal → Option String
  | [] => some ""
  | [x] => JsVal.itemString x
  | x :: y :: rest =>
    match JsVal.itemString x with
    | none => none
    | some first =>
      match JsVal.joinItems (y :: rest) with
      | none => none
      | some others => some (first ++ "," ++ others)
/-- String conversion of an array element: `null` and `undefined` give the empty string. -/
def JsVal.itemString : JsVal → Option String
  | .undefined => some ""
  | .null => some ""
  | .bool true => some "true"
  | .bool false => some "false"
  | .num n => some (toString n.val)
  | .str s => some s
  | .arr _ items => JsVal.joinItems items
  | .obj _ props =>
    if props.any (fun p => p.1 == "toString") then none else some "[object Object]"
end

/-- The property key used by `obj[v]`: the key named by the string conversion of `v`;
`none` when the conversion throws. -/
def propertyKey (v : JsVal) : Option PropKey := v.toJsString.map canonKey

/-- The property key of a value whose conversion does not throw. -/
def keyOf (v : JsVal) : PropKey := (propertyKey v).getD (PropKey.name "")

/-! ## Plain objects used as maps -/

/-- Own properties of a plain object with number values, in enumeration order. -/
abbrev PropMap := List (PropKey × Nat)

/-- Enumeration order of keys: integer keys ascending, before all other keys. -/
def PropKey.sortsBefore : PropKey → PropKey → Bool
  | .idx a, .idx b => a < b
  | .idx _, .name _ => true
  | .name _, _ => false

/-- Own property keys, `Object.keys(o)`. -/
def PropMap.keys (o : PropMap) : List PropKey := o.map Prod.fst

/-- Own property values, `Object.values(o)`. -/
def PropMap.values (o : PropMap) : List Nat := o.map Prod.snd

/-- Own property lookup. -/
def PropMap.get? : PropMap → PropKey → Option Nat
  | [], _ => none
  | (k', v') :: rest, k => if k' = k then some v' else PropMap.get? rest k

/-- The test `o.hasOwnProperty(k)`. -/
def PropMap.hasOwnProperty (o : PropMap) (k : PropKey) : Bool := (o.get? k).isSome

/-- Defines or overwrites an own property: an existing key keeps its place, a new
integer key goes to its ascending position, any other new key goes last. -/
def PropMap.set : PropMap → PropKey → Nat → PropMap
  | [], k, v => [(k, v)]
  | (k', v') :: rest, k, v =>
    if k' = k then (k, v) :: rest
    else if k.sortsBefore k' then (k, v) :: (k', v') :: rest
    else (k', v') :: PropMap.set rest k v

/-- The assignment `o[k] = v` of a number to a plain object: the key `__proto__` is
the prototype accessor, which ignores a number, so no own property is written. -/
def PropMap.assign (o : PropMap) (k : PropKey) (v : Nat) : PropMap :=
  if k = PropKey.name "__proto__" then o else o.set k v

/-! ## The graph -/

/-- The field `this.graph`. -/
structure Graph where
  nodes : List JsVal
  edges : List (JsVal × JsVal)
  nodeDegrees : PropMap

/-- An instance of `GraphClass`. -/
structure GraphClass where
  graph : Graph
  degreeHistogram : PropMap

/-- The constructor: `new GraphClass()`. -/
def GraphClass.new : GraphClass :=
  { graph := { nodes := [], edges := [], nodeDegrees := [] }, degreeHistogram := [] }

/-- Method `addEdge(source, target)`. -/
def GraphClass.addEdge (g : GraphClass) (source target : JsVal) : GraphClass :=
  { g with graph := { g.graph with edges := g.graph.edges ++ [(source, target)] } }

/-- Method `computeDegree(node)`: the counter after the loop over the edges. -/
def GraphClass.computeDegree (g : GraphClass) (node : JsVal) : Nat :=
  g.graph.edges.foldl
    (fun degree edge => if strictEq edge.1 node || strictEq edge.2 node then degree + 1 else degree)
    0

/-- A run of statements on the object: the state reached and whether an exception is
on its way out. -/
structure Run where
  state : GraphClass
  thrown : Bool

/-- The loop of `addNodeDegreesAsAttributes` over the remaining nodes: the assignment
`this.graph.nodeDegrees[node] = this.computeDegree(node)` converts `node` to a property
key, and the loop is left at the first node whose conversion throws. -/
def storeDegrees : GraphClass → List JsVal → Run
  | g, [] => { state := g, thrown := false }
  | g, node :: rest =>
    match propertyKey node with
    | none => { state := g, thrown := true }
    | some key =>
      storeDegrees
        { g with graph := { g.graph with
            nodeDegrees := g.graph.nodeDegrees.assign key (g.computeDegree node) } }
        rest

/-- Method `addNodeDegreesAsAttributes()`; the method has no handler, so an exception of
the loop leaves it. -/
def GraphClass.addNodeDegreesAsAttributes (g : GraphClass) : Run :=
  storeDegrees g g.graph.nodes

/-- The nodes the loop of `addNodeDegreesAsAttributes` gets through: those before the
first one whose key conversion throws. -/
def processedNodes (nodes : List JsVal) : List JsVal :=
  nodes.takeWhile (fun m => (propertyKey m).isSome)

/-- The stored degree read back by `this.graph.nodeDegrees[node]`: `none` when the key
conversion throws or the key is not an own property. -/
def GraphClass.storedDegree (g : GraphClass) (node : JsVal) : Option Nat :=
  match propertyKey node with
  | none => none
  | some key => g.graph.nodeDegrees.get? key

/-! ## Loading -/

/-- The property read `v.k` for the names the loader reads (`nodes`, `links`, `id`,
`source`, `target`; no built-in prototype defines them): reading a property of `null` or
`undefined` throws (`none`), an object gives its own property or `undefined`, every
other value gives `undefined`. -/
def JsVal.getProp (v : JsVal) (k : String) : Option JsVal :=
  match v with
  | .undefined => none
  | .null => none
  | .obj _ props => some ((props.lookup k).getD .undefined)
  | _ => some .undefined

/-- The values a `for (... of v)` loop walks: the items of an array, the characters of a
string; any other value is not iterable and the loop throws (`none`). -/
def JsVal.iterate : JsVal → Option (List JsVal)
  | .arr _ items => some items
  | .str s => some (s.data.map (fun c => JsVal.str (String.singleton c)))
  | _ => none

/-- What `JSON.parse(fs.readFileSync(filePath, 'utf8'))` does: the read throws, the parse
throws, or a value comes back. -/
inductive FileContent where
  | unreadable
  | invalidJSON
  | parsed (data : JsVal)

/-- The loop `for (const movie of data.nodes)` over the walked values. -/
def pushNodes : GraphClass → List JsVal → Run
  | g, [] => { state := g, thrown := false }
  | g, movie :: rest =>
    match movie.getProp "id" with
    | none => { state := g, thrown := true }
    | some movieID =>
      pushNodes { g with graph := { g.graph with nodes := g.graph.nodes ++ [movieID] } } rest

/-- The loop `for (const link of data.links)` over the walked values. -/
def addLinks : GraphClass → List JsVal → Run
  | g, [] => { state := g, thrown := false }
  | g, link :: rest =>
    match link.getProp "source" with
    | none => { state := g, thrown := true }
    | some sourceNode =>
      match link.getProp "target" with
      | none => { state := g, thrown := true }
      | some targetNode => addLinks (g.addEdge sourceNode targetNode) rest

/-- The statement `if (data.nodes) { for (const movie of data.nodes) ... }`. -/
def loadNodes (g : GraphClass) (data : JsVal) : Run :=
  match data.getProp "nodes" with
  | none => { state := g, thrown := true }
  | some nodes =>
    if nodes.truthy then
      match nodes.iterate with
      | none => { state := g, thrown := true }
      | some items => pushNodes g items
    else { state := g, thrown := false }

/-- The statement `if (data.links) { for (const link of data.links) ... }`. -/
def loadLinks (g : GraphClass) (data : JsVal) : Run :=
  match data.getProp "links" with
  | none => { state := g, thrown := true }
  | some links =>
    if links.truthy then
      match links.iterate with
      | none => { state := g, thrown := true }
      | some items => addLinks g items
    else { state := g, thrown := false }

/-- The `try` block of `readGraphFromJSON`. -/
def tryLoad (g : GraphClass) (file : FileContent) : Run :=
  match file with
  | .unreadable => { state := g, thrown := true }
  | .invalidJSON => { state := g, thrown := true }
  | .parsed data =>
    let r := loadNodes g data
    if r.thrown then r else loadLinks r.state data

/-- Method `readGraphFromJSON(filePath)`: the `catch` clause logs the exception and
the method returns normally with the state the `try` block reached. -/
def GraphClass.readGraphFromJSON (g : GraphClass) (file : FileContent) : Run :=
  { state := (tryLoad g file).state, thrown := false }

/-- The field `v.k` as a value, for a `v` whose properties can be read. -/
def JsVal.field (v : JsVal) (k : String) : JsVal := (v.getProp k).getD .undefined

/-- The values the loop guarded by `if (v)` walks over the field value `v`: none when
`v` is falsy or cannot be iterated. -/
def JsVal.walked (v : JsVal) : List JsVal :=
  if v.truthy then v.iterate.getD [] else []

/-- Whether a property of the value can be read without an exception: every value but
`undefined` and `null`. -/
def JsVal.readable : JsVal → Bool
  | .undefined => false
  | .null => false
  | _ => true

/-- The entries a loop of the loader gets through: those before the first one whose
property read throws. -/
def readEntries (items : List JsVal) : List JsVal := items.takeWhile JsVal.readable

/-- Whether the statement `if (v) { for (const x of v) { ... x.k ... } }` throws: `v` is
truthy and either cannot be iterated or holds an entry whose property read throws. -/
def loopThrows (v : JsVal) : Bool :=
  v.truthy &&
    (match v.iterate with
     | none => true
     | some items => items.any (fun x => !x.readable))

/-- An optional list as the value of a field: absent, or an array. -/
def optionalArray (ref : Nat) : Option (List JsVal) → JsVal
  | none => .undefined
  | some items => .arr ref items

/-! ## The histogram -/

/-- Body of the first loop of `calculateDegreeHistogram` for one stored degree: a
bucket holding a truthy count is incremented, a missing or zero bucket is set to 1.
The key written is the decimal numeral of the degree. -/
def histogramCount (h : PropMap) (degree : Nat) : PropMap :=
  match h.get? (PropKey.idx degree) with
  | some c => if c ≠ 0 then h.assign (PropKey.idx degree) (c + 1)
              else h.assign (PropKey.idx degree) 1
  | none => h.assign (PropKey.idx degree) 1

/-- First loop of `calculateDegreeHistogram`: `for (const node in nodeDegrees)`, reading
`nodeDegrees[node]` for each enumerated own property. -/
def countDegrees (nodeDegrees : PropMap) (h : PropMap) : PropMap :=
  nodeDegrees.foldl (fun acc entry => histogramCount acc entry.2) h

/-- Second loop of `calculateDegreeHistogram`, started at counter `i`: the bound
`Object.keys(h).length` is read again before every round.  The result is the final
value of the counter and the histogram; `none` when the fuel runs out first. -/
def fillLoop : Nat → Nat → PropMap → Option (Nat × PropMap)
  | 0, _, _ => none
  | fuel + 1, i, h =>
    if i < h.keys.length then
      fillLoop fuel (i + 1)
        (if h.hasOwnProperty (PropKey.idx i) then h else h.assign (PropKey.idx i) 0)
    else some (i, h)

/-- The number of rounds of the second loop of `calculateDegreeHistogram`, started at
counter `i`: the same loop, counting the executions of its body. -/
def fillRounds : Nat → Nat → PropMap → Option Nat
  | 0, _, _ => none
  | fuel + 1, i, h =>
    if i < h.keys.length then
      (fillRounds fuel (i + 1)
        (if h.hasOwnProperty (PropKey.idx i) then h else h.assign (PropKey.idx i) 0)).map
        (fun rounds => rounds + 1)
    else some 0

/-- Method `calculateDegreeHistogram()`. -/
def GraphClass.calculateDegreeHistogram (fuel : Nat) (g : GraphClass) : Option GraphClass :=
  (fillLoop fuel 0 (countDegrees g.graph.nodeDegrees g.degreeHistogram)).map
    (fun r => { g with degreeHistogram := r.2 })

/-- The largest stored degree, `max(D.values())`, and 0 for the empty mapping. -/
def maxDegree (D : PropMap) : Nat := D.values.foldr max 0

/-- The number of properties of `D` whose value is exactly `k`. -/
def nodesWithDegree (D : PropMap) (k : Nat) : Nat := D.values.count k

/-- The keys of a plain object are the integer keys `ks`, strictly ascending. -/
def PropMap.IndexKeys (o : PropMap) (ks : List Nat) : Prop :=
  o.keys = ks.map PropKey.idx ∧ ks.Sorted (· < ·)

/-- A graph holding the given fields and an empty histogram. -/
def GraphClass.withDegrees (nodes : List JsVal) (edges : List (JsVal × JsVal))
    (D : PropMap) : GraphClass :=
  { graph := { nodes := nodes, edges := edges, nodeDegrees := D }, degreeHistogram := [] }

/-- Scenario 1 of the specification: nodes `[1,2,3]`, links `[(1,2),(2,3)]`. -/
def scenario1 : GraphClass :=
  { graph := { nodes := [.num 1, .num 2, .num 3],
               edges := [(.num 1, .num 2), (.num 2, .num 3)], nodeDegrees := [] },
    degreeHistogram := [] }

/-- Scenario 3 of the specification: node `[5]` with the self-loop `(5,5)`. -/
def scenario3 : GraphClass :=
  { graph := { nodes := [.num 5], edges := [(.num 5, .num 5)], nodeDegrees := [] },
    degreeHistogram := [] }

/-- A graph whose second node, an object with an own entry `toString`, has no property
key: nodes `[2, {toString: 1}, 3]` and the link `(3, 2)`. -/
def unconvertibleNode : GraphClass :=
  { graph := { nodes := [.num 2, .obj 9 [("toString", .num 1)], .num 3],
               edges := [(.num 3, .num 2)], nodeDegrees := [] },
    degreeHistogram := [] }

/-! ## Numbers and the chart -/

/-- JavaScript numbers in exact arithmetic: exact rationals and the three special values
of the arithmetic.  This is the renderer as the formulas read, without the rounding of
binary64, which `F64` below adds; the sign of zero is left out: every division by zero
in `displayHistogram` has a count as divisor, which is never `-0`. -/
inductive JsNum where
  | fin (q : ℚ)
  | posInf
  | negInf
  | nan
  deriving DecidableEq

/-- Negation `-a`. -/
def JsNum.neg : JsNum → JsNum
  | .fin a => .fin (-a)
  | .posInf => .negInf
  | .negInf => .posInf
  | .nan => .nan

/-- Addition `a + b`. -/
def JsNum.add : JsNum → JsNum → JsNum
  | .fin a, .fin b => .fin (a + b)
  | .nan, _ => .nan
  | _, .nan => .nan
  | .posInf, .negInf => .nan
  | .negInf, .posInf => .nan
  | .posInf, _ => .posInf
  | _, .posInf => .posInf
  | .negInf, _ => .negInf
  | _, .negInf => .negInf

/-- Subtraction `a - b`. -/
def JsNum.sub (a b : JsNum) : JsNum := a.add b.neg

/-- An infinity times a finite factor. -/
def JsNum.scaleInf (positive : Bool) (b : ℚ) : JsNum :=
  if b = 0 then .nan
  else if 0 < b then (if positive then .posInf else .negInf)
  else (if positive then .negInf else .posInf)

/-- Multiplication `a * b`. -/
def JsNum.mul : JsNum → JsNum → JsNum
  | .fin a, .fin b => .fin (a * b)
  | .nan, _ => .nan
  | _, .nan => .nan
  | .posInf, .fin b => JsNum.scaleInf true b
  | .negInf, .fin b => JsNum.scaleInf false b
  | .fin a, .posInf => JsNum.scaleInf true a
  | .fin a, .negInf => JsNum.scaleInf false a
  | .posInf, .posInf => .posInf
  | .negInf, .negInf => .posInf
  | .posInf, .negInf => .negInf
  | .negInf, .posInf => .negInf

/-- Division `a / b`. -/
def JsNum.div : JsNum → JsNum → JsNum
  | .fin a, .fin b =>
    if b = 0 then (if a = 0 then .nan else if 0 < a then .posInf else .negInf)
    else .fin (a / b)
  | .nan, _ => .nan
  | _, .nan => .nan
  | .fin _, .posInf => .fin 0
  | .fin _, .negInf => .fin 0
  | .posInf, .fin b => if 0 ≤ b then .posInf else .negInf
  | .negInf, .fin b => if 0 ≤ b then .negInf else .posInf
  | _, _ => .nan

/-- Rounding `Math.round(a)`: to the nearest integer, halves upwards. -/
def JsNum.round : JsNum → JsNum
  | .fin a => .fin (⌊a + 1 / 2⌋ : ℤ)
  | a => a

/-- The larger of two numbers, as `Math.max` combines its arguments. -/
def JsNum.max : JsNum → JsNum → JsNum
  | .nan, _ => .nan
  | _, .nan => .nan
  | .posInf, _ => .posInf
  | _, .posInf => .posInf
  | .negInf, b => b
  | a, .negInf => a
  | .fin a, .fin b => .fin (Max.max a b)

instance : Add JsNum := ⟨JsNum.add⟩
instance : Sub JsNum := ⟨JsNum.sub⟩
instance : Mul JsNum := ⟨JsNum.mul⟩
instance : Div JsNum := ⟨JsNum.div⟩
instance : Neg JsNum := ⟨JsNum.neg⟩
instance (n : Nat) : OfNat JsNum n := ⟨JsNum.fin n⟩

/-- A count or a length as a number. -/
def JsNum.ofNat (n : Nat) : JsNum := .fin n

/-- The call `Math.max(...values)`: minus infinity when there is no value. -/
def mathMax (values : List Nat) : JsNum :=
  values.foldl (fun acc v => acc.max (JsNum.ofNat v)) .negInf

/-- White space skipped by `parseInt` at the start of a string. -/
def isStrWhiteSpace (c : Char) : Bool :=
  let n := c.toNat
  (9 ≤ n && n ≤ 13) || n == 32 || n == 160 || n == 5760 || (8192 ≤ n && n ≤ 8202) ||
    n == 8232 || n == 8233 || n == 8239 || n == 8287 || n == 12288 || n == 65279

/-- Value of a character as a digit of the given radix (10 or 16). -/
def radixDigit (radix : Nat) (c : Char) : Option Nat :=
  let n := c.toNat
  if 48 ≤ n ∧ n ≤ 57 then some (n - 48)
  else if radix = 16 ∧ 97 ≤ n ∧ n ≤ 102 then some (n - 87)
  else if radix = 16 ∧ 65 ≤ n ∧ n ≤ 70 then some (n - 55)
  else none

/-- The value of the longest run of digits at the start, and whether any was read. -/
def readDigits (radix : Nat) : List Char → Nat → Bool → Nat × Bool
  | [], acc, seen => (acc, seen)
  | c :: cs, acc, seen =>
    match radixDigit radix c with
    | some d => readDigits radix cs (acc * radix + d) true
    | none => (acc, seen)

/-- The digits part of `parseInt`: an optional `0x` or `0X` selects radix 16. -/
def parseUnsigned (cs : List Char) : Option Nat :=
  let r := match cs with
    | '0' :: 'x' :: rest => readDigits 16 rest 0 false
    | '0' :: 'X' :: rest => readDigits 16 rest 0 false
    | _ => readDigits 10 cs 0 false
  if r.2 then some r.1 else none

/-- The call `parseInt(s)` on a string. -/
def parseIntString (s : String) : JsNum :=
  match s.data.dropWhile isStrWhiteSpace with
  | '-' :: rest =>
    match parseUnsigned rest with
    | some n => .fin (-(n : ℚ))
    | none => .nan
  | '+' :: rest =>
    match parseUnsigned rest with
    | some n => .fin n
    | none => .nan
  | cs =>
    match parseUnsigned cs with
    | some n => .fin n
    | none => .nan

/-- The call `parseInt(key)` on a property key. -/
def PropKey.parseInt : PropKey → JsNum
  | .idx n => .fin n
  | .name s => parseIntString s

/-- What a `text` element shows. -/
inductive TextBody where
  | literal (s : String)
  | key (k : PropKey)
  | number (x : JsNum)
  deriving DecidableEq

/-- Elements of the chart, with the attributes the templates fill in. -/
inductive SvgElem where
  | text (x y : JsNum) (anchor : String) (fontSize : Nat) (rotate : Option Int)
      (body : TextBody)
  | line (x1 y1 x2 y2 : JsNum)
  | rect (x y width height : JsNum)
  deriving DecidableEq

/-- The document: the attributes of the `svg` tag and the elements in order. -/
structure Svg where
  width : JsNum
  height : JsNum
  children : List SvgElem
  deriving DecidableEq

def svgWidth : JsNum := 700
def svgHeight : JsNum := 300
def marginTop : JsNum := 20
def marginRight : JsNum := 20
def marginBottom : JsNum := 40
def marginLeft : JsNum := 40
def barSpacing : JsNum := 5

/-- The constant `barCount`. -/
def barCount (h : PropMap) : JsNum := JsNum.ofNat h.keys.length

/-- The constant `barWidth`. -/
def barWidth (h : PropMap) : JsNum :=
  (svgWidth - marginLeft - marginRight - (barCount h - 1) * barSpacing) / barCount h

/-- The two axis labels. -/
def axisLabels : List SvgElem :=
  [ .text (svgWidth / 2) svgHeight "middle" 14 none (.literal "# of Nodes"),
    .text (-svgHeight / 2) 15 "middle" 14 (some (-90)) (.literal "# of Edges") ]

/-- The x-axis line. -/
def xAxisLine : SvgElem :=
  .line marginLeft (svgHeight - marginBottom) (svgWidth - marginRight)
    (svgHeight - marginBottom)

/-- The position `xTick` of the tick of a key. -/
def xTickPosition (bw : JsNum) (degree : PropKey) : JsNum :=
  marginLeft + ((bw + barSpacing) * degree.parseInt + bw / 2)

/-- The tick mark of a key on the x-axis. -/
def xTickLine (bw : JsNum) (degree : PropKey) : SvgElem :=
  .line (xTickPosition bw degree) (svgHeight - marginBottom)
    (xTickPosition bw degree) (svgHeight - marginBottom + 5)

/-- The label of a key under the x-axis. -/
def xTickLabel (bw : JsNum) (degree : PropKey) : SvgElem :=
  .text (xTickPosition bw degree) (svgHeight - marginBottom + 20) "middle" 12 none
    (.key degree)

/-- The loop over the histogram that draws the x-axis ticks: a tick and a label for
each key. -/
def xTicks (h : PropMap) (bw : JsNum) : List SvgElem :=
  h.keys.foldl (fun svg degree => svg ++ [xTickLine bw degree, xTickLabel bw degree]) []

/-- The y-axis line. -/
def yAxisLine : SvgElem :=
  .line marginLeft marginTop marginLeft (svgHeight - marginBottom)

/-- The label `yTickValue` of the `i`-th y-axis tick. -/
def yTickValue (maxValue : JsNum) (i : Nat) : JsNum :=
  ((maxValue / 5) * JsNum.ofNat i).round

/-- The position `yTickPosition` of the `i`-th y-axis tick. -/
def yTickPosition (i : Nat) : JsNum :=
  svgHeight - marginBottom - (JsNum.ofNat i / 5) * (svgHeight - marginTop - marginBottom)

/-- The `i`-th tick mark on the y-axis. -/
def yTickLine (i : Nat) : SvgElem :=
  .line (marginLeft - 5) (yTickPosition i) marginLeft (yTickPosition i)

/-- The label of the `i`-th tick on the y-axis. -/
def yTickLabel (maxValue : JsNum) (i : Nat) : SvgElem :=
  .text (marginLeft - 10) (yTickPosition i) "end" 12 none (.number (yTickValue maxValue i))

/-- The loop `for (let i = 0; i <= 5; i++)` that draws the y-axis ticks. -/
def yTicks (maxValue : JsNum) : List SvgElem :=
  (List.range 6).foldl (fun svg i => svg ++ [yTickLine i, yTickLabel maxValue i]) []

/-- The height `barHeight` of the bar of a bucket holding `count`. -/
def barHeight (maxValue : JsNum) (count : Nat) : JsNum :=
  (JsNum.ofNat count / maxValue) * (svgHeight - marginTop - marginBottom)

/-- The loop that draws the bars: the cursor `x` and the markup so far. -/
def drawBars (h : PropMap) (maxValue bw : JsNum) (x : JsNum) : JsNum × List SvgElem :=
  h.foldl
    (fun st entry =>
      (st.1 + (bw + barSpacing),
       st.2 ++ [ .rect st.1 (svgHeight - marginBottom - barHeight maxValue entry.2) bw
                   (barHeight maxValue entry.2) ]))
    (x, [])

/-- Method `displayHistogram()`: the markup handed to `fs.writeFileSync`. -/
def displayHistogram (h : PropMap) : Svg :=
  let maxValue := mathMax h.values
  { width := svgWidth
    height := svgHeight
    children := axisLabels ++ [xAxisLine] ++ xTicks h (barWidth h) ++ [yAxisLine] ++
      yTicks maxValue ++ (drawBars h maxValue (barWidth h) marginLeft).2 }

/-- Tests on the kind of an element. -/
def SvgElem.isRect : SvgElem → Bool
  | .rect _ _ _ _ => true
  | _ => false

def SvgElem.isLine : SvgElem → Bool
  | .line _ _ _ _ => true
  | _ => false

def SvgElem.isText : SvgElem → Bool
  | .text _ _ _ _ _ _ => true
  | _ => false

/-- The rectangles of a document, in order. -/
def Svg.rects (s : Svg) : List SvgElem := s.children.filter SvgElem.isRect

/-- A tick followed by its label, for each item in turn. -/
def tickLabelPairs {α : Type} (tick label : α → SvgElem) : List α → List SvgElem
  | [] => []
  | x :: xs => tick x :: label x :: tickLabelPairs tick label xs

/-- The invariant of the own properties of a plain object: no key twice, integer keys
ascending and before every other key. -/
def PropMap.WellFormed (o : PropMap) : Prop :=
  o.keys.Nodup ∧ o.keys.Pairwise (fun a b => b.sortsBefore a = false)

/-- The sum of all counts of a histogram. -/
def histogramTotal (h : PropMap) : Nat := h.values.sum

/-- The distinct identifiers of a node list: one entry for each class of strictly
equal entries. -/
def distinctNodes : List JsVal → List JsVal
  | [] => []
  | x :: xs =>
    if xs.any (fun y => strictEq x y) then distinctNodes xs else x :: distinctNodes xs

/-- A graph whose two nodes, the number 1 and the string "1", share a property key. -/
def collidingNodes (edges : List (JsVal × JsVal)) : GraphClass :=
  { graph := { nodes := [.num 1, .str "1"], edges := edges, nodeDegrees := [] },
    degreeHistogram := [] }

/-- One more than the largest of the integer keys `ks`, and 0 when there is none. -/
def keyBound (ks : List Nat) : Nat := if ks = [] then 0 else ks.foldr max 0 + 1

/-- A mapping with the sparse degrees 3 and 7. -/
def sparseDegrees : PropMap := [(.name "a", 3), (.name "b", 7)]

/-- A histogram holding only the keys 3 and 7. -/
def sparseHistogram : PropMap := [(.idx 3, 1), (.idx 7, 1)]

/-- The degree mapping of scenario 1. -/
def scenario1Degrees : PropMap := [(.idx 1, 1), (.idx 2, 2), (.idx 3, 1)]

/-- The histogram of scenario 1. -/
def scenario1Histogram : PropMap := [(.idx 0, 0), (.idx 1, 2), (.idx 2, 1)]

/-- The bar width the specification gives for `n` buckets, as a rational. -/
def specBarWidth (n : Nat) : ℚ := (640 - 5 * ((n : ℚ) - 1)) / n

/-- The largest count of a histogram, and 0 for the empty one. -/
def maxCount (h : PropMap) : Nat := h.values.foldr max 0

/-- The bar height the specification gives to a count `c` when the largest count is
`m`, as a rational. -/
def specBarHeight (c m : Nat) : ℚ := (c : ℚ) / m * 240

/-- Rounding to the nearest integer, halves upwards. -/
def roundHalfUp (q : ℚ) : ℤ := ⌊q + 1 / 2⌋

/-- The label the specification gives to the `i`-th y-axis tick when the largest count
is `m`. -/
def specTickLabel (m i : Nat) : ℤ := roundHalfUp ((m : ℚ) * i / 5)

/-! ## Binary64 numbers and the chart in binary64 -/

/-- The number of binary digits of `n`; the first argument bounds the recursion. -/
def bitLength : Nat → Nat → Nat
  | 0, _ => 0
  | fuel + 1, n => if n = 0 then 0 else bitLength fuel (n / 2) + 1

/-- JavaScript numbers as binary64 values: a finite value is `mant * 2 ^ expo`, kept
with an odd mantissa of at most 53 binary digits (or as `0 * 2 ^ 0`).  The exponent is
not bounded and the sign of zero is left out: the chart of a histogram whose counts,
keys and number of buckets stay below `2 ^ 53` neither overflows nor reaches the
subnormal range, and every division by zero in `displayHistogram` has a count as
divisor. -/
inductive F64 where
  | fin (mant : Int) (expo : Int)
  | posInf
  | negInf
  | nan
  deriving DecidableEq

/-- Moves the factors 2 of `n` into the exponent. -/
def stripTwos : Nat → Nat → Int → Nat × Int
  | 0, n, e => (n, e)
  | fuel + 1, n, e => if n % 2 = 0 ∧ n ≠ 0 then stripTwos fuel (n / 2) (e + 1) else (n, e)

/-- The value `± n * 2 ^ e` in normal form. -/
def F64.make (negative : Bool) (n : Nat) (e : Int) : F64 :=
  if n = 0 then .fin 0 0
  else
    let r := stripTwos (bitLength (n + 1) n) n e
    .fin (if negative then -(r.1 : Int) else (r.1 : Int)) r.2

/-- The binary64 value nearest to `± n * 2 ^ e`: the mantissa is cut to 53 binary
digits, to the nearest and to even on a tie. -/
def F64.nearest (negative : Bool) (n : Nat) (e : Int) : F64 :=
  let bits := bitLength (n + 1) n
  if bits ≤ 53 then F64.make negative n e
  else
    let s := bits - 53
    let q := n / 2 ^ s
    let r := n % 2 ^ s
    let half := 2 ^ (s - 1)
    let q' := if half < r ∨ (r = half ∧ q % 2 = 1) then q + 1 else q
    F64.make negative q' (e + s)

/-- A count or a length as a number. -/
def F64.ofNat (n : Nat) : F64 := F64.nearest false n 0

/-- Negation `-a`. -/
def F64.neg : F64 → F64
  | .fin m e => .fin (-m) e
  | .posInf => .negInf
  | .negInf => .posInf
  | .nan => .nan

/-- Addition `a + b`: the exact sum, rounded. -/
def F64.add : F64 → F64 → F64
  | .fin ma ea, .fin mb eb =>
    let e0 := min ea eb
    let m := ma * ((2 ^ (ea - e0).toNat : Nat) : Int) + mb * ((2 ^ (eb - e0).toNat : Nat) : Int)
    F64.nearest (decide (m < 0)) m.natAbs e0
  | .nan, _ => .nan
  | _, .nan => .nan
  | .posInf, .negInf => .nan
  | .negInf, .posInf => .nan
  | .posInf, _ => .posInf
  | _, .posInf => .posInf
  | .negInf, _ => .negInf
  | _, .negInf => .negInf

/-- Subtraction `a - b`. -/
def F64.sub (a b : F64) : F64 := a.add b.neg

/-- An infinity times a finite factor with mantissa `m`. -/
def F64.scaleInf (positive : Bool) (m : Int) : F64 :=
  if m = 0 then .nan
  else if 0 < m then (if positive then .posInf else .negInf)
  else (if positive then .negInf else .posInf)

/-- Multiplication `a * b`: the exact product, rounded. -/
def F64.mul : F64 → F64 → F64
  | .fin ma ea, .fin mb eb => F64.nearest (decide (ma * mb < 0)) (ma * mb).natAbs (ea + eb)
  | .nan, _ => .nan
  | _, .nan => .nan
  | .posInf, .fin m _ => F64.scaleInf true m
  | .negInf, .fin m _ => F64.scaleInf false m
  | .fin m _, .posInf => F64.scaleInf true m
  | .fin m _, .negInf => F64.scaleInf false m
  | .posInf, .posInf => .posInf
  | .negInf, .negInf => .posInf
  | .posInf, .negInf => .negInf
  | .negInf, .posInf => .negInf

/-- Division `a / b`: the exact quotient, rounded.  The quotient of the mantissas is
taken to more than 64 binary digits, with one more digit recording a remainder. -/
def F64.div : F64 → F64 → F64
  | .fin ma ea, .fin mb eb =>
    if mb = 0 then (if ma = 0 then .nan else if 0 < ma then .posInf else .negInf)
    else
      let k := bitLength (mb.natAbs + 1) mb.natAbs + 64
      let num := ma.natAbs * 2 ^ k
      let q := num / mb.natAbs
      let r := num % mb.natAbs
      F64.nearest (decide ((ma < 0) ≠ (mb < 0))) (2 * q + (if r = 0 then 0 else 1))
        (ea - eb - k - 1)
  | .nan, _ => .nan
  | _, .nan => .nan
  | .fin _ _, .posInf => .fin 0 0
  | .fin _ _, .negInf => .fin 0 0
  | .posInf, .fin m _ => if 0 ≤ m then .posInf else .negInf
  | .negInf, .fin m _ => if 0 ≤ m then .negInf else .posInf
  | _, _ => .nan

/-- Rounding `Math.round(a)`: to the nearest integer, halves upwards. -/
def F64.round : F64 → F64
  | .fin m e =>
    if 0 ≤ e then .fin m e
    else
      let d : Int := ((2 ^ (-e).toNat : Nat) : Int)
      let n := (2 * m + d) / (2 * d)
      F64.make (decide (n < 0)) n.natAbs 0
  | a => a

/-- The larger of two numbers, as `Math.max` combines its arguments. -/
def F64.max : F64 → F64 → F64
  | .nan, _ => .nan
  | _, .nan => .nan
  | .posInf, _ => .posInf
  | _, .posInf => .posInf
  | .negInf, b => b
  | a, .negInf => a
  | .fin ma ea, .fin mb eb =>
    let e0 := min ea eb
    if ma * ((2 ^ (ea - e0).toNat : Nat) : Int) ≤ mb * ((2 ^ (eb - e0).toNat : Nat) : Int)
    then .fin mb eb else .fin ma ea

instance : Add F64 := ⟨F64.add⟩
instance : Sub F64 := ⟨F64.sub⟩
instance : Mul F64 := ⟨F64.mul⟩
instance : Div F64 := ⟨F64.div⟩
instance : Neg F64 := ⟨F64.neg⟩
instance (n : Nat) : OfNat F64 n := ⟨F64.ofNat n⟩

/-- The exact value of a binary64 number. -/
def F64.toJsNum : F64 → JsNum
  | .fin m e => .fin ((m : ℚ) * (2 : ℚ) ^ e)
  | .posInf => .posInf
  | .negInf => .negInf
  | .nan => .nan

/-- The call `Math.max(...values)` in binary64. -/
def mathMax64 (values : List Nat) : F64 :=
  values.foldl (fun acc v => acc.max (F64.ofNat v)) .negInf

/-- The call `parseInt(s)` on a string, in binary64. -/
def parseIntString64 (s : String) : F64 :=
  match s.data.dropWhile isStrWhiteSpace with
  | '-' :: rest =>
    match parseUnsigned rest with
    | some n => -(F64.ofNat n)
    | none => .nan
  | '+' :: rest =>
    match parseUnsigned rest with
    | some n => F64.ofNat n
    | none => .nan
  | cs =>
    match parseUnsigned cs with
    | some n => F64.ofNat n
    | none => .nan

/-- The call `parseInt(key)` on a property key, in binary64. -/
def PropKey.parseInt64 : PropKey → F64
  | .idx n => F64.ofNat n
  | .name s => parseIntString64 s

/-- A `text` element with binary64 coordinates. -/
def text64 (x y : F64) (anchor : String) (fontSize : Nat) (rotate : Option Int)
    (body : TextBody) : SvgElem :=
  .text x.toJsNum y.toJsNum anchor fontSize rotate body

/-- A `line` element with binary64 coordinates. -/
def line64 (x1 y1 x2 y2 : F64) : SvgElem :=
  .line x1.toJsNum y1.toJsNum x2.toJsNum y2.toJsNum

/-- A `rect` element with binary64 attributes. -/
def rect64 (x y width height : F64) : SvgElem :=
  .rect x.toJsNum y.toJsNum width.toJsNum height.toJsNum

def svgWidth64 : F64 := 700
def svgHeight64 : F64 := 300
def marginTop64 : F64 := 20
def marginRight64 : F64 := 20
def marginBottom64 : F64 := 40
def marginLeft64 : F64 := 40
def barSpacing64 : F64 := 5

/-- The constant `barCount`, in binary64. -/
def barCount64 (h : PropMap) : F64 := F64.ofNat h.keys.length

/-- The constant `barWidth`, in binary64. -/
def barWidth64 (h : PropMap) : F64 :=
  (svgWidth64 - marginLeft64 - marginRight64 - (barCount64 h - 1) * barSpacing64) /
    barCount64 h

/-- The two axis labels, in binary64. -/
def axisLabels64 : List SvgElem :=
  [ text64 (svgWidth64 / 2) svgHeight64 "middle" 14 none (.literal "# of Nodes"),
    text64 (-svgHeight64 / 2) 15 "middle" 14 (some (-90)) (.literal "# of Edges") ]

/-- The x-axis line, in binary64. -/
def xAxisLine64 : SvgElem :=
  line64 marginLeft64 (svgHeight64 - marginBottom64) (svgWidth64 - marginRight64)
    (svgHeight64 - marginBottom64)

/-- The position `xTick` of the tick of a key, in binary64. -/
def xTickPosition64 (bw : F64) (degree : PropKey) : F64 :=
  marginLeft64 + ((bw + barSpacing64) * degree.parseInt64 + bw / 2)

/-- The tick mark of a key on the x-axis, in binary64. -/
def xTickLine64 (bw : F64) (degree : PropKey) : SvgElem :=
  line64 (xTickPosition64 bw degree) (svgHeight64 - marginBottom64)
    (xTickPosition64 bw degree) (svgHeight64 - marginBottom64 + 5)

/-- The label of a key under the x-axis, in binary64. -/
def xTickLabel64 (bw : F64) (degree : PropKey) : SvgElem :=
  text64 (xTickPosition64 bw degree) (svgHeight64 - marginBottom64 + 20) "middle" 12 none
    (.key degree)

/-- The loop that draws the x-axis ticks, in binary64. -/
def xTicks64 (h : PropMap) (bw : F64) : List SvgElem :=
  h.keys.foldl (fun svg degree => svg ++ [xTickLine64 bw degree, xTickLabel64 bw degree]) []

/-- The y-axis line, in binary64. -/
def yAxisLine64 : SvgElem :=
  line64 marginLeft64 marginTop64 marginLeft64 (svgHeight64 - marginBottom64)

/-- The label `yTickValue` of the `i`-th y-axis tick, in binary64. -/
def yTickValue64 (maxValue : F64) (i : Nat) : F64 :=
  ((maxValue / 5) * F64.ofNat i).round

/-- The position `yTickPosition` of the `i`-th y-axis tick, in binary64. -/
def yTickPosition64 (i : Nat) : F64 :=
  svgHeight64 - marginBottom64 -
    (F64.ofNat i / 5) * (svgHeight64 - marginTop64 - marginBottom64)

/-- The `i`-th tick mark on the y-axis, in binary64. -/
def yTickLine64 (i : Nat) : SvgElem :=
  line64 (marginLeft64 - 5) (yTickPosition64 i) marginLeft64 (yTickPosition64 i)

/-- The label of the `i`-th tick on the y-axis, in binary64. -/
def yTickLabel64 (maxValue : F64) (i : Nat) : SvgElem :=
  text64 (marginLeft64 - 10) (yTickPosition64 i) "end" 12 none
    (.number (yTickValue64 maxValue i).toJsNum)

/-- The loop that draws the y-axis ticks, in binary64. -/
def yTicks64 (maxValue : F64) : List SvgElem :=
  (List.range 6).foldl (fun svg i => svg ++ [yTickLine64 i, yTickLabel64 maxValue i]) []

/-- The height `barHeight` of the bar of a bucket holding `count`, in binary64. -/
def barHeight64 (maxValue : F64) (count : Nat) : F64 :=
  (F64.ofNat count / maxValue) * (svgHeight64 - marginTop64 - marginBottom64)

/-- The loop that draws the bars, in binary64: the cursor `x` and the markup so far. -/
def drawBars64 (h : PropMap) (maxValue bw : F64) (x : F64) : F64 × List SvgElem :=
  h.foldl
    (fun st entry =>
      (st.1 + (bw + barSpacing64),
       st.2 ++ [ rect64 st.1 (svgHeight64 - marginBottom64 - barHeight64 maxValue entry.2) bw
                   (barHeight64 maxValue entry.2) ]))
    (x, [])

/-- Method `displayHistogram()` in binary64: the markup handed to `fs.writeFileSync`. -/
def displayHistogram64 (h : PropMap) : Svg :=
  let maxValue := mathMax64 h.values
  { width := svgWidth64.toJsNum
    height := svgHeight64.toJsNum
    children := axisLabels64 ++ [xAxisLine64] ++ xTicks64 h (barWidth64 h) ++ [yAxisLine64] ++
      yTicks64 maxValue ++ (drawBars64 h maxValue (barWidth64 h) marginLeft64).2 }

/-! ## Reachable states and sample inputs -/

/-- States reached from a new `GraphClass` by calls of its methods. -/
inductive Reachable : GraphClass → Prop where
  | new : Reachable GraphClass.new
  | addEdge (g : GraphClass) (source target : JsVal) :
      Reachable g → Reachable (g.addEdge source target)
  | readGraphFromJSON (g : GraphClass) (file : FileContent) :
      Reachable g → Reachable (g.readGraphFromJSON file).state
  | addNodeDegreesAsAttributes (g : GraphClass) :
      Reachable g → Reachable g.addNodeDegreesAsAttributes.state
  | calculateDegreeHistogram (g g' : GraphClass) (fuel : Nat) :
      Reachable g → g.calculateDegreeHistogram fuel = some g' → Reachable g'

/-- A file holding one node with id 1 under `nodes` and the single entry `null` under
`links`. -/
def brokenLinksFile : FileContent :=
  .parsed (.obj 0 [("nodes", .arr 1 [.obj 2 [("id", .num 1)]]), ("links", .arr 3 [.null])])

/-- A histogram with the counts 25 and 48. -/
def roundedHeights : PropMap := [(.idx 0, 25), (.idx 1, 48)]

/-- A mapping with one node, of degree 6. -/
def lonelyDegree : PropMap := [(.name "a", 6)]

/-- The histogram of `lonelyDegree`: the keys 0 to 6, one node in the last bucket. -/
def sevenBuckets : PropMap :=
  [(.idx 0, 0), (.idx 1, 0), (.idx 2, 0), (.idx 3, 0), (.idx 4, 0), (.idx 5, 0), (.idx 6, 1)]

/-- The file of scenario 1: nodes 1, 2, 3 and links (1,2), (2,3). -/
def scenario1File : FileContent :=
  .parsed (.obj 0
    [("nodes", .arr 1 [.obj 2 [("id", .num 1)], .obj 3 [("id", .num 2)],
        .obj 4 [("id", .num 3)]]),
     ("links", .arr 5 [.obj 6 [("source", .num 1), ("target", .num 2)],
        .obj 7 [("source", .num 2), ("target", .num 3)]])])

/-! ## Theorems -/

/-! ### Loading -/

/-- The node loop appends the ids of the entries it walks, in order, up to the first
entry whose property read throws, and touches nothing else. -/
theorem pushNodes_spec (xs : List JsVal) :
    ∀ g : GraphClass, ∃ k, k ≤ xs.length ∧
      (pushNodes g xs).state.graph.nodes =
        g.graph.nodes ++ (xs.take k).map (fun x => x.field "id") ∧
      (pushNodes g xs).state.graph.edges = g.graph.edges ∧
      (pushNodes g xs).state.graph.nodeDegrees = g.graph.nodeDegrees ∧
      (pushNodes g xs).state.degreeHistogram = g.degreeHistogram ∧
      ((pushNodes g xs).thrown = false → k = xs.length) ∧
      ((∀ x ∈ xs, (x.getProp "id").isSome = true) → (pushNodes g xs).thrown = false) := by
  induction xs with
  | nil => intro g; exact ⟨0, by simp [pushNodes]⟩
  | cons x rest ih =>
    intro g
    cases hx : x.getProp "id" with
    | none =>
      refine ⟨0, by simp, by simp [pushNodes, hx], by simp [pushNodes, hx],
        by simp [pushNodes, hx], by simp [pushNodes, hx], by simp [pushNodes, hx], ?_⟩
      intro hall
      have := hall x (List.mem_cons_self _ _)
      simp [hx] at this
    | some v =>
      obtain ⟨k, hk, hn, he, hd, hh, ht, hok⟩ :=
        ih { g with graph := { g.graph with nodes := g.graph.nodes ++ [v] } }
      refine ⟨k + 1, by simp; omega, ?_, ?_, ?_, ?_, ?_, ?_⟩
      · simp only [pushNodes, hx, hn]
        simp [JsVal.field, hx]
      · simp only [pushNodes, hx, he]
      · simp only [pushNodes, hx, hd]
      · simp only [pushNodes, hx, hh]
      · intro h
        simp only [pushNodes, hx] at h
        simp [ht h]
      · intro hall
        simp only [pushNodes, hx]
        exact hok (fun y hy => hall y (List.mem_cons_of_mem _ hy))

/-- The link loop appends the endpoint pairs of the entries it walks, in order, up to
the first entry whose property read throws, and touches nothing else. -/
theorem addLinks_spec (xs : List JsVal) :
    ∀ g : GraphClass, ∃ k, k ≤ xs.length ∧
      (addLinks g xs).state.graph.edges =
        g.graph.edges ++ (xs.take k).map (fun x => (x.field "source", x.field "target")) ∧
      (addLinks g xs).state.graph.nodes = g.graph.nodes ∧
      (addLinks g xs).state.graph.nodeDegrees = g.graph.nodeDegrees ∧
      (addLinks g xs).state.degreeHistogram = g.degreeHistogram ∧
      ((addLinks g xs).thrown = false → k = xs.length) ∧
      ((∀ x ∈ xs, (x.getProp "source").isSome = true ∧ (x.getProp "target").isSome = true) →
        (addLinks g xs).thrown = false) := by
  induction xs with
  | nil => intro g; exact ⟨0, by simp [addLinks]⟩
  | cons x rest ih =>
    intro g
    cases hs : x.getProp "source" with
    | none =>
      refine ⟨0, by simp, by simp [addLinks, hs], by simp [addLinks, hs],
        by simp [addLinks, hs], by simp [addLinks, hs], by simp [addLinks, hs], ?_⟩
      intro hall
      have := (hall x (List.mem_cons_self _ _)).1
      simp [hs] at this
    | some sv =>
      cases ht : x.getProp "target" with
      | none =>
        refine ⟨0, by simp, by simp [addLinks, hs, ht], by simp [addLinks, hs, ht],
          by simp [addLinks, hs, ht], by simp [addLinks, hs, ht],
          by simp [addLinks, hs, ht], ?_⟩
        intro hall
        have := (hall x (List.mem_cons_self _ _)).2
        simp [ht] at this
      | some tv =>
        obtain ⟨k, hk, he, hn, hd, hh, hthr, hok⟩ := ih (g.addEdge sv tv)
        refine ⟨k + 1, by simp; omega, ?_, ?_, ?_, ?_, ?_, ?_⟩
        · simp only [addLinks, hs, ht, he]
          simp [JsVal.field, hs, ht, GraphClass.addEdge]
        · simp only [addLinks, hs, ht, hn]
          rfl
        · simp only [addLinks, hs, ht, hd]
          rfl
        · simp only [addLinks, hs, ht, hh]
          rfl
        · intro h
          simp only [addLinks, hs, ht] at h
          simp [hthr h]
        · intro hall
          simp only [addLinks, hs, ht]
          exact hok (fun y hy => hall y (List.mem_cons_of_mem _ hy))

/-- What the `if (data.nodes)` statement leaves: old nodes followed by ids read from
the input, everything else untouched. -/
theorem loadNodes_frame (g : GraphClass) (data : JsVal) :
    (∃ ns, (loadNodes g data).state.graph.nodes = g.graph.nodes ++ ns) ∧
    (loadNodes g data).state.graph.edges = g.graph.edges ∧
    (loadNodes g data).state.graph.nodeDegrees = g.graph.nodeDegrees ∧
    (loadNodes g data).state.degreeHistogram = g.degreeHistogram := by
  unfold loadNodes
  cases data.getProp "nodes" with
  | none => exact ⟨⟨[], by simp⟩, rfl, rfl, rfl⟩
  | some nodes =>
    by_cases ht : nodes.truthy = true
    · cases hi : nodes.iterate with
      | none => simp [ht, hi]
      | some items =>
        obtain ⟨k, _, hn, he, hd, hh, _, _⟩ := pushNodes_spec items g
        simp only [ht, if_true, hi]
        exact ⟨⟨_, hn⟩, he, hd, hh⟩
    · simp [ht]

/-- What the `if (data.links)` statement leaves: old edges followed by pairs read from
the input, everything else untouched. -/
theorem loadLinks_frame (g : GraphClass) (data : JsVal) :
    (∃ es, (loadLinks g data).state.graph.edges = g.graph.edges ++ es) ∧
    (loadLinks g data).state.graph.nodes = g.graph.nodes ∧
    (loadLinks g data).state.graph.nodeDegrees = g.graph.nodeDegrees ∧
    (loadLinks g data).state.degreeHistogram = g.degreeHistogram := by
  unfold loadLinks
  cases data.getProp "links" with
  | none => exact ⟨⟨[], by simp⟩, rfl, rfl, rfl⟩
  | some links =>
    by_cases ht : links.truthy = true
    · cases hi : links.iterate with
      | none => simp [ht, hi]
      | some items =>
        obtain ⟨k, _, he, hn, hd, hh, _, _⟩ := addLinks_spec items g
        simp only [ht, if_true, hi]
        exact ⟨⟨_, he⟩, hn, hd, hh⟩
    · simp [ht]

/-- The `try` block only appends to the node list and to the edge list. -/
theorem tryLoad_frame (g : GraphClass) (file : FileContent) :
    (∃ ns, (tryLoad g file).state.graph.nodes = g.graph.nodes ++ ns) ∧
    (∃ es, (tryLoad g file).state.graph.edges = g.graph.edges ++ es) ∧
    (tryLoad g file).state.graph.nodeDegrees = g.graph.nodeDegrees ∧
    (tryLoad g file).state.degreeHistogram = g.degreeHistogram := by
  cases file with
  | unreadable => exact ⟨⟨[], by simp [tryLoad]⟩, ⟨[], by simp [tryLoad]⟩, rfl, rfl⟩
  | invalidJSON => exact ⟨⟨[], by simp [tryLoad]⟩, ⟨[], by simp [tryLoad]⟩, rfl, rfl⟩
  | parsed data =>
    obtain ⟨⟨ns, hn⟩, he, hd, hh⟩ := loadNodes_frame g data
    simp only [tryLoad]
    by_cases hthr : (loadNodes g data).thrown = true
    · simp only [hthr, if_true]
      exact ⟨⟨ns, hn⟩, ⟨[], by simp [he]⟩, hd, hh⟩
    · obtain ⟨⟨es, he2⟩, hn2, hd2, hh2⟩ := loadLinks_frame (loadNodes g data).state data
      have hf : (loadNodes g data).thrown = false := by simpa using hthr
      simp only [hf, Bool.false_eq_true, if_false]
      exact ⟨⟨ns, by rw [hn2, hn]⟩, ⟨es, by rw [he2, he]⟩, by rw [hd2, hd], by rw [hh2, hh]⟩

theorem JsVal.getProp_eq_none (v : JsVal) (k : String) :
    v.getProp k = none ↔ v.readable = false := by
  cases v <;> simp [JsVal.getProp, JsVal.readable]

theorem JsVal.getProp_of_readable (v : JsVal) (k : String) (h : v.readable = true) :
    v.getProp k = some (v.field k) := by
  cases hv : v.getProp k with
  | none => rw [(JsVal.getProp_eq_none v k).mp hv] at h; cases h
  | some x => simp [JsVal.field, hv]

/-- The node loop pushes the ids of exactly the entries before the first unreadable
one, and throws exactly when there is an unreadable entry. -/
theorem pushNodes_exact (items : List JsVal) :
    ∀ g : GraphClass,
      (pushNodes g items).state.graph.nodes =
        g.graph.nodes ++ (readEntries items).map (fun x => x.field "id") ∧
      (pushNodes g items).thrown = items.any (fun x => !x.readable) := by
  induction items with
  | nil => intro g; simp [pushNodes, readEntries]
  | cons x xs ih =>
    intro g
    cases hr : x.readable with
    | false =>
      have hx := (JsVal.getProp_eq_none x "id").mpr hr
      simp [pushNodes, hx, readEntries, List.takeWhile_cons, hr]
    | true =>
      have hx := JsVal.getProp_of_readable x "id" hr
      obtain ⟨h1, h2⟩ := ih { g with graph := { g.graph with nodes := g.graph.nodes ++ [x.field "id"] } }
      simp only [pushNodes, hx]
      refine ⟨?_, ?_⟩
      · rw [h1]
        simp [readEntries, List.takeWhile_cons, hr]
      · rw [h2]
        simp [hr]

/-- The link loop adds the pairs of exactly the entries before the first unreadable
one, and throws exactly when there is an unreadable entry. -/
theorem addLinks_exact (items : List JsVal) :
    ∀ g : GraphClass,
      (addLinks g items).state.graph.edges =
        g.graph.edges ++
          (readEntries items).map (fun x => (x.field "source", x.field "target")) ∧
      (addLinks g items).thrown = items.any (fun x => !x.readable) := by
  induction items with
  | nil => intro g; simp [addLinks, readEntries]
  | cons x xs ih =>
    intro g
    cases hr : x.readable with
    | false =>
      have hx := (JsVal.getProp_eq_none x "source").mpr hr
      simp [addLinks, hx, readEntries, List.takeWhile_cons, hr]
    | true =>
      have hs := JsVal.getProp_of_readable x "source" hr
      have ht := JsVal.getProp_of_readable x "target" hr
      obtain ⟨h1, h2⟩ := ih (g.addEdge (x.field "source") (x.field "target"))
      simp only [addLinks, hs, ht]
      refine ⟨?_, ?_⟩
      · rw [h1]
        simp [readEntries, List.takeWhile_cons, hr, GraphClass.addEdge]
      · rw [h2]
        simp [hr]

/-- The node statement, exactly: what it appends and whether it throws. -/
theorem loadNodes_exact (g : GraphClass) (data nv : JsVal)
    (hnv : data.getProp "nodes" = some nv) :
    (loadNodes g data).state.graph.nodes =
      g.graph.nodes ++ (readEntries nv.walked).map (fun x => x.field "id") ∧
    (loadNodes g data).state.graph.edges = g.graph.edges ∧
    (loadNodes g data).thrown = loopThrows nv := by
  unfold loadNodes JsVal.walked loopThrows
  rw [hnv]
  by_cases ht : nv.truthy = true
  · cases hi : nv.iterate with
    | none => simp [ht, hi, readEntries]
    | some items =>
      obtain ⟨h1, h2⟩ := pushNodes_exact items g
      obtain ⟨_, _, _, he, _⟩ := pushNodes_spec items g
      simp only [ht, hi, if_true, Option.getD_some, Bool.true_and]
      exact ⟨h1, he, h2⟩
  · simp [ht, readEntries]

/-- The link statement, exactly: what it appends and whether it throws. -/
theorem loadLinks_exact (g : GraphClass) (data lv : JsVal)
    (hlv : data.getProp "links" = some lv) :
    (loadLinks g data).state.graph.edges =
      g.graph.edges ++
        (readEntries lv.walked).map (fun x => (x.field "source", x.field "target")) ∧
    (loadLinks g data).state.graph.nodes = g.graph.nodes ∧
    (loadLinks g data).thrown = loopThrows lv := by
  unfold loadLinks JsVal.walked loopThrows
  rw [hlv]
  by_cases ht : lv.truthy = true
  · cases hi : lv.iterate with
    | none => simp [ht, hi, readEntries]
    | some items =>
      obtain ⟨h1, h2⟩ := addLinks_exact items g
      obtain ⟨_, _, _, hn, _⟩ := addLinks_spec items g
      simp only [ht, hi, if_true, Option.getD_some, Bool.true_and]
      exact ⟨h1, hn, h2⟩
  · simp [ht, readEntries]

/-- The `try` block on a parsed value whose fields can be read, exactly: the node list
grows by the ids of the `nodes` entries before the first unreadable one; the edge list
grows by the pairs of the `links` entries before the first unreadable one when the node
statement did not throw, and by nothing when it did; an exception is raised exactly when
one of the two statements throws. -/
theorem tryLoad_exact (g : GraphClass) (data nv lv : JsVal)
    (hnv : data.getProp "nodes" = some nv) (hlv : data.getProp "links" = some lv) :
    (tryLoad g (.parsed data)).state.graph.nodes =
      g.graph.nodes ++ (readEntries nv.walked).map (fun x => x.field "id") ∧
    (tryLoad g (.parsed data)).state.graph.edges =
      g.graph.edges ++
        (if loopThrows nv then []
         else (readEntries lv.walked).map (fun x => (x.field "source", x.field "target"))) ∧
    (tryLoad g (.parsed data)).thrown = (loopThrows nv || loopThrows lv) := by
  obtain ⟨hn, he, ht⟩ := loadNodes_exact g data nv hnv
  obtain ⟨he2, hn2, ht2⟩ := loadLinks_exact (loadNodes g data).state data lv hlv
  simp only [tryLoad]
  cases hthr : loopThrows nv with
  | true =>
    rw [hthr] at ht
    simp only [ht, if_true, Bool.true_or]
    exact ⟨hn, by simp [he], trivial⟩
  | false =>
    rw [hthr] at ht
    simp only [ht, Bool.false_eq_true, if_false, Bool.false_or]
    exact ⟨by rw [hn2, hn], by rw [he2, he], ht2⟩

/-! ### The chart -/

theorem JsNum.fin_add_fin (a b : ℚ) : (JsNum.fin a + JsNum.fin b : JsNum) = JsNum.fin (a + b) :=
  rfl

theorem JsNum.fin_sub_fin (a b : ℚ) : (JsNum.fin a - JsNum.fin b : JsNum) = JsNum.fin (a - b) := by
  show JsNum.add (JsNum.fin a) (JsNum.neg (JsNum.fin b)) = _
  simp [JsNum.add, JsNum.neg, sub_eq_add_neg]

theorem JsNum.fin_mul_fin (a b : ℚ) : (JsNum.fin a * JsNum.fin b : JsNum) = JsNum.fin (a * b) :=
  rfl

theorem JsNum.fin_div_fin (a b : ℚ) (hb : b ≠ 0) :
    (JsNum.fin a / JsNum.fin b : JsNum) = JsNum.fin (a / b) := by
  show JsNum.div (JsNum.fin a) (JsNum.fin b) = _
  simp [JsNum.div, hb]

theorem JsNum.ofNat_eq (n : Nat) [n.AtLeastTwo] : (OfNat.ofNat n : JsNum) = JsNum.fin (n : ℚ) :=
  rfl

theorem foldl_append_filter {α β : Type} (p : β → Bool) (f : α → List β)
    (hf : ∀ x, (f x).filter p = []) (l : List α) :
    ∀ init : List β, (l.foldl (fun acc x => acc ++ f x) init).filter p = init.filter p := by
  induction l with
  | nil => intro init; rfl
  | cons x xs ih =>
    intro init
    simp only [List.foldl_cons]
    rw [ih, List.filter_append, hf, List.append_nil]

theorem foldl_append_countP {α β : Type} (p : β → Bool) (f : α → List β) (c : Nat)
    (hf : ∀ x, (f x).countP p = c) (l : List α) :
    ∀ init : List β,
      (l.foldl (fun acc x => acc ++ f x) init).countP p = init.countP p + c * l.length := by
  induction l with
  | nil => intro init; simp
  | cons x xs ih =>
    intro init
    simp only [List.foldl_cons, List.length_cons]
    rw [ih, List.countP_append, hf]
    ring

/-- The bar loop only appends to the markup, and its cursor does not depend on it. -/
theorem drawBars_foldl (mv bw : JsNum) (h : PropMap) :
    ∀ st : JsNum × List SvgElem,
      h.foldl
        (fun st entry =>
          (st.1 + (bw + barSpacing),
           st.2 ++ [ SvgElem.rect st.1 (svgHeight - marginBottom - barHeight mv entry.2) bw
                       (barHeight mv entry.2) ]))
        st =
      ((drawBars h mv bw st.1).1, st.2 ++ (drawBars h mv bw st.1).2) := by
  induction h with
  | nil => intro st; simp [drawBars]
  | cons e rest ih =>
    intro st
    simp only [drawBars, List.foldl_cons]
    rw [ih, ih (st.1 + (bw + barSpacing), _)]
    simp [drawBars]

theorem drawBars_cons (mv bw x : JsNum) (e : PropKey × Nat) (rest : PropMap) :
    (drawBars (e :: rest) mv bw x).2 =
      SvgElem.rect x (svgHeight - marginBottom - barHeight mv e.2) bw (barHeight mv e.2) ::
        (drawBars rest mv bw (x + (bw + barSpacing))).2 := by
  have := drawBars_foldl mv bw rest
    (x + (bw + barSpacing),
      [SvgElem.rect x (svgHeight - marginBottom - barHeight mv e.2) bw (barHeight mv e.2)])
  simp only [drawBars, List.foldl_cons, List.nil_append] at this ⊢
  rw [this]
  simp

theorem drawBars_length (mv bw : JsNum) (h : PropMap) :
    ∀ x, (drawBars h mv bw x).2.length = h.length := by
  induction h with
  | nil => intro x; simp [drawBars]
  | cons e rest ih => intro x; rw [drawBars_cons]; simp [ih]

theorem drawBars_all_rect (mv bw : JsNum) (h : PropMap) :
    ∀ x, (drawBars h mv bw x).2.filter SvgElem.isRect = (drawBars h mv bw x).2 := by
  induction h with
  | nil => intro x; simp [drawBars]
  | cons e rest ih => intro x; rw [drawBars_cons]; simp [SvgElem.isRect, ih]

/-- The `i`-th rectangle of the bar loop run with a finite bar width. -/
theorem drawBars_getElem? (mv : JsNum) (q : ℚ) (h : PropMap) :
    ∀ (a : ℚ) (i : Nat), (drawBars h mv (.fin q) (.fin a)).2[i]? =
      h[i]?.map (fun e =>
        SvgElem.rect (.fin (a + i * (q + 5))) (svgHeight - marginBottom - barHeight mv e.2)
          (.fin q) (barHeight mv e.2)) := by
  induction h with
  | nil => intro a i; simp [drawBars]
  | cons e rest ih =>
    intro a i
    rw [drawBars_cons]
    cases i with
    | zero => simp
    | succ j =>
      have hx : (JsNum.fin a + (JsNum.fin q + barSpacing) : JsNum) = JsNum.fin (a + (q + 5)) := by
        simp [barSpacing, JsNum.ofNat_eq, JsNum.fin_add_fin]
      rw [hx]
      simp only [List.getElem?_cons_succ]
      rw [ih]
      congr 1
      funext e'
      congr 2
      push_cast
      ring

theorem foldl_tickLabelPairs {α : Type} (tick label : α → SvgElem) (l : List α) :
    ∀ init : List SvgElem,
      l.foldl (fun svg x => svg ++ [tick x, label x]) init =
        init ++ tickLabelPairs tick label l := by
  induction l with
  | nil => intro init; simp [tickLabelPairs]
  | cons x xs ih => intro init; simp [tickLabelPairs, ih]

theorem xTicks_eq (h : PropMap) (bw : JsNum) :
    xTicks h bw = tickLabelPairs (xTickLine bw) (xTickLabel bw) h.keys := by
  unfold xTicks
  rw [foldl_tickLabelPairs]
  rfl

theorem yTicks_eq (mv : JsNum) :
    yTicks mv = tickLabelPairs yTickLine (yTickLabel mv) [0, 1, 2, 3, 4, 5] := by
  unfold yTicks
  rw [foldl_tickLabelPairs]
  rfl

theorem tickLabelPairs_counts {α : Type} (tick label : α → SvgElem)
    (ht : ∀ x, (tick x).isLine = true ∧ (tick x).isText = false ∧ (tick x).isRect = false)
    (hl : ∀ x, (label x).isLine = false ∧ (label x).isText = true ∧ (label x).isRect = false)
    (l : List α) :
    (tickLabelPairs tick label l).countP SvgElem.isLine = l.length ∧
    (tickLabelPairs tick label l).countP SvgElem.isText = l.length ∧
    (tickLabelPairs tick label l).countP SvgElem.isRect = 0 := by
  induction l with
  | nil => simp [tickLabelPairs]
  | cons x xs ih =>
    obtain ⟨h1, h2, h3⟩ := ih
    simp [tickLabelPairs, List.countP_cons, ht x, hl x, h1, h2, h3]

theorem xTicks_counts (h : PropMap) (bw : JsNum) :
    (xTicks h bw).countP SvgElem.isLine = h.length ∧
    (xTicks h bw).countP SvgElem.isText = h.length ∧
    (xTicks h bw).countP SvgElem.isRect = 0 := by
  rw [xTicks_eq]
  have := tickLabelPairs_counts (xTickLine bw) (xTickLabel bw)
    (fun x => ⟨rfl, rfl, rfl⟩) (fun x => ⟨rfl, rfl, rfl⟩) h.keys
  simpa [PropMap.keys] using this

theorem yTicks_counts (mv : JsNum) :
    (yTicks mv).countP SvgElem.isLine = 6 ∧
    (yTicks mv).countP SvgElem.isText = 6 ∧
    (yTicks mv).countP SvgElem.isRect = 0 := by
  rw [yTicks_eq]
  exact tickLabelPairs_counts yTickLine (yTickLabel mv)
    (fun x => ⟨rfl, rfl, rfl⟩) (fun x => ⟨rfl, rfl, rfl⟩) [0, 1, 2, 3, 4, 5]

theorem xTicks_filter_rect (h : PropMap) (bw : JsNum) :
    (xTicks h bw).filter SvgElem.isRect = [] := by
  rw [← List.length_eq_zero, ← List.countP_eq_length_filter]
  exact (xTicks_counts h bw).2.2

theorem yTicks_filter_rect (mv : JsNum) : (yTicks mv).filter SvgElem.isRect = [] := by
  rw [← List.length_eq_zero, ← List.countP_eq_length_filter]
  exact (yTicks_counts mv).2.2

theorem drawBars_counts (mv bw : JsNum) (h : PropMap) (x : JsNum) :
    (drawBars h mv bw x).2.countP SvgElem.isRect = h.length ∧
    (drawBars h mv bw x).2.countP SvgElem.isLine = 0 ∧
    (drawBars h mv bw x).2.countP SvgElem.isText = 0 := by
  induction h generalizing x with
  | nil => simp [drawBars]
  | cons e rest ih =>
    obtain ⟨h1, h2, h3⟩ := ih (x + (bw + barSpacing))
    rw [drawBars_cons]
    simp [List.countP_cons, SvgElem.isRect, SvgElem.isLine, SvgElem.isText, h1, h2, h3]

theorem displayHistogram_rects (h : PropMap) :
    (displayHistogram h).rects = (drawBars h (mathMax h.values) (barWidth h) marginLeft).2 := by
  simp only [Svg.rects, displayHistogram, List.filter_append, xTicks_filter_rect,
    yTicks_filter_rect, drawBars_all_rect]
  simp [axisLabels, xAxisLine, yAxisLine, SvgElem.isRect]

theorem barWidth_eq (h : PropMap) (hne : h ≠ []) :
    barWidth h = .fin (specBarWidth h.length) := by
  have hn : ((h.length : ℕ) : ℚ) ≠ 0 := by
    have : h.length ≠ 0 := fun e => hne (List.length_eq_zero.mp e)
    exact_mod_cast this
  unfold barWidth barCount specBarWidth
  simp only [svgWidth, marginLeft, marginRight, barSpacing, JsNum.ofNat, PropMap.keys,
    List.length_map, JsNum.ofNat_eq]
  have h1 : (1 : JsNum) = JsNum.fin 1 := by
    show JsNum.fin ((1 : ℕ) : ℚ) = _
    simp
  rw [h1]
  simp only [JsNum.fin_sub_fin, JsNum.fin_mul_fin, JsNum.fin_div_fin _ _ hn]
  congr 1
  push_cast
  ring

/-! ### Plain objects -/

theorem PropMap.get?_set_self (o : PropMap) (k : PropKey) (v : Nat) :
    (o.set k v).get? k = some v := by
  induction o with
  | nil => simp [PropMap.set, PropMap.get?]
  | cons p rest ih =>
    obtain ⟨k', v'⟩ := p
    unfold PropMap.set
    by_cases h : k' = k
    · simp [h, PropMap.get?]
    · by_cases hb : k.sortsBefore k' = true
      · simp [h, hb, PropMap.get?]
      · simp [h, hb, PropMap.get?, ih]

theorem PropMap.get?_set_ne (o : PropMap) (k k2 : PropKey) (v : Nat) (hne : k ≠ k2) :
    (o.set k v).get? k2 = o.get? k2 := by
  induction o with
  | nil => simp [PropMap.set, PropMap.get?, hne]
  | cons p rest ih =>
    obtain ⟨k', v'⟩ := p
    unfold PropMap.set
    by_cases h : k' = k
    · subst h
      simp [PropMap.get?, hne]
    · by_cases hb : k.sortsBefore k' = true
      · simp [h, hb, PropMap.get?, hne]
      · simp [h, hb, PropMap.get?, ih]

theorem PropMap.get?_assign_self (o : PropMap) (k : PropKey) (v : Nat)
    (hk : k ≠ PropKey.name "__proto__") : (o.assign k v).get? k = some v := by
  simp [PropMap.assign, hk, PropMap.get?_set_self]

theorem PropMap.get?_assign_ne (o : PropMap) (k k2 : PropKey) (v : Nat) (hne : k ≠ k2) :
    (o.assign k v).get? k2 = o.get? k2 := by
  unfold PropMap.assign
  split
  · rfl
  · exact PropMap.get?_set_ne o k k2 v hne

/-- Reading key `k` after a run of assignments `o[key m] = f m`: when every assignment
to `k` writes `c`, and `k` either held `c` before or is assigned at least once, the
result holds `c`. -/
theorem PropMap.get?_foldl_assign (f : JsVal → Nat) (k : PropKey) (c : Nat)
    (hk : k ≠ PropKey.name "__proto__") (ns : List JsVal) :
    ∀ o : PropMap, (∀ m ∈ ns, keyOf m = k → f m = c) →
      (o.get? k = some c ∨ ∃ m ∈ ns, keyOf m = k) →
      (ns.foldl (fun acc m => acc.assign (keyOf m) (f m)) o).get? k = some c := by
  induction ns with
  | nil =>
    intro o _ h
    rcases h with h | ⟨m, hm, _⟩
    · simpa using h
    · simp at hm
  | cons m rest ih =>
    intro o hall h
    simp only [List.foldl_cons]
    apply ih
    · intro m' hm' hkey
      exact hall m' (List.mem_cons_of_mem _ hm') hkey
    · by_cases hmk : keyOf m = k
      · left
        rw [hmk, hall m (List.mem_cons_self _ _) hmk]
        exact PropMap.get?_assign_self o k c hk
      · rcases h with h | ⟨m', hm', hkey⟩
        · left
          rw [PropMap.get?_assign_ne o _ k _ hmk]
          exact h
        · right
          rcases List.mem_cons.mp hm' with rfl | hin
          · exact absurd hkey hmk
          · exact ⟨m', hin, hkey⟩

/-! ### The histogram -/

theorem PropMap.assign_idx (o : PropMap) (n v : Nat) :
    o.assign (PropKey.idx n) v = o.set (PropKey.idx n) v := by
  simp [PropMap.assign]

theorem PropMap.get?_eq_none_iff (o : PropMap) (k : PropKey) :
    o.get? k = none ↔ k ∉ o.keys := by
  induction o with
  | nil => simp [PropMap.get?, PropMap.keys]
  | cons p rest ih =>
    obtain ⟨k', v'⟩ := p
    by_cases h : k' = k
    · simp [PropMap.get?, PropMap.keys, h]
    · have h2 : ¬ k = k' := fun e => h e.symm
      simp only [PropMap.keys] at ih
      simp [PropMap.get?, PropMap.keys, h, h2, ih]

theorem PropMap.hasOwnProperty_iff (o : PropMap) (k : PropKey) :
    o.hasOwnProperty k = true ↔ k ∈ o.keys := by
  unfold PropMap.hasOwnProperty
  rw [Option.isSome_iff_ne_none, Ne, PropMap.get?_eq_none_iff]
  simp

theorem PropMap.indexKeys_length (o : PropMap) (ks : List Nat) (h : o.IndexKeys ks) :
    o.keys.length = ks.length := by
  rw [h.1, List.length_map]

theorem PropMap.indexKeys_mem (o : PropMap) (ks : List Nat) (h : o.IndexKeys ks) (n : Nat) :
    PropKey.idx n ∈ o.keys ↔ n ∈ ks := by
  rw [h.1, List.mem_map]
  constructor
  · rintro ⟨m, hm, e⟩
    cases e
    exact hm
  · intro hn
    exact ⟨n, hn, rfl⟩

/-- Writing an integer key into an object whose keys are ascending integer keys keeps
them so, and adds exactly that key. -/
theorem PropMap.set_indexKeys (n v : Nat) :
    ∀ (o : PropMap) (ks : List Nat), o.IndexKeys ks →
      ∃ ks', (o.set (PropKey.idx n) v).IndexKeys ks' ∧ ∀ m, m ∈ ks' ↔ m = n ∨ m ∈ ks := by
  intro o
  induction o with
  | nil =>
    intro ks h
    refine ⟨[n], ⟨by simp [PropMap.set, PropMap.keys], by simp⟩, ?_⟩
    intro m
    have hks : ks = [] := by
      have := h.1
      simp [PropMap.keys] at this
      exact this
    simp [hks]
  | cons p rest ih =>
    intro ks h
    obtain ⟨k', v'⟩ := p
    obtain ⟨hkeys, hsorted⟩ := h
    cases ks with
    | nil => simp [PropMap.keys] at hkeys
    | cons a ks0 =>
      simp only [PropMap.keys, List.map_cons, List.cons.injEq] at hkeys
      obtain ⟨hk', hrest⟩ := hkeys
      subst hk'
      have hs := List.sorted_cons.mp hsorted
      unfold PropMap.set
      by_cases hEq : PropKey.idx a = PropKey.idx n
      · have han : a = n := by injection hEq
        subst han
        refine ⟨a :: ks0, ⟨?_, hsorted⟩, ?_⟩
        · simp [PropMap.keys, hrest]
        · intro m
          simp
      · have han : a ≠ n := fun e => hEq (by rw [e])
        by_cases hlt : n < a
        · refine ⟨n :: a :: ks0, ⟨?_, ?_⟩, ?_⟩
          · simp [hEq, PropKey.sortsBefore, hlt, PropMap.keys, hrest]
          · refine List.sorted_cons.mpr ⟨?_, hsorted⟩
            intro b hb
            rcases List.mem_cons.mp hb with rfl | hb
            · exact hlt
            · exact lt_trans hlt (hs.1 b hb)
          · intro m
            simp
        · obtain ⟨ks1, hik, hmem⟩ := ih ks0 ⟨hrest, hs.2⟩
          refine ⟨a :: ks1, ⟨?_, ?_⟩, ?_⟩
          · have := hik.1
            simp only [PropMap.keys] at this
            simp [hEq, PropKey.sortsBefore, hlt, PropMap.keys, this]
          · refine List.sorted_cons.mpr ⟨?_, hik.2⟩
            intro b hb
            rcases (hmem b).mp hb with rfl | hb
            · omega
            · exact hs.1 b hb
          · intro m
            simp only [List.mem_cons, hmem]
            tauto

theorem histogramCount_eq_set (h : PropMap) (d : Nat) :
    histogramCount h d = h.set (PropKey.idx d) ((h.get? (PropKey.idx d)).getD 0 + 1) := by
  unfold histogramCount
  cases hg : h.get? (PropKey.idx d) with
  | none => simp [PropMap.assign_idx]
  | some c =>
    by_cases hc : c = 0
    · simp [hc, PropMap.assign_idx]
    · simp [hc, PropMap.assign_idx]

theorem histogramCount_get? (h : PropMap) (d : Nat) (k : PropKey) :
    (histogramCount h d).get? k =
      if k = PropKey.idx d then some ((h.get? (PropKey.idx d)).getD 0 + 1) else h.get? k := by
  rw [histogramCount_eq_set]
  by_cases hk : k = PropKey.idx d
  · subst hk
    simp [PropMap.get?_set_self]
  · have : PropKey.idx d ≠ k := fun e => hk e.symm
    simp [hk, PropMap.get?_set_ne _ _ _ _ this]

/-- The first loop leaves ascending integer keys: the old ones and the degrees seen. -/
theorem countDegrees_indexKeys (D : PropMap) :
    ∀ (h : PropMap) (ks : List Nat), h.IndexKeys ks →
      ∃ ks', (countDegrees D h).IndexKeys ks' ∧ ∀ m, m ∈ ks' ↔ m ∈ D.values ∨ m ∈ ks := by
  induction D with
  | nil =>
    intro h ks hik
    exact ⟨ks, hik, by simp [PropMap.values]⟩
  | cons e rest ih =>
    intro h ks hik
    obtain ⟨ks1, hik1, hmem1⟩ := PropMap.set_indexKeys e.2
      ((h.get? (PropKey.idx e.2)).getD 0 + 1) h ks hik
    rw [← histogramCount_eq_set] at hik1
    obtain ⟨ks2, hik2, hmem2⟩ := ih (histogramCount h e.2) ks1 hik1
    refine ⟨ks2, ?_, ?_⟩
    · simpa [countDegrees] using hik2
    · intro m
      rw [hmem2, hmem1]
      simp only [PropMap.values, List.map_cons, List.mem_cons]
      tauto

/-- The first loop adds to every bucket the number of stored degrees equal to its key
(a missing bucket counts from 0) and writes no other key. -/
theorem countDegrees_get? (D : PropMap) :
    ∀ (h : PropMap) (k : Nat), (countDegrees D h).get? (PropKey.idx k) =
      if nodesWithDegree D k = 0 then h.get? (PropKey.idx k)
      else some ((h.get? (PropKey.idx k)).getD 0 + nodesWithDegree D k) := by
  induction D with
  | nil => intro h k; simp [countDegrees, nodesWithDegree, PropMap.values]
  | cons e rest ih =>
    intro h k
    have hstep : countDegrees (e :: rest) h = countDegrees rest (histogramCount h e.2) := by
      simp [countDegrees]
    rw [hstep, ih, histogramCount_get?]
    have hcount : nodesWithDegree (e :: rest) k =
        nodesWithDegree rest k + (if e.2 = k then 1 else 0) := by
      simp [nodesWithDegree, PropMap.values, List.count_cons]
    by_cases hk : e.2 = k
    · subst hk
      simp only [hcount, if_true]
      by_cases h0 : nodesWithDegree rest e.2 = 0
      · simp [h0]
      · simp [h0]; omega
    · have hk2 : ¬ PropKey.idx k = PropKey.idx e.2 := by
        intro e'
        injection e' with e''
        exact hk e''.symm
      simp [hcount, hk, hk2]

/-! ### The fill loop -/

theorem sorted_eq_range (ks : List Nat) (hs : ks.Sorted (· < ·)) (B : Nat)
    (hmem : ∀ m, m ∈ ks ↔ m < B) : ks = List.range B := by
  apply List.eq_of_perm_of_sorted _ hs (List.sorted_lt_range B)
  rw [List.perm_ext_iff_of_nodup hs.nodup (List.nodup_range B)]
  intro a
  rw [hmem a, List.mem_range]

theorem sorted_length_gt (ks : List Nat) (hs : ks.Sorted (· < ·)) (i k : Nat)
    (hall : ∀ j < i, j ∈ ks) (hk : k ∈ ks) (hik : i ≤ k) : i < ks.length := by
  have hsub : insert k (Finset.range i) ⊆ ks.toFinset := by
    intro x hx
    rw [List.mem_toFinset]
    rcases Finset.mem_insert.mp hx with rfl | hx
    · exact hk
    · exact hall x (Finset.mem_range.mp hx)
  have hcard := Finset.card_le_card hsub
  rw [List.toFinset_card_of_nodup hs.nodup,
    Finset.card_insert_of_not_mem (by simp; omega), Finset.card_range] at hcard
  omega

/-- The fill loop, started at counter `i` on ascending integer keys that contain every
integer below `i` and whose largest key is `B - 1`: it stops with the counter at `B`,
the keys `0 .. B-1`, the old buckets untouched and the new ones holding 0. -/
theorem fillLoop_spec : ∀ (d i B : Nat) (h : PropMap) (ks : List Nat) (fuel : Nat),
    B = i + d → h.IndexKeys ks → (∀ j < i, j ∈ ks) → (∀ k ∈ ks, k < B) →
    (i < B → B - 1 ∈ ks) → d + 1 ≤ fuel →
    ∃ h', fillLoop fuel i h = some (B, h') ∧ h'.IndexKeys (List.range B) ∧
      ∀ k, h'.get? (PropKey.idx k) =
        if (h.get? (PropKey.idx k)).isSome then h.get? (PropKey.idx k)
        else if k < B then some 0 else none := by
  intro d
  induction d with
  | zero =>
    intro i B h ks fuel hB hik hlow hup _ hfuel
    have hBi : B = i := by omega
    subst hBi
    have hks : ks = List.range B := sorted_eq_range ks hik.2 B
      (fun m => ⟨fun hm => hup m hm, fun hm => hlow m hm⟩)
    obtain ⟨f, rfl⟩ : ∃ f, fuel = f + 1 := ⟨fuel - 1, by omega⟩
    refine ⟨h, ?_, ?_, ?_⟩
    · have hlen : h.keys.length = B := by
        rw [PropMap.indexKeys_length h ks hik, hks, List.length_range]
      simp [fillLoop, hlen]
    · rw [← hks]; exact hik
    · intro k
      cases hg : h.get? (PropKey.idx k) with
      | some c => simp
      | none =>
        have hnot : PropKey.idx k ∉ h.keys := (PropMap.get?_eq_none_iff h _).mp hg
        rw [PropMap.indexKeys_mem h ks hik k] at hnot
        have : ¬ k < B := fun hk => hnot (hlow k hk)
        simp [this]
  | succ d ih =>
    intro i B h ks fuel hB hik hlow hup hmax hfuel
    obtain ⟨f, rfl⟩ : ∃ f, fuel = f + 1 := ⟨fuel - 1, by omega⟩
    have hiB : i < B := by omega
    have hlen : i < h.keys.length := by
      rw [PropMap.indexKeys_length h ks hik]
      exact sorted_length_gt ks hik.2 i (B - 1) hlow (hmax hiB) (by omega)
    by_cases hhas : h.hasOwnProperty (PropKey.idx i) = true
    · have hi : i ∈ ks :=
        (PropMap.indexKeys_mem h ks hik i).mp ((PropMap.hasOwnProperty_iff h _).mp hhas)
      obtain ⟨h', hrun, hkeys, hget⟩ := ih (i + 1) B h ks f (by omega) hik
        (fun j hj => by
          rcases Nat.lt_succ_iff_lt_or_eq.mp hj with hj | rfl
          · exact hlow j hj
          · exact hi)
        hup (fun _ => hmax hiB) (by omega)
      refine ⟨h', ?_, hkeys, hget⟩
      simp [fillLoop, hlen, hhas, hrun]
    · obtain ⟨ks2, hik2, hmem2⟩ := PropMap.set_indexKeys i 0 h ks hik
      obtain ⟨h', hrun, hkeys, hget⟩ := ih (i + 1) B (h.set (PropKey.idx i) 0) ks2 f
        (by omega) hik2
        (fun j hj => by
          rw [hmem2]
          rcases Nat.lt_succ_iff_lt_or_eq.mp hj with hj | rfl
          · exact Or.inr (hlow j hj)
          · exact Or.inl rfl)
        (fun k hk => by
          rcases (hmem2 k).mp hk with rfl | hk
          · exact hiB
          · exact hup k hk)
        (fun _ => (hmem2 _).mpr (Or.inr (hmax hiB))) (by omega)
      refine ⟨h', ?_, hkeys, ?_⟩
      · simp [fillLoop, hlen, hhas, PropMap.assign_idx, hrun]
      · intro k
        rw [hget k]
        have hnone : h.get? (PropKey.idx i) = none := by
          unfold PropMap.hasOwnProperty at hhas
          cases hg : h.get? (PropKey.idx i) with
          | none => rfl
          | some c => simp [hg] at hhas
        by_cases hki : k = i
        · subst hki
          simp [PropMap.get?_set_self, hnone, hiB]
        · have hne : PropKey.idx i ≠ PropKey.idx k := by
            intro e
            injection e with e'
            exact hki e'.symm
          rw [PropMap.get?_set_ne _ _ _ _ hne]

theorem maxDegree_ge (D : PropMap) : ∀ d ∈ D.values, d ≤ maxDegree D := by
  induction D with
  | nil => intro d hd; simp [PropMap.values] at hd
  | cons e rest ih =>
    intro d hd
    simp only [PropMap.values, List.map_cons, List.mem_cons] at hd
    simp only [maxDegree, PropMap.values, List.map_cons, List.foldr_cons]
    rcases hd with rfl | hd
    · exact le_max_left _ _
    · exact le_trans (ih d hd) (le_max_right _ _)

theorem maxDegree_mem (D : PropMap) (hD : D ≠ []) : maxDegree D ∈ D.values := by
  induction D with
  | nil => exact absurd rfl hD
  | cons e rest ih =>
    simp only [maxDegree, PropMap.values, List.map_cons, List.foldr_cons, List.mem_cons]
    by_cases hrest : rest = []
    · subst hrest
      left
      simp
    · rcases max_choice e.2 (List.foldr max 0 (List.map Prod.snd rest)) with hm | hm
      · left; exact hm
      · right
        rw [hm]
        exact ih hrest

/-- The number of buckets after `calculateDegreeHistogram` on an empty histogram. -/
theorem histogram_run (D : PropMap) (fuel : Nat) (B : Nat)
    (hB : B = if D = [] then 0 else maxDegree D + 1) (hfuel : B + 1 ≤ fuel) :
    ∃ h', fillLoop fuel 0 (countDegrees D []) = some (B, h') ∧
      h'.IndexKeys (List.range B) ∧
      ∀ k, h'.get? (PropKey.idx k) = if k < B then some (nodesWithDegree D k) else none := by
  obtain ⟨ks, hik, hmem⟩ := countDegrees_indexKeys D [] []
    ⟨by simp [PropMap.keys], List.sorted_nil⟩
  have hmem' : ∀ m, m ∈ ks ↔ m ∈ D.values := by
    intro m
    rw [hmem]
    simp
  have hup : ∀ k ∈ ks, k < B := by
    intro k hk
    have hkD := (hmem' k).mp hk
    have hne : D ≠ [] := by
      intro e
      subst e
      simp [PropMap.values] at hkD
    have := maxDegree_ge D k hkD
    rw [hB, if_neg hne]
    omega
  have hmax : 0 < B → B - 1 ∈ ks := by
    intro hpos
    have hne : D ≠ [] := by
      intro e
      rw [hB, if_pos e] at hpos
      exact absurd hpos (lt_irrefl 0)
    rw [hmem', hB, if_neg hne]
    exact maxDegree_mem D hne
  obtain ⟨h', hrun, hkeys, hget⟩ := fillLoop_spec B 0 B (countDegrees D []) ks fuel
    (by omega) hik (fun j hj => absurd hj (Nat.not_lt_zero j)) hup hmax hfuel
  refine ⟨h', hrun, hkeys, ?_⟩
  intro k
  rw [hget k, countDegrees_get?]
  by_cases h0 : nodesWithDegree D k = 0
  · simp [h0, PropMap.get?]
  · have hkD : k ∈ D.values := by
      unfold nodesWithDegree at h0
      exact List.count_pos_iff.mp (Nat.pos_of_ne_zero h0)
    have hlt : k < B := hup k ((hmem' k).mpr hkD)
    simp [h0, PropMap.get?, hlt]

theorem PropMap.mem_keys_set (o : PropMap) (k k2 : PropKey) (v : Nat) :
    k2 ∈ (o.set k v).keys ↔ k2 = k ∨ k2 ∈ o.keys := by
  by_cases h : k2 = k
  · subst h
    have : ¬ (o.set k2 v).get? k2 = none := by rw [PropMap.get?_set_self]; simp
    rw [PropMap.get?_eq_none_iff] at this
    simp only [true_or, iff_true]
    exact not_not.mp this
  · have hne : k ≠ k2 := fun e => h e.symm
    have h1 := PropMap.get?_eq_none_iff (o.set k v) k2
    rw [PropMap.get?_set_ne o k k2 v hne] at h1
    have h2 := PropMap.get?_eq_none_iff o k2
    simp only [h, false_or]
    exact not_iff_not.mp (h1.symm.trans h2)

theorem PropMap.mem_keys_assign (o : PropMap) (k k2 : PropKey) (v : Nat)
    (h : k2 ∈ (o.assign k v).keys) : k2 = k ∨ k2 ∈ o.keys := by
  unfold PropMap.assign at h
  split at h
  · exact Or.inr h
  · exact (PropMap.mem_keys_set o k k2 v).mp h

/-- A run of assignments `o[key m] = f m` creates no key but keys of the `m`. -/
theorem PropMap.mem_keys_foldl_assign (f : JsVal → Nat) (k : PropKey) (ns : List JsVal) :
    ∀ o : PropMap,
      k ∈ (ns.foldl (fun acc m => acc.assign (keyOf m) (f m)) o).keys →
      k ∈ o.keys ∨ ∃ m ∈ ns, keyOf m = k := by
  induction ns with
  | nil => intro o h; exact Or.inl h
  | cons m rest ih =>
    intro o h
    simp only [List.foldl_cons] at h
    rcases ih _ h with h1 | ⟨m', hm', hk⟩
    · rcases PropMap.mem_keys_assign o _ k _ h1 with rfl | h2
      · exact Or.inr ⟨m, List.mem_cons_self _ _, rfl⟩
      · exact Or.inl h2
    · exact Or.inr ⟨m', List.mem_cons_of_mem _ hm', hk⟩

theorem calculateDegreeHistogram_graph (g g' : GraphClass) (fuel : Nat)
    (h : g.calculateDegreeHistogram fuel = some g') : g'.graph = g.graph := by
  unfold GraphClass.calculateDegreeHistogram at h
  cases hf : fillLoop fuel 0 (countDegrees g.graph.nodeDegrees g.degreeHistogram) with
  | none => simp [hf] at h
  | some r =>
    simp [hf] at h
    rw [← h]

/-! ### Counts and chart numbers -/

theorem foldr_max_init (vs : List Nat) (a v : Nat) :
    vs.foldr max (max a v) = max v (vs.foldr max a) := by
  induction vs with
  | nil => simp [max_comm]
  | cons x xs ih => simp only [List.foldr_cons, ih]; exact max_left_comm _ _ _

theorem fin_max_ofNat (a v : Nat) :
    (JsNum.fin (a : ℚ)).max (JsNum.ofNat v) = JsNum.fin ((Max.max a v : Nat) : ℚ) := by
  simp [JsNum.max, JsNum.ofNat, Nat.cast_max]

theorem mathMax_foldl_fin (vs : List Nat) :
    ∀ a : Nat, vs.foldl (fun acc v => acc.max (JsNum.ofNat v)) (JsNum.fin (a : ℚ)) =
      JsNum.fin ((vs.foldr max a : Nat) : ℚ) := by
  induction vs with
  | nil => intro a; rfl
  | cons v rest ih =>
    intro a
    simp only [List.foldl_cons, List.foldr_cons]
    rw [fin_max_ofNat, ih, foldr_max_init]

/-- On a non-empty histogram `Math.max(...values)` is its largest count. -/
theorem mathMax_eq (h : PropMap) (hne : h ≠ []) :
    mathMax h.values = JsNum.fin ((maxCount h : Nat) : ℚ) := by
  cases h with
  | nil => exact absurd rfl hne
  | cons e rest =>
    simp only [mathMax, maxCount, PropMap.values, List.map_cons, List.foldl_cons,
      List.foldr_cons]
    have h0 : (JsNum.negInf).max (JsNum.ofNat e.2) = JsNum.fin ((e.2 : Nat) : ℚ) := rfl
    rw [h0, mathMax_foldl_fin]
    congr 2
    have := foldr_max_init (List.map Prod.snd rest) 0 e.2
    simpa using this

theorem maxCount_ge (h : PropMap) : ∀ e ∈ h, e.2 ≤ maxCount h := by
  intro e he
  exact maxDegree_ge h e.2 (List.mem_map_of_mem Prod.snd he)

theorem maxCount_pos_ne_nil (h : PropMap) (hpos : 0 < maxCount h) : h ≠ [] := by
  intro e
  subst e
  simp [maxCount, PropMap.values] at hpos

theorem barHeight_fin (m c : Nat) (hm : 0 < m) :
    barHeight (JsNum.fin (m : ℚ)) c = JsNum.fin (specBarHeight c m) := by
  have hm' : ((m : Nat) : ℚ) ≠ 0 := by exact_mod_cast (Nat.pos_iff_ne_zero.mp hm)
  unfold barHeight specBarHeight
  simp only [svgHeight, marginTop, marginBottom, JsNum.ofNat, JsNum.ofNat_eq,
    JsNum.fin_sub_fin, JsNum.fin_div_fin _ _ hm', JsNum.fin_mul_fin]
  congr 1
  norm_num

theorem barTop_fin (q : ℚ) :
    svgHeight - marginBottom - JsNum.fin q = JsNum.fin (260 - q) := by
  simp only [svgHeight, marginBottom, JsNum.ofNat_eq, JsNum.fin_sub_fin]
  congr 1
  norm_num

theorem yTickPosition_eq (i : Nat) : yTickPosition i = JsNum.fin (260 - 48 * (i : ℚ)) := by
  unfold yTickPosition
  have h5 : ((5 : Nat) : ℚ) ≠ 0 := by norm_num
  simp only [svgHeight, marginTop, marginBottom, JsNum.ofNat, JsNum.ofNat_eq,
    JsNum.fin_sub_fin, JsNum.fin_div_fin _ _ h5, JsNum.fin_mul_fin]
  congr 1
  push_cast
  ring

theorem yTickValue_fin (m i : Nat) :
    yTickValue (JsNum.fin (m : ℚ)) i = JsNum.fin ((specTickLabel m i : ℤ) : ℚ) := by
  unfold yTickValue specTickLabel roundHalfUp
  have h5 : ((5 : Nat) : ℚ) ≠ 0 := by norm_num
  simp only [JsNum.ofNat, JsNum.ofNat_eq, JsNum.fin_div_fin _ _ h5, JsNum.fin_mul_fin,
    JsNum.round]
  congr 3
  push_cast
  ring

theorem specTickLabel_mono (m : Nat) {i j : Nat} (hij : i ≤ j) :
    specTickLabel m i ≤ specTickLabel m j := by
  unfold specTickLabel roundHalfUp
  apply Int.floor_mono
  have hm : (0 : ℚ) ≤ m := Nat.cast_nonneg m
  have hq : (i : ℚ) ≤ j := by exact_mod_cast hij
  have : (m : ℚ) * i ≤ m * j := mul_le_mul_of_nonneg_left hq hm
  linarith

theorem specBarWidth_pos_iff (n : Nat) (hn : 1 ≤ n) : 0 < specBarWidth n ↔ n ≤ 128 := by
  have hq : (0 : ℚ) < n := by exact_mod_cast hn
  unfold specBarWidth
  rw [div_pos_iff_of_pos_right hq]
  constructor
  · intro h
    have h2 : (n : ℚ) < 129 := by linarith
    have h3 : n < 129 := by exact_mod_cast h2
    omega
  · intro h
    have h2 : (n : ℚ) ≤ 128 := by exact_mod_cast h
    linarith

theorem specBarWidth_nonpos (n : Nat) (hn : 129 ≤ n) : specBarWidth n ≤ 0 := by
  have h1 : ¬ 0 < specBarWidth n := by
    rw [specBarWidth_pos_iff n (by omega)]
    omega
  exact not_lt.mp h1

theorem PropMap.get?_mem (o : PropMap) (k : PropKey) (v : Nat) (h : o.get? k = some v) :
    (k, v) ∈ o := by
  induction o with
  | nil => simp [PropMap.get?] at h
  | cons p rest ih =>
    obtain ⟨k', v'⟩ := p
    by_cases hk : k' = k
    · subst hk
      simp only [PropMap.get?, if_true, Option.some.injEq] at h
      subst h
      exact List.mem_cons_self _ _
    · simp only [PropMap.get?, hk, if_false] at h
      exact List.mem_cons_of_mem _ (ih h)

/-- In a histogram whose keys are `0 .. B-1`, the `k`-th bucket has key `k`. -/
theorem PropMap.indexKeys_range_getElem? (o : PropMap) (B : Nat)
    (h : o.IndexKeys (List.range B)) (k : Nat) (hk : k < B) :
    ∃ c, o[k]? = some (PropKey.idx k, c) := by
  have hkeys := h.1
  unfold PropMap.keys at hkeys
  have h1 : (o.map Prod.fst)[k]? = some (PropKey.idx k) := by
    rw [hkeys, List.getElem?_map, List.getElem?_range hk]
    rfl
  rw [List.getElem?_map] at h1
  cases ho : o[k]? with
  | none => simp [ho] at h1
  | some e =>
    obtain ⟨k', c⟩ := e
    simp [ho] at h1
    exact ⟨c, by rw [h1]⟩

/-- The run of `calculateDegreeHistogram` on an empty histogram, as a state. -/
theorem calculate_from_empty (nodes : List JsVal) (edges : List (JsVal × JsVal))
    (D : PropMap) (extra : Nat) :
    ∃ h', (GraphClass.withDegrees nodes edges D).calculateDegreeHistogram
        (maxDegree D + 2 + extra) =
        some { GraphClass.withDegrees nodes edges D with degreeHistogram := h' } ∧
      h'.IndexKeys (List.range (if D = [] then 0 else maxDegree D + 1)) ∧
      h'.length = (if D = [] then 0 else maxDegree D + 1) ∧
      ∀ k, h'.get? (PropKey.idx k) =
        if k < (if D = [] then 0 else maxDegree D + 1) then some (nodesWithDegree D k)
        else none := by
  obtain ⟨h', hrun, hkeys, hget⟩ := histogram_run D (maxDegree D + 2 + extra)
    (if D = [] then 0 else maxDegree D + 1) rfl (by split <;> omega)
  refine ⟨h', ?_, hkeys, ?_, hget⟩
  · simp [GraphClass.calculateDegreeHistogram, GraphClass.withDegrees, hrun]
  · have := PropMap.indexKeys_length h' _ hkeys
    simpa [PropMap.keys] using this

theorem xTickPosition_fin (q : ℚ) (k : Nat) :
    xTickPosition (JsNum.fin q) (PropKey.idx k) =
      JsNum.fin (40 + (k : ℚ) * (q + 5) + q / 2) := by
  have h2 : ((2 : Nat) : ℚ) ≠ 0 := by norm_num
  unfold xTickPosition
  simp only [marginLeft, barSpacing, PropKey.parseInt, JsNum.ofNat_eq, JsNum.fin_add_fin,
    JsNum.fin_mul_fin, JsNum.fin_div_fin _ _ h2]
  congr 1
  push_cast
  ring

theorem tickLabelPairs_length {α : Type} (tick label : α → SvgElem) (l : List α) :
    (tickLabelPairs tick label l).length = 2 * l.length := by
  induction l with
  | nil => rfl
  | cons x xs ih => simp [tickLabelPairs, ih]; omega

/-- The tick of the `k`-th item is at place `2 k`, its label at place `2 k + 1`. -/
theorem tickLabelPairs_getElem? {α : Type} (tick label : α → SvgElem) (l : List α) :
    ∀ k : Nat, (tickLabelPairs tick label l)[2 * k]? = l[k]?.map tick ∧
      (tickLabelPairs tick label l)[2 * k + 1]? = l[k]?.map label := by
  induction l with
  | nil => intro k; simp [tickLabelPairs]
  | cons x xs ih =>
    intro k
    cases k with
    | zero => simp [tickLabelPairs]
    | succ k =>
      have h1 : 2 * (k + 1) = 2 * k + 1 + 1 := by omega
      rw [h1]
      simp only [tickLabelPairs, List.getElem?_cons_succ]
      exact ih k

/-- The tick and the label of the `k`-th key in the markup: after the two axis labels
and the x-axis line. -/
theorem displayHistogram_xTick (h : PropMap) (k : Nat) (hk : k < h.keys.length) :
    (displayHistogram h).children[3 + 2 * k]? = h.keys[k]?.map (xTickLine (barWidth h)) ∧
    (displayHistogram h).children[3 + 2 * k + 1]? =
      h.keys[k]?.map (xTickLabel (barWidth h)) := by
  have hc : (displayHistogram h).children =
      (axisLabels ++ [xAxisLine]) ++
        (tickLabelPairs (xTickLine (barWidth h)) (xTickLabel (barWidth h)) h.keys ++
          ([yAxisLine] ++ yTicks (mathMax h.values) ++
            (drawBars h (mathMax h.values) (barWidth h) marginLeft).2)) := by
    simp [displayHistogram, xTicks_eq, List.append_assoc]
  have hlen : (axisLabels ++ [xAxisLine]).length = 3 := rfl
  have hp := tickLabelPairs_getElem? (xTickLine (barWidth h)) (xTickLabel (barWidth h))
    h.keys k
  have hl := tickLabelPairs_length (xTickLine (barWidth h)) (xTickLabel (barWidth h)) h.keys
  rw [hc]
  constructor
  · rw [List.getElem?_append_right (by rw [hlen]; omega), hlen,
      show 3 + 2 * k - 3 = 2 * k by omega,
      List.getElem?_append_left (by rw [hl]; omega)]
    exact hp.1
  · rw [List.getElem?_append_right (by rw [hlen]; omega), hlen,
      show 3 + 2 * k + 1 - 3 = 2 * k + 1 by omega,
      List.getElem?_append_left (by rw [hl]; omega)]
    exact hp.2

theorem xTickLine_fin (q : ℚ) (k : Nat) :
    xTickLine (JsNum.fin q) (PropKey.idx k) =
      .line (.fin (40 + (q + 5) * k + q / 2)) (.fin 260)
        (.fin (40 + (q + 5) * k + q / 2)) (.fin 265) := by
  have hx : (40 + (k : ℚ) * (q + 5) + q / 2) = 40 + (q + 5) * k + q / 2 := by ring
  unfold xTickLine
  rw [xTickPosition_fin, hx]
  simp only [svgHeight, marginBottom, JsNum.ofNat_eq, JsNum.fin_sub_fin, JsNum.fin_add_fin]
  norm_num

theorem xTickLabel_fin (q : ℚ) (k : Nat) :
    xTickLabel (JsNum.fin q) (PropKey.idx k) =
      .text (.fin (40 + (q + 5) * k + q / 2)) (.fin 280) "middle" 12 none
        (.key (PropKey.idx k)) := by
  have hx : (40 + (k : ℚ) * (q + 5) + q / 2) = 40 + (q + 5) * k + q / 2 := by ring
  unfold xTickLabel
  rw [xTickPosition_fin, hx]
  simp only [svgHeight, marginBottom, JsNum.ofNat_eq, JsNum.fin_sub_fin, JsNum.fin_add_fin]
  norm_num

/-- Every rectangle of the chart of a non-empty histogram has the same finite width. -/
theorem rects_width (h : PropMap) (hne : h ≠ []) :
    ∀ r ∈ (displayHistogram h).rects,
      ∃ x y ht, r = SvgElem.rect x y (JsNum.fin (specBarWidth h.length)) ht := by
  intro r hr
  obtain ⟨i, hi⟩ := List.mem_iff_getElem?.mp hr
  rw [displayHistogram_rects, barWidth_eq h hne] at hi
  have hl : marginLeft = JsNum.fin 40 := by simp [marginLeft, JsNum.ofNat_eq]
  rw [hl, drawBars_getElem?] at hi
  cases he : h[i]? with
  | none => simp [he] at hi
  | some e =>
    simp only [he, Option.map_some', Option.some.injEq] at hi
    exact ⟨_, _, _, hi.symm⟩

/-! ### Fuel and rounds of the fill loop -/

theorem fillLoop_fuel_mono : ∀ (fuel i : Nat) (h : PropMap) (r : Nat × PropMap) (k : Nat),
    fillLoop fuel i h = some r → fillLoop (fuel + k) i h = some r := by
  intro fuel
  induction fuel with
  | zero => intro i h r k hr; simp [fillLoop] at hr
  | succ f ih =>
    intro i h r k hr
    have hk : f + 1 + k = (f + k) + 1 := by omega
    rw [hk]
    unfold fillLoop at hr ⊢
    by_cases hlt : i < h.keys.length
    · simp only [hlt, if_true] at hr ⊢
      exact ih _ _ _ k hr
    · simp only [hlt, if_false] at hr ⊢
      exact hr

/-- Whatever the fuel, the fill loop has one result. -/
theorem fillLoop_unique (f1 f2 i : Nat) (h : PropMap) (r1 r2 : Nat × PropMap)
    (h1 : fillLoop f1 i h = some r1) (h2 : fillLoop f2 i h = some r2) : r1 = r2 := by
  have e1 := fillLoop_fuel_mono f1 i h r1 f2 h1
  have e2 := fillLoop_fuel_mono f2 i h r2 f1 h2
  rw [Nat.add_comm f2 f1, e1] at e2
  exact Option.some.inj e2

/-- The counter ends at its start plus the number of rounds. -/
theorem fillRounds_eq : ∀ (fuel i : Nat) (h : PropMap) (r : Nat × PropMap),
    fillLoop fuel i h = some r → i ≤ r.1 ∧ fillRounds fuel i h = some (r.1 - i) := by
  intro fuel
  induction fuel with
  | zero => intro i h r hr; simp [fillLoop] at hr
  | succ f ih =>
    intro i h r hr
    unfold fillLoop at hr
    unfold fillRounds
    by_cases hlt : i < h.keys.length
    · simp only [hlt, if_true] at hr ⊢
      obtain ⟨hle, hrounds⟩ := ih _ _ _ hr
      refine ⟨by omega, ?_⟩
      rw [hrounds]
      simp only [Option.map_some', Option.some.injEq]
      omega
    · simp only [hlt, if_false, Option.some.injEq] at hr ⊢
      subst hr
      simp

theorem foldr_max_ge (ks : List Nat) : ∀ k ∈ ks, k ≤ ks.foldr max 0 := by
  induction ks with
  | nil => intro k hk; simp at hk
  | cons x xs ih =>
    intro k hk
    simp only [List.foldr_cons]
    rcases List.mem_cons.mp hk with rfl | hk
    · exact le_max_left _ _
    · exact le_trans (ih k hk) (le_max_right _ _)

theorem foldr_max_mem (ks : List Nat) (hne : ks ≠ []) : ks.foldr max 0 ∈ ks := by
  induction ks with
  | nil => exact absurd rfl hne
  | cons x xs ih =>
    simp only [List.foldr_cons, List.mem_cons]
    by_cases hxs : xs = []
    · subst hxs
      left
      simp
    · rcases max_choice x (List.foldr max 0 xs) with hm | hm
      · left; exact hm
      · right
        rw [hm]
        exact ih hxs

/-- The fill loop on ascending integer keys `ks`, from counter 0: the counter stops at
`keyBound ks` and the keys are then `0 .. keyBound ks - 1`. -/
theorem fillLoop_from_zero (h : PropMap) (ks : List Nat) (hik : h.IndexKeys ks)
    (fuel : Nat) (hfuel : keyBound ks + 1 ≤ fuel) :
    ∃ h', fillLoop fuel 0 h = some (keyBound ks, h') ∧
      h'.IndexKeys (List.range (keyBound ks)) ∧
      ∀ k, h'.get? (PropKey.idx k) =
        if (h.get? (PropKey.idx k)).isSome then h.get? (PropKey.idx k)
        else if k < keyBound ks then some 0 else none := by
  apply fillLoop_spec (keyBound ks) 0 (keyBound ks) h ks fuel (by omega) hik
    (fun j hj => absurd hj (Nat.not_lt_zero j))
  · intro k hk
    have hne : ks ≠ [] := List.ne_nil_of_mem hk
    have := foldr_max_ge ks k hk
    simp only [keyBound, hne, if_false]
    omega
  · intro hpos
    have hne : ks ≠ [] := by
      intro e
      simp [keyBound, e] at hpos
    simp only [keyBound, hne, if_false, Nat.add_sub_cancel]
    exact foldr_max_mem ks hne
  · exact hfuel

/-- The first loop run on a filled histogram keeps its keys `0 .. B-1` when no stored
degree reaches `B`. -/
theorem countDegrees_keeps_range (D h : PropMap) (B : Nat)
    (hik : h.IndexKeys (List.range B)) (hD : ∀ d ∈ D.values, d < B) :
    (countDegrees D h).IndexKeys (List.range B) := by
  obtain ⟨ks, hks, hmem⟩ := countDegrees_indexKeys D h (List.range B) hik
  have : ks = List.range B := by
    apply sorted_eq_range ks hks.2 B
    intro m
    rw [hmem, List.mem_range]
    constructor
    · rintro (hm | hm)
      · exact hD m hm
      · exact hm
    · intro hm
      exact Or.inr hm
  rw [← this]
  exact hks

/-- Whatever fuel lets `calculateDegreeHistogram` return on an empty histogram, the
buckets are the same: every key up to the largest degree, with its count. -/
theorem calculate_any_fuel (nodes : List JsVal) (edges : List (JsVal × JsVal))
    (D : PropMap) (fuel : Nat) (g' : GraphClass)
    (hcalc : (GraphClass.withDegrees nodes edges D).calculateDegreeHistogram fuel = some g') :
    ∀ k, g'.degreeHistogram.get? (PropKey.idx k) =
      if k < (if D = [] then 0 else maxDegree D + 1) then some (nodesWithDegree D k)
      else none := by
  obtain ⟨h', hrun, _, hget⟩ := histogram_run D (maxDegree D + 2)
    (if D = [] then 0 else maxDegree D + 1) rfl (by split <;> omega)
  unfold GraphClass.calculateDegreeHistogram at hcalc
  simp only [GraphClass.withDegrees] at hcalc
  cases hf : fillLoop fuel 0 (countDegrees D []) with
  | none => simp [hf] at hcalc
  | some r =>
    simp only [hf, Option.map_some', Option.some.injEq] at hcalc
    have hr := fillLoop_unique _ _ _ _ _ _ hf hrun
    subst hcalc
    intro k
    simp only [hr]
    exact hget k

/-! ### Totals -/

theorem sum_map_ite_countP {α : Type} (p : α → Bool) (l : List α) :
    (l.map (fun x => if p x then 1 else 0)).sum = l.countP p := by
  induction l with
  | nil => simp
  | cons x xs ih =>
    simp only [List.map_cons, List.sum_cons, List.countP_cons, ih]
    omega

theorem sum_count_range (L : List Nat) (B : Nat) (hL : ∀ d ∈ L, d < B) :
    ((List.range B).map (fun k => L.count k)).sum = L.length := by
  induction L with
  | nil => simp
  | cons x xs ih =>
    have hx : x < B := hL x (List.mem_cons_self _ _)
    have hxs : ∀ d ∈ xs, d < B := fun d hd => hL d (List.mem_cons_of_mem _ hd)
    have hsplit : (fun k => (x :: xs).count k) =
        (fun k => xs.count k + (if x == k then 1 else 0)) := by
      funext k
      rw [List.count_cons]
    rw [hsplit, List.sum_map_add, ih hxs, sum_map_ite_countP (fun k => x == k)]
    have hone : (List.range B).countP (fun k => x == k) = 1 := by
      have h1 : (List.range B).countP (fun k => x == k) = (List.range B).count x := by
        unfold List.count
        apply List.countP_congr
        intro k _
        rw [beq_iff_eq, beq_iff_eq]
        exact eq_comm
      rw [h1]
      exact List.count_eq_one_of_mem (List.nodup_range B) (List.mem_range.mpr hx)
    rw [hone]
    simp

theorem PropMap.get?_of_mem_nodup (o : PropMap) (hnd : o.keys.Nodup) (k : PropKey) (v : Nat)
    (hmem : (k, v) ∈ o) : o.get? k = some v := by
  induction o with
  | nil => simp at hmem
  | cons p rest ih =>
    obtain ⟨k', v'⟩ := p
    simp only [PropMap.keys, List.map_cons, List.nodup_cons] at hnd
    rcases List.mem_cons.mp hmem with heq | hin
    · injection heq with h1 h2
      subst h1 h2
      simp [PropMap.get?]
    · have hne : k' ≠ k := by
        intro e
        subst e
        exact hnd.1 (List.mem_map_of_mem Prod.fst hin)
      simp only [PropMap.get?, hne, if_false]
      exact ih hnd.2 hin

/-- A histogram with keys `0 .. B-1` is the list of its buckets in key order. -/
theorem PropMap.indexKeys_range_values (o : PropMap) (B : Nat)
    (h : o.IndexKeys (List.range B)) (f : Nat → Nat)
    (hget : ∀ k, k < B → o.get? (PropKey.idx k) = some (f k)) :
    o.values = (List.range B).map f := by
  have hlen : o.length = B := by
    have := PropMap.indexKeys_length o _ h
    simpa [PropMap.keys] using this
  have hnd : o.keys.Nodup := by
    rw [h.1]
    apply List.Nodup.map _ (List.nodup_range B)
    intro a b e
    injection e
  apply List.ext_getElem?
  intro k
  unfold PropMap.values
  rw [List.getElem?_map, List.getElem?_map]
  by_cases hk : k < B
  · obtain ⟨c, hc⟩ := PropMap.indexKeys_range_getElem? o B h k hk
    have hmem : (PropKey.idx k, c) ∈ o := List.mem_iff_getElem?.mpr ⟨k, hc⟩
    have hg := PropMap.get?_of_mem_nodup o hnd _ _ hmem
    rw [hget k hk] at hg
    rw [hc, List.getElem?_range hk]
    simp only [Option.map_some']
    rw [Option.some.inj hg]
  · have h1 : o[k]? = none := List.getElem?_eq_none (by omega)
    have h2 : (List.range B)[k]? = none := List.getElem?_eq_none (by simp; omega)
    rw [h1, h2]
    rfl

/-- The counts of the histogram built from `D` add up to the number of entries of `D`. -/
theorem histogramTotal_eq (nodes : List JsVal) (edges : List (JsVal × JsVal))
    (D : PropMap) (extra : Nat) :
    ∃ g', (GraphClass.withDegrees nodes edges D).calculateDegreeHistogram
        (maxDegree D + 2 + extra) = some g' ∧
      histogramTotal g'.degreeHistogram = D.keys.length := by
  obtain ⟨h', hcalc, hkeys, _, hget⟩ := calculate_from_empty nodes edges D extra
  refine ⟨_, hcalc, ?_⟩
  show histogramTotal h' = _
  have hvals := PropMap.indexKeys_range_values h' _ hkeys (fun k => nodesWithDegree D k)
    (fun k hk => by rw [hget k, if_pos hk])
  unfold histogramTotal
  rw [hvals]
  have hbound : ∀ d ∈ D.values, d < (if D = [] then 0 else maxDegree D + 1) := by
    intro d hd
    have hne : D ≠ [] := by
      intro e
      subst e
      simp [PropMap.values] at hd
    have := maxDegree_ge D d hd
    rw [if_neg hne]
    omega
  have := sum_count_range D.values _ hbound
  unfold nodesWithDegree
  rw [this]
  simp [PropMap.values, PropMap.keys]

/-! ### Degrees -/

theorem foldl_count_eq {α : Type} (p : α → Bool) (l : List α) :
    ∀ a : Nat, l.foldl (fun d e => if p e then d + 1 else d) a = a + l.countP p := by
  induction l with
  | nil => intro a; simp
  | cons x xs ih =>
    intro a
    simp only [List.foldl_cons, List.countP_cons]
    rw [ih]
    by_cases hx : p x = true
    · simp [hx]; omega
    · simp [hx]

theorem computeDegree_eq_countP (g : GraphClass) (n : JsVal) :
    g.computeDegree n = g.graph.edges.countP (fun e => strictEq e.1 n || strictEq e.2 n) := by
  unfold GraphClass.computeDegree
  rw [foldl_count_eq (fun e : JsVal × JsVal => strictEq e.1 n || strictEq e.2 n)]
  simp

theorem strictEq_congr_right (e m n : JsVal) (h : strictEq m n = true) :
    strictEq e m = strictEq e n := by
  cases m <;> cases n <;> simp [strictEq] at h <;> cases e <;> simp_all [strictEq]

theorem computeDegree_congr (g : GraphClass) (m n : JsVal) (h : strictEq m n = true) :
    g.computeDegree m = g.computeDegree n := by
  unfold GraphClass.computeDegree
  congr 1
  funext degree edge
  rw [strictEq_congr_right edge.1 m n h, strictEq_congr_right edge.2 m n h]

theorem computeDegree_edges (g g' : GraphClass) (h : g'.graph.edges = g.graph.edges)
    (n : JsVal) : g'.computeDegree n = g.computeDegree n := by
  unfold GraphClass.computeDegree
  rw [h]

theorem processedNodes_cons_some (m : JsVal) (rest : List JsVal) (k : PropKey)
    (h : propertyKey m = some k) : processedNodes (m :: rest) = m :: processedNodes rest := by
  simp [processedNodes, List.takeWhile_cons, h]

theorem processedNodes_cons_none (m : JsVal) (rest : List JsVal)
    (h : propertyKey m = none) : processedNodes (m :: rest) = [] := by
  simp [processedNodes, List.takeWhile_cons, h]

theorem mem_processedNodes (ns : List JsVal) :
    ∀ n, n ∈ processedNodes ns → n ∈ ns ∧ propertyKey n = some (keyOf n) := by
  induction ns with
  | nil => intro n hn; simp [processedNodes] at hn
  | cons m rest ih =>
    intro n hn
    cases hk : propertyKey m with
    | none =>
      rw [processedNodes_cons_none m rest hk] at hn
      simp at hn
    | some k =>
      rw [processedNodes_cons_some m rest k hk] at hn
      rcases List.mem_cons.mp hn with rfl | hin
      · exact ⟨List.mem_cons_self _ _, by simp [keyOf, hk]⟩
      · exact ⟨List.mem_cons_of_mem _ (ih n hin).1, (ih n hin).2⟩

theorem processedNodes_eq_self_iff (ns : List JsVal) :
    processedNodes ns = ns ↔ ∀ m ∈ ns, (propertyKey m).isSome = true := by
  induction ns with
  | nil => simp [processedNodes]
  | cons m rest ih =>
    cases hk : propertyKey m with
    | none =>
      rw [processedNodes_cons_none m rest hk]
      constructor
      · intro h
        exact absurd h (List.cons_ne_nil _ _).symm
      · intro h
        have := h m (List.mem_cons_self _ _)
        simp [hk] at this
    | some k =>
      rw [processedNodes_cons_some m rest k hk]
      simp only [List.cons.injEq, true_and, ih, List.mem_cons, forall_eq_or_imp, hk,
        Option.isSome_some]

/-- The loop of `addNodeDegreesAsAttributes` touches only `nodeDegrees`: it writes, for
the nodes up to the first one whose key conversion throws, the degrees computed on the
(unchanged) edge list, and it throws exactly when there is such a node. -/
theorem storeDegrees_spec (g0 : GraphClass) (ns : List JsVal) :
    ∀ st : GraphClass, st.graph.edges = g0.graph.edges →
      (storeDegrees st ns).state.graph.edges = g0.graph.edges ∧
      (storeDegrees st ns).state.graph.nodes = st.graph.nodes ∧
      (storeDegrees st ns).state.degreeHistogram = st.degreeHistogram ∧
      (storeDegrees st ns).state.graph.nodeDegrees =
        (processedNodes ns).foldl (fun acc m => acc.assign (keyOf m) (g0.computeDegree m))
          st.graph.nodeDegrees ∧
      ((storeDegrees st ns).thrown = false ↔ processedNodes ns = ns) := by
  induction ns with
  | nil => intro st h; simp [storeDegrees, processedNodes, h]
  | cons n rest ih =>
    intro st h
    cases hk : propertyKey n with
    | none =>
      rw [processedNodes_cons_none n rest hk]
      simp [storeDegrees, hk, h]
    | some k =>
      rw [processedNodes_cons_some n rest k hk]
      have hkey : keyOf n = k := by simp [keyOf, hk]
      obtain ⟨h1, h2, h3, h4, h5⟩ := ih { st with graph := { st.graph with
        nodeDegrees := st.graph.nodeDegrees.assign k (st.computeDegree n) } } h
      simp only [storeDegrees, hk, List.foldl_cons, hkey]
      rw [← computeDegree_edges g0 st h n]
      refine ⟨h1, h2, h3, h4, ?_⟩
      rw [h5]
      simp

theorem addNodeDegrees_frame (g : GraphClass) :
    g.addNodeDegreesAsAttributes.state.graph.edges = g.graph.edges ∧
    g.addNodeDegreesAsAttributes.state.graph.nodes = g.graph.nodes ∧
    g.addNodeDegreesAsAttributes.state.degreeHistogram = g.degreeHistogram ∧
    g.addNodeDegreesAsAttributes.state.graph.nodeDegrees =
      (processedNodes g.graph.nodes).foldl
        (fun acc m => acc.assign (keyOf m) (g.computeDegree m)) g.graph.nodeDegrees ∧
    (g.addNodeDegreesAsAttributes.thrown = false ↔
      ∀ m ∈ g.graph.nodes, (propertyKey m).isSome = true) := by
  obtain ⟨h1, h2, h3, h4, h5⟩ := storeDegrees_spec g g.graph.nodes g rfl
  exact ⟨h1, h2, h3, h4, h5.trans (processedNodes_eq_self_iff _)⟩

/-- After `addNodeDegreesAsAttributes`, a node the loop got through whose property key
is not `__proto__` and is shared only with such nodes strictly equal to it has its own
degree stored. -/
theorem storedDegree_after (g : GraphClass) (n : JsVal)
    (hn : n ∈ processedNodes g.graph.nodes)
    (hproto : propertyKey n ≠ some (PropKey.name "__proto__"))
    (huniq : ∀ m ∈ processedNodes g.graph.nodes,
      propertyKey m = propertyKey n → strictEq m n = true) :
    g.addNodeDegreesAsAttributes.state.storedDegree n = some (g.computeDegree n) := by
  have hkn := (mem_processedNodes _ n hn).2
  unfold GraphClass.storedDegree
  rw [hkn]
  simp only
  rw [(addNodeDegrees_frame g).2.2.2.1]
  apply PropMap.get?_foldl_assign (fun m => g.computeDegree m) (keyOf n) _
    (fun e => hproto (by rw [hkn, e]))
  · intro m hm hkey
    have hkm := (mem_processedNodes _ m hm).2
    exact computeDegree_congr g m n (huniq m hm (by rw [hkm, hkn, hkey]))
  · exact Or.inr ⟨n, hn, rfl⟩

theorem countP_or_add_and {α : Type} (p q : α → Bool) (l : List α) :
    l.countP (fun e => p e || q e) + l.countP (fun e => p e && q e) =
      l.countP p + l.countP q := by
  induction l with
  | nil => simp
  | cons x xs ih =>
    simp only [List.countP_cons]
    cases hp : p x <;> cases hq : q x <;> simp <;> omega

/-! ### Well-formed objects -/

theorem PropKey.sortsBefore_asymm (k k' : PropKey) (h : k.sortsBefore k' = true) :
    k'.sortsBefore k = false := by
  cases k <;> cases k' <;> simp [PropKey.sortsBefore] at h ⊢
  omega

theorem PropKey.sortsBefore_chain (k k' b : PropKey) (h : k.sortsBefore k' = true)
    (hb : b.sortsBefore k' = false) : b.sortsBefore k = false := by
  cases k <;> cases k' <;> cases b <;> simp [PropKey.sortsBefore] at h hb ⊢
  omega

theorem PropMap.set_wellFormed (k : PropKey) (v : Nat) :
    ∀ o : PropMap, o.WellFormed → (o.set k v).WellFormed := by
  intro o
  induction o with
  | nil =>
    intro _
    simp [PropMap.set, PropMap.WellFormed, PropMap.keys]
  | cons p rest ih =>
    intro hwf
    obtain ⟨k', v'⟩ := p
    obtain ⟨hnd, hpw⟩ := hwf
    simp only [PropMap.keys, List.map_cons, List.nodup_cons, List.pairwise_cons] at hnd hpw
    have hrest : PropMap.WellFormed rest := ⟨hnd.2, hpw.2⟩
    unfold PropMap.set
    by_cases hEq : k' = k
    · subst hEq
      simp only [if_true]
      exact ⟨by simpa [PropMap.keys] using hnd, by simpa [PropMap.keys] using hpw⟩
    · by_cases hb : k.sortsBefore k' = true
      · simp only [hEq, if_false, hb, if_true]
        have hk_notin : k ∉ List.map Prod.fst rest := by
          intro hin
          have := hpw.1 k hin
          rw [hb] at this
          exact absurd this (by simp)
        constructor
        · simp only [PropMap.keys, List.map_cons, List.nodup_cons, List.mem_cons, not_or]
          exact ⟨⟨fun e => hEq e.symm, hk_notin⟩, hnd.1, hnd.2⟩
        · simp only [PropMap.keys, List.map_cons, List.pairwise_cons, List.mem_cons]
          refine ⟨?_, hpw.1, hpw.2⟩
          intro b hbm
          rcases hbm with rfl | hbm
          · exact PropKey.sortsBefore_asymm _ _ hb
          · exact PropKey.sortsBefore_chain k k' b hb (hpw.1 b hbm)
      · have hbf : k.sortsBefore k' = false := by simpa using hb
        simp only [hEq, if_false, hbf, Bool.false_eq_true]
        obtain ⟨hnd', hpw'⟩ := ih hrest
        have hmem : ∀ b, b ∈ (PropMap.set rest k v).keys → b = k ∨ b ∈ List.map Prod.fst rest :=
          fun b hbm => (PropMap.mem_keys_set rest k b v).mp hbm
        constructor
        · simp only [PropMap.keys, List.map_cons, List.nodup_cons]
          refine ⟨?_, hnd'⟩
          intro hin
          rcases hmem k' hin with e | hin'
          · exact hEq e
          · exact hnd.1 hin'
        · simp only [PropMap.keys, List.map_cons, List.pairwise_cons]
          refine ⟨?_, hpw'⟩
          intro b hbm
          rcases hmem b hbm with rfl | hin'
          · exact hbf
          · exact hpw.1 b hin'

theorem PropMap.assign_wellFormed (o : PropMap) (k : PropKey) (v : Nat)
    (h : o.WellFormed) : (o.assign k v).WellFormed := by
  unfold PropMap.assign
  split
  · exact h
  · exact PropMap.set_wellFormed k v o h

theorem PropMap.foldl_assign_wellFormed (f : JsVal → Nat) (ns : List JsVal) :
    ∀ o : PropMap, o.WellFormed →
      (ns.foldl (fun acc m => acc.assign (keyOf m) (f m)) o).WellFormed := by
  induction ns with
  | nil => intro o h; exact h
  | cons m rest ih =>
    intro o h
    simp only [List.foldl_cons]
    exact ih _ (PropMap.assign_wellFormed o _ _ h)

/-- The keys after a run of assignments `o[key m] = f m`: the old ones and the keys of
the `m`, except `__proto__`. -/
theorem PropMap.mem_keys_foldl_assign_iff (f : JsVal → Nat) (k : PropKey)
    (ns : List JsVal) :
    ∀ o : PropMap,
      k ∈ (ns.foldl (fun acc m => acc.assign (keyOf m) (f m)) o).keys ↔
      k ∈ o.keys ∨ (k ≠ PropKey.name "__proto__" ∧ ∃ m ∈ ns, keyOf m = k) := by
  induction ns with
  | nil => intro o; simp
  | cons m rest ih =>
    intro o
    simp only [List.foldl_cons]
    rw [ih]
    have hstep : k ∈ (o.assign (keyOf m) (f m)).keys ↔
        k ∈ o.keys ∨ (k ≠ PropKey.name "__proto__" ∧ keyOf m = k) := by
      unfold PropMap.assign
      by_cases hp : keyOf m = PropKey.name "__proto__"
      · simp only [hp, if_true]
        constructor
        · intro h; exact Or.inl h
        · rintro (h | ⟨h1, h2⟩)
          · exact h
          · exact absurd h2.symm h1
      · simp only [hp, if_false]
        rw [PropMap.mem_keys_set]
        constructor
        · rintro (rfl | h)
          · exact Or.inr ⟨hp, rfl⟩
          · exact Or.inl h
        · rintro (h | ⟨_, h2⟩)
          · exact Or.inr h
          · exact Or.inl h2.symm
    rw [hstep]
    simp only [List.mem_cons, exists_eq_or_imp]
    tauto

/-- The degree mapping that `addNodeDegreesAsAttributes` builds from an empty one has
one key for each property key, other than `__proto__`, of a node the loop got
through. -/
theorem addNodeDegrees_keys (g : GraphClass) (h0 : g.graph.nodeDegrees = []) :
    g.addNodeDegreesAsAttributes.state.graph.nodeDegrees.keys.Nodup ∧
    (∀ k, k ∈ g.addNodeDegreesAsAttributes.state.graph.nodeDegrees.keys ↔
      k ≠ PropKey.name "__proto__" ∧
        ∃ n ∈ processedNodes g.graph.nodes, propertyKey n = some k) ∧
    g.addNodeDegreesAsAttributes.state.graph.nodeDegrees.keys.length =
      (((processedNodes g.graph.nodes).map keyOf).toFinset.erase
        (PropKey.name "__proto__")).card := by
  have hD := (addNodeDegrees_frame g).2.2.2.1
  rw [h0] at hD
  have hwf := PropMap.foldl_assign_wellFormed (fun m => g.computeDegree m)
    (processedNodes g.graph.nodes) [] ⟨by simp [PropMap.keys], by simp [PropMap.keys]⟩
  have hmem0 : ∀ k, k ∈ g.addNodeDegreesAsAttributes.state.graph.nodeDegrees.keys ↔
      k ≠ PropKey.name "__proto__" ∧ ∃ n ∈ processedNodes g.graph.nodes, keyOf n = k := by
    intro k
    rw [hD, PropMap.mem_keys_foldl_assign_iff]
    simp [PropMap.keys]
  have hkey : ∀ k, (∃ n ∈ processedNodes g.graph.nodes, keyOf n = k) ↔
      ∃ n ∈ processedNodes g.graph.nodes, propertyKey n = some k := by
    intro k
    constructor
    · rintro ⟨n, hn, rfl⟩
      exact ⟨n, hn, (mem_processedNodes _ n hn).2⟩
    · rintro ⟨n, hn, hk⟩
      refine ⟨n, hn, ?_⟩
      simp [keyOf, hk]
  have hnd : g.addNodeDegreesAsAttributes.state.graph.nodeDegrees.keys.Nodup := by
    rw [hD]
    exact hwf.1
  refine ⟨hnd, fun k => by rw [hmem0, hkey], ?_⟩
  rw [← List.toFinset_card_of_nodup hnd]
  congr 1
  ext k
  rw [List.mem_toFinset, hmem0, Finset.mem_erase, List.mem_toFinset, List.mem_map]

/-! ### The degree sum -/

theorem strictEq_symm (a b : JsVal) : strictEq a b = strictEq b a := by
  cases a <;> cases b <;> simp [strictEq, eq_comm]

/-- In a list of pairwise distinct identifiers, a value strictly equal to one of them
is strictly equal to exactly one. -/
theorem countP_strictEq_unique (a : JsVal) (nodes : List JsVal)
    (hd : nodes.Pairwise (fun x y => strictEq x y = false))
    (hex : ∃ n ∈ nodes, strictEq a n = true) :
    nodes.countP (fun n => strictEq a n) = 1 := by
  induction nodes with
  | nil =>
    obtain ⟨n, hn, _⟩ := hex
    simp at hn
  | cons x xs ih =>
    rw [List.pairwise_cons] at hd
    by_cases hax : strictEq a x = true
    · have hzero : xs.countP (fun n => strictEq a n) = 0 := by
        rw [List.countP_eq_zero]
        intro y hy hay
        have hxy := hd.1 y hy
        have h1 : strictEq x a = true := by rw [strictEq_symm]; exact hax
        have h2 : strictEq x y = strictEq x a := strictEq_congr_right x y a (by
          rw [strictEq_symm]; exact hay)
        rw [h2, h1] at hxy
        exact absurd hxy (by simp)
      simp [List.countP_cons, hax, hzero]
    · obtain ⟨n, hn, han⟩ := hex
      have hin : n ∈ xs := by
        rcases List.mem_cons.mp hn with rfl | hin
        · exact absurd han hax
        · exact hin
      have := ih hd.2 ⟨n, hin, han⟩
      simp [List.countP_cons, hax, this]

/-- The number of listed nodes an edge touches: 1 for a self-loop, 2 otherwise. -/
theorem countP_nodes_of_edge (e : JsVal × JsVal) (nodes : List JsVal)
    (hd : nodes.Pairwise (fun x y => strictEq x y = false))
    (h1 : ∃ n ∈ nodes, strictEq e.1 n = true) (h2 : ∃ n ∈ nodes, strictEq e.2 n = true) :
    nodes.countP (fun n => strictEq e.1 n || strictEq e.2 n) =
      if strictEq e.1 e.2 then 1 else 2 := by
  have hc1 := countP_strictEq_unique e.1 nodes hd h1
  have hc2 := countP_strictEq_unique e.2 nodes hd h2
  have hsum := countP_or_add_and (fun n => strictEq e.1 n) (fun n => strictEq e.2 n) nodes
  rw [hc1, hc2] at hsum
  by_cases hloop : strictEq e.1 e.2 = true
  · have hboth : nodes.countP (fun n => strictEq e.1 n && strictEq e.2 n) =
        nodes.countP (fun n => strictEq e.1 n) := by
      apply List.countP_congr
      intro n _
      have hsame : strictEq e.2 n = strictEq e.1 n := by
        rw [strictEq_symm e.2 n, strictEq_symm e.1 n]
        exact (strictEq_congr_right n e.1 e.2 hloop).symm
      rw [hsame]
      simp
    rw [hboth, hc1] at hsum
    simp only [hloop, if_true]
    omega
  · have hnone : nodes.countP (fun n => strictEq e.1 n && strictEq e.2 n) = 0 := by
      rw [List.countP_eq_zero]
      intro n _ hb
      simp only [Bool.and_eq_true] at hb
      have hsame : strictEq e.1 e.2 = strictEq e.1 n :=
        strictEq_congr_right e.1 e.2 n hb.2
      rw [hb.1] at hsame
      exact hloop hsame
    rw [hnone] at hsum
    simp only [hloop]
    simpa using hsum

theorem sum_countP_comm {α β : Type} (P : α → β → Bool) (xs : List α) (ys : List β) :
    (xs.map (fun x => ys.countP (P x))).sum =
      (ys.map (fun y => xs.countP (fun x => P x y))).sum := by
  induction xs with
  | nil => simp
  | cons x xs ih =>
    have hsplit : (fun y => (x :: xs).countP (fun x' => P x' y)) =
        (fun y => xs.countP (fun x' => P x' y) + (if P x y then 1 else 0)) := by
      funext y
      rw [List.countP_cons]
    rw [hsplit, List.sum_map_add, ← ih, sum_map_ite_countP (P x)]
    simp only [List.map_cons, List.sum_cons]
    omega

theorem sum_loop_weights {β : Type} (loop : β → Bool) (es : List β) :
    (es.map (fun e => if loop e then 1 else 2)).sum = 2 * es.length - es.countP loop := by
  have h : (es.map (fun e => if loop e then 1 else 2)).sum + es.countP loop =
      2 * es.length := by
    induction es with
    | nil => simp
    | cons e rest ih =>
      simp only [List.map_cons, List.sum_cons, List.countP_cons, List.length_cons]
      by_cases hl : loop e = true
      · simp only [hl, if_true]; omega
      · simp only [hl]; simp; omega
  omega

/-- The degrees of the listed nodes add up to twice the number of edges minus the
number of self-loops, when the nodes are pairwise distinct and every endpoint is
listed. -/
theorem computeDegree_sum (g : GraphClass)
    (hd : g.graph.nodes.Pairwise (fun x y => strictEq x y = false))
    (hends : ∀ e ∈ g.graph.edges, (∃ n ∈ g.graph.nodes, strictEq e.1 n = true) ∧
      (∃ n ∈ g.graph.nodes, strictEq e.2 n = true)) :
    (g.graph.nodes.map (fun n => g.computeDegree n)).sum =
      2 * g.graph.edges.length - g.graph.edges.countP (fun e => strictEq e.1 e.2) := by
  have h1 : (g.graph.nodes.map (fun n => g.computeDegree n)) =
      g.graph.nodes.map
        (fun n => g.graph.edges.countP (fun e => strictEq e.1 n || strictEq e.2 n)) := by
    apply List.map_congr_left
    intro n _
    exact computeDegree_eq_countP g n
  rw [h1, sum_countP_comm (fun n (e : JsVal × JsVal) => strictEq e.1 n || strictEq e.2 n)]
  have h2 : g.graph.edges.map
        (fun e => g.graph.nodes.countP (fun n => strictEq e.1 n || strictEq e.2 n)) =
      g.graph.edges.map (fun e => if strictEq e.1 e.2 then 1 else 2) := by
    apply List.map_congr_left
    intro e he
    exact countP_nodes_of_edge e g.graph.nodes hd (hends e he).1 (hends e he).2
  rw [h2]
  exact sum_loop_weights (fun e : JsVal × JsVal => strictEq e.1 e.2) g.graph.edges

/-! ### Claims -/

/-- C1 (as stated, refuted): with nodes `[1, "1"]` and the single link `(1, 2)` the
number `1` and the string `"1"` share the property key `"1"`; the degree stored for the
number `1` is the degree of the string, `0`, while one edge has source `1`. -/
theorem C1_counterexample :
    ¬ (∀ (g : GraphClass) (n : JsVal), n ∈ g.graph.nodes →
        g.addNodeDegreesAsAttributes.state.storedDegree n =
          some (g.graph.edges.countP (fun e => strictEq e.1 n || strictEq e.2 n))) := by
  intro h
  have h1 := h { graph := { nodes := [.num 1, .str "1"], edges := [(.num 1, .num 2)],
                            nodeDegrees := [] }, degreeHistogram := [] }
    (.num 1) (by simp)
  revert h1
  decide

/-- C1 (amended): `computeDegree(n)` returns the number of edge-list entries (duplicates
counted separately) whose source or target is strictly equal to `n`;
`addNodeDegreesAsAttributes` returns normally exactly when the key conversion of every
listed node succeeds, and otherwise throws at the first node whose conversion throws,
leaving the later nodes unstored; after it, every `n` among the nodes the loop got
through whose property key is not `__proto__` and is shared only with such nodes
strictly equal to `n` has that number stored in `nodeDegrees[n]`; nodes `[1,2,3]` with
links `[(1,2),(2,3)]` give degrees `{1:1, 2:2, 3:1}`, and nodes `[2, {toString: 1}, 3]`
with the link `(3,2)` make the call throw at the second node with only `{2:1}`
stored. -/
theorem C1_degree_is_incident_edge_count (g : GraphClass) :
    (∀ n : JsVal, g.computeDegree n =
        g.graph.edges.countP (fun e => strictEq e.1 n || strictEq e.2 n)) ∧
    (g.addNodeDegreesAsAttributes.thrown = false ↔
      ∀ m ∈ g.graph.nodes, (propertyKey m).isSome = true) ∧
    ((∀ m ∈ g.graph.nodes, (propertyKey m).isSome = true) →
      processedNodes g.graph.nodes = g.graph.nodes) ∧
    g.addNodeDegreesAsAttributes.state.graph.nodeDegrees =
      (processedNodes g.graph.nodes).foldl
        (fun acc m => acc.assign (keyOf m) (g.computeDegree m)) g.graph.nodeDegrees ∧
    (unconvertibleNode.addNodeDegreesAsAttributes.thrown = true ∧
      unconvertibleNode.addNodeDegreesAsAttributes.state.graph.nodeDegrees =
        [(.idx 2, 1)] ∧
      unconvertibleNode.addNodeDegreesAsAttributes.state.storedDegree (.num 3) = none) ∧
    (∀ n : JsVal, n ∈ processedNodes g.graph.nodes →
        propertyKey n ≠ some (PropKey.name "__proto__") →
        (∀ m ∈ processedNodes g.graph.nodes,
          propertyKey m = propertyKey n → strictEq m n = true) →
        g.addNodeDegreesAsAttributes.state.storedDegree n =
          some (g.graph.edges.countP (fun e => strictEq e.1 n || strictEq e.2 n))) ∧
    scenario1.addNodeDegreesAsAttributes.state.graph.nodeDegrees
      = [(.idx 1, 1), (.idx 2, 2), (.idx 3, 1)] := by
  refine ⟨fun n => computeDegree_eq_countP g n, (addNodeDegrees_frame g).2.2.2.2,
    (processedNodes_eq_self_iff _).mpr, (addNodeDegrees_frame g).2.2.2.1,
    by decide, ?_, by decide⟩
  intro n hn hproto huniq
  rw [storedDegree_after g n hn hproto huniq, computeDegree_eq_countP]

/-- C1 (amended), at a concrete graph: in scenario 1 the node `2` has a property key
of its own, and its stored degree is the number of edges it is an endpoint of. -/
theorem C1_degree_is_incident_edge_count_witness :
    scenario1.addNodeDegreesAsAttributes.state.storedDegree (.num 2) =
      some (scenario1.graph.edges.countP
        (fun e => strictEq e.1 (.num 2) || strictEq e.2 (.num 2))) :=
  (C1_degree_is_incident_edge_count scenario1).2.2.2.2.2.1 (.num 2)
    (by
      rw [(C1_degree_is_incident_edge_count scenario1).2.2.1 (by decide)]
      simp [scenario1])
    (by decide)
    (by
      rw [(C1_degree_is_incident_edge_count scenario1).2.2.1 (by decide)]
      intro m hm
      simp only [scenario1, List.mem_cons, List.mem_singleton, List.not_mem_nil,
        or_false] at hm
      rcases hm with rfl | rfl | rfl <;> decide)

/-- C2 (as stated, refuted): in scenario 3, node `5` with the single self-loop `(5,5)`,
one edge has source `5` and one edge has target `5`, but the stored degree is 1: the
self-loop is counted once. -/
theorem C2_counterexample :
    ¬ (∀ (g : GraphClass) (n : JsVal), n ∈ g.graph.nodes →
        g.addNodeDegreesAsAttributes.state.storedDegree n =
          some (g.graph.edges.countP (fun e => strictEq e.1 n) +
                g.graph.edges.countP (fun e => strictEq e.2 n))) := by
  intro h
  have h1 := h scenario3 (.num 5) (by simp [scenario3])
  revert h1
  decide

/-- C2 (amended): after `addNodeDegreesAsAttributes`, which throws at the first listed
node whose key conversion throws and leaves the later nodes unstored, for every node `n`
among the nodes the loop got through (all of them when no conversion throws) whose
property key is not `__proto__` and is shared only with such nodes strictly equal to
`n`, the stored degree counts a self-loop `(n,n)` once:
degree[n] = (edges with source n) + (edges with target n) - (edges with both); nodes
`[5]` with links `[(5,5)]` give degree[5] = 1 and, after `calculateDegreeHistogram`,
histogram `{0:0, 1:1}`. -/
theorem C2_self_loop_counted_once (g : GraphClass) (n : JsVal)
    (hn : n ∈ processedNodes g.graph.nodes)
    (hproto : propertyKey n ≠ some (PropKey.name "__proto__"))
    (huniq : ∀ m ∈ processedNodes g.graph.nodes,
      propertyKey m = propertyKey n → strictEq m n = true) :
    g.addNodeDegreesAsAttributes.state.storedDegree n =
        some (g.graph.edges.countP (fun e => strictEq e.1 n) +
              g.graph.edges.countP (fun e => strictEq e.2 n) -
              g.graph.edges.countP (fun e => strictEq e.1 n && strictEq e.2 n)) ∧
    ((∀ m ∈ g.graph.nodes, (propertyKey m).isSome = true) →
      processedNodes g.graph.nodes = g.graph.nodes ∧
      g.addNodeDegreesAsAttributes.thrown = false) ∧
    scenario3.addNodeDegreesAsAttributes.state.storedDegree (.num 5) = some 1 ∧
    (scenario3.addNodeDegreesAsAttributes.state.calculateDegreeHistogram 3).map
        (fun g' => g'.degreeHistogram) = some [(.idx 0, 0), (.idx 1, 1)] := by
  refine ⟨?_, fun hall => ⟨(processedNodes_eq_self_iff _).mpr hall,
    (addNodeDegrees_frame g).2.2.2.2.mpr hall⟩, by decide, by decide⟩
  rw [storedDegree_after g n hn hproto huniq, computeDegree_eq_countP]
  have := countP_or_add_and (fun e : JsVal × JsVal => strictEq e.1 n)
    (fun e : JsVal × JsVal => strictEq e.2 n) g.graph.edges
  congr 1
  omega

/-- C2 (amended), at a concrete graph: scenario 3 and its only node. -/
theorem C2_self_loop_counted_once_witness :
    scenario3.addNodeDegreesAsAttributes.state.storedDegree (.num 5) =
      some (scenario3.graph.edges.countP (fun e => strictEq e.1 (.num 5)) +
            scenario3.graph.edges.countP (fun e => strictEq e.2 (.num 5)) -
            scenario3.graph.edges.countP
              (fun e => strictEq e.1 (.num 5) && strictEq e.2 (.num 5))) :=
  (C2_self_loop_counted_once scenario3 (.num 5)
    (by
      rw [(processedNodes_eq_self_iff _).mpr (by decide)]
      simp [scenario3])
    (by decide)
    (by
      rw [(processedNodes_eq_self_iff _).mpr (by decide)]
      intro m hm
      simp only [scenario3, List.mem_singleton] at hm
      subst hm
      decide)).1

/-- C3: for every node-to-degree mapping `D`, `calculateDegreeHistogram` run on an
empty histogram returns (any fuel of at least `max(D.values()) + 2` rounds is enough),
and the keys of the histogram it leaves are exactly `0, 1, ..., max(D.values())`, each
once and in ascending order; for the empty mapping the histogram stays empty. -/
theorem C3_histogram_keys_contiguous (nodes : List JsVal) (edges : List (JsVal × JsVal))
    (D : PropMap) (extra : Nat) :
    ∃ g', (GraphClass.withDegrees nodes edges D).calculateDegreeHistogram
        (maxDegree D + 2 + extra) = some g' ∧
      g'.degreeHistogram.keys =
        (if D = [] then [] else (List.range (maxDegree D + 1)).map PropKey.idx) ∧
      (∀ key, key ∈ g'.degreeHistogram.keys ↔
        D ≠ [] ∧ ∃ k, k ≤ maxDegree D ∧ key = PropKey.idx k) := by
  obtain ⟨h', hrun, hkeys, _⟩ := histogram_run D (maxDegree D + 2 + extra)
    (if D = [] then 0 else maxDegree D + 1) rfl (by split <;> omega)
  refine ⟨{ GraphClass.withDegrees nodes edges D with degreeHistogram := h' }, ?_, ?_, ?_⟩
  · simp [GraphClass.calculateDegreeHistogram, GraphClass.withDegrees, hrun]
  · show h'.keys = _
    rw [hkeys.1]
    by_cases hD : D = []
    · simp [hD]
    · simp [hD]
  · intro key
    show key ∈ h'.keys ↔ _
    rw [hkeys.1]
    by_cases hD : D = []
    · simp [hD]
    · simp only [hD, if_false, List.mem_map, List.mem_range, ne_eq, not_false_eq_true,
        true_and]
      constructor
      · rintro ⟨k, hk, rfl⟩
        exact ⟨k, by omega, rfl⟩
      · rintro ⟨k, hk, rfl⟩
        exact ⟨k, by omega, rfl⟩

/-- C4: for every node-to-degree mapping `D`, after `calculateDegreeHistogram` run on an
empty histogram every key present in the histogram is the numeral of some `k` and its
bucket holds the number of properties of `D` whose degree is exactly `k` (0 when none
has); degrees `{1:1, 2:2, 3:1}` give `{0:0, 1:2, 2:1}`. -/
theorem C4_histogram_counts (nodes : List JsVal) (edges : List (JsVal × JsVal))
    (D : PropMap) (extra : Nat) :
    (∃ g', (GraphClass.withDegrees nodes edges D).calculateDegreeHistogram
        (maxDegree D + 2 + extra) = some g' ∧
      ∀ key c, g'.degreeHistogram.get? key = some c →
        ∃ k, key = PropKey.idx k ∧ c = nodesWithDegree D k) ∧
    ((GraphClass.withDegrees [] [] [(.idx 1, 1), (.idx 2, 2), (.idx 3, 1)]).calculateDegreeHistogram
        4).map (fun g' => g'.degreeHistogram) = some [(.idx 0, 0), (.idx 1, 2), (.idx 2, 1)] := by
  refine ⟨?_, by decide⟩
  obtain ⟨h', hrun, hkeys, hget⟩ := histogram_run D (maxDegree D + 2 + extra)
    (if D = [] then 0 else maxDegree D + 1) rfl (by split <;> omega)
  refine ⟨{ GraphClass.withDegrees nodes edges D with degreeHistogram := h' }, ?_, ?_⟩
  · simp [GraphClass.calculateDegreeHistogram, GraphClass.withDegrees, hrun]
  · intro key c hc
    change h'.get? key = some c at hc
    have hin : key ∈ h'.keys := by
      by_contra hnot
      rw [(PropMap.get?_eq_none_iff h' key).mpr hnot] at hc
      exact absurd hc (by simp)
    rw [hkeys.1, List.mem_map] at hin
    obtain ⟨k, hk, rfl⟩ := hin
    refine ⟨k, rfl, ?_⟩
    rw [hget k, if_pos (List.mem_range.mp hk)] at hc
    exact (Option.some.inj hc).symm

/-- C8: `addEdge(source, target)` appends `(source, target)` at the end of the edge
list, whatever the endpoints are, and leaves the node list, the stored degree mapping
and the histogram as they were. -/
theorem C8_addEdge_appends (g : GraphClass) (source target : JsVal) :
    (g.addEdge source target).graph.edges = g.graph.edges ++ [(source, target)] ∧
    (g.addEdge source target).graph.nodes = g.graph.nodes ∧
    (g.addEdge source target).graph.nodeDegrees = g.graph.nodeDegrees ∧
    (g.addEdge source target).degreeHistogram = g.degreeHistogram :=
  ⟨rfl, rfl, rfl, rfl⟩

/-- C6 (as stated, refuted): loading, into a new graph, a file whose `links` array holds
`null` throws inside the link loop after the node loop has run; the error is caught,
but the node list now holds the node read before the error. -/
theorem C6_counterexample :
    ¬ (∀ (g : GraphClass) (file : FileContent), (tryLoad g file).thrown = true →
        (g.readGraphFromJSON file).thrown = false ∧
        (g.readGraphFromJSON file).state.graph.nodes = g.graph.nodes ∧
        (g.readGraphFromJSON file).state.graph.edges = g.graph.edges ∧
        (g.readGraphFromJSON file).state.graph.nodeDegrees = g.graph.nodeDegrees ∧
        (g.readGraphFromJSON file).state.degreeHistogram = g.degreeHistogram) := by
  intro h
  have h1 := (h GraphClass.new brokenLinksFile rfl).2.1
  have h2 : [JsVal.num 1] = ([] : List JsVal) := h1
  exact List.cons_ne_nil _ _ h2

/-- C6 (amended): for every prior state and every input, `readGraphFromJSON` lets no
error reach the caller and leaves the degree mapping and the histogram as they were,
but the load is not undone.  On a parsed value whose `nodes` and `links` fields can be
read, the node list is the old one followed by the ids of exactly the walked `nodes`
entries before the first one whose read throws; the edge list is the old one followed
by nothing when the node statement threw, and otherwise by the endpoint pairs of exactly
the walked `links` entries before the first one whose read throws; and an error is
caught exactly when one of the two statements throws.  When the file is missing,
unreadable or not valid JSON, or the parsed value is `null` or `undefined`, an error is
caught and the whole state is what it was before the call, so a fresh graph stays
empty. -/
theorem C6_load_failure_is_contained (g : GraphClass) (file : FileContent) :
    (g.readGraphFromJSON file).thrown = false ∧
    (g.readGraphFromJSON file).state.graph.nodeDegrees = g.graph.nodeDegrees ∧
    (g.readGraphFromJSON file).state.degreeHistogram = g.degreeHistogram ∧
    (∀ data nv lv : JsVal, data.getProp "nodes" = some nv → data.getProp "links" = some lv →
      (tryLoad g (.parsed data)).thrown = (loopThrows nv || loopThrows lv) ∧
      (g.readGraphFromJSON (.parsed data)).state.graph.nodes =
        g.graph.nodes ++ (readEntries nv.walked).map (fun x => x.field "id") ∧
      (g.readGraphFromJSON (.parsed data)).state.graph.edges =
        g.graph.edges ++
          (if loopThrows nv then []
           else (readEntries lv.walked).map
             (fun x => (x.field "source", x.field "target")))) ∧
    (∀ data : JsVal, data.readable = false →
      (tryLoad g (.parsed data)).thrown = true ∧
      (g.readGraphFromJSON (.parsed data)).state = g) ∧
    ((tryLoad g .unreadable).thrown = true ∧ (g.readGraphFromJSON .unreadable).state = g) ∧
    ((tryLoad g .invalidJSON).thrown = true ∧ (g.readGraphFromJSON .invalidJSON).state = g) ∧
    (GraphClass.new.readGraphFromJSON .unreadable).state = GraphClass.new ∧
    (GraphClass.new.readGraphFromJSON .invalidJSON).state = GraphClass.new := by
  obtain ⟨_, _, hd, hh⟩ := tryLoad_frame g file
  refine ⟨rfl, hd, hh, ?_, ?_, ⟨rfl, rfl⟩, ⟨rfl, rfl⟩, rfl, rfl⟩
  · intro data nv lv hnv hlv
    obtain ⟨hn, he, ht⟩ := tryLoad_exact g data nv lv hnv hlv
    exact ⟨ht, hn, he⟩
  · intro data hdata
    have hx := (JsVal.getProp_eq_none data "nodes").mpr hdata
    simp [GraphClass.readGraphFromJSON, tryLoad, loadNodes, hx]

/-- C6 (amended), at a concrete input: the file with one node and a `null` link loaded
into a new graph: the error of the link loop is caught, the node read before it is
kept and no edge is added. -/
theorem C6_load_failure_is_contained_witness :
    (tryLoad GraphClass.new brokenLinksFile).thrown =
      (loopThrows (.arr 1 [.obj 2 [("id", .num 1)]]) || loopThrows (.arr 3 [.null])) ∧
    (GraphClass.new.readGraphFromJSON brokenLinksFile).state.graph.nodes =
      GraphClass.new.graph.nodes ++
        (readEntries (JsVal.arr 1 [.obj 2 [("id", .num 1)]]).walked).map
          (fun x => x.field "id") ∧
    (GraphClass.new.readGraphFromJSON brokenLinksFile).state.graph.edges =
      GraphClass.new.graph.edges ++
        (if loopThrows (.arr 1 [.obj 2 [("id", .num 1)]]) then []
         else (readEntries (JsVal.arr 3 [.null]).walked).map
           (fun x => (x.field "source", x.field "target"))) :=
  (C6_load_failure_is_contained GraphClass.new brokenLinksFile).2.2.2.1
    (.obj 0 [("nodes", .arr 1 [.obj 2 [("id", .num 1)]]), ("links", .arr 3 [.null])])
    (.arr 1 [.obj 2 [("id", .num 1)]]) (.arr 3 [.null]) rfl rfl

/-- C7: for every prior state and every parsed input whose `nodes` field is absent or an
array `N` and whose `links` field is absent or an array `L`, the entries being values
whose properties can be read, `readGraphFromJSON` completes without raising and leaves
nodes = old nodes followed by the `id` of each entry of `N`, edges = old edges followed
by the pair (`source`, `target`) of each entry of `L`, in input order and unchecked
against the node list; the degree mapping and the histogram are unchanged. -/
theorem C7_load_appends_in_input_order (g : GraphClass) (data : JsVal) (rN rL : Nat)
    (N L : Option (List JsVal))
    (hN : data.getProp "nodes" = some (optionalArray rN N))
    (hL : data.getProp "links" = some (optionalArray rL L))
    (hNe : ∀ x ∈ N.getD [], (x.getProp "id").isSome = true)
    (hLe : ∀ x ∈ L.getD [],
      (x.getProp "source").isSome = true ∧ (x.getProp "target").isSome = true) :
    (tryLoad g (.parsed data)).thrown = false ∧
    (g.readGraphFromJSON (.parsed data)).state.graph.nodes =
      g.graph.nodes ++ (N.getD []).map (fun x => x.field "id") ∧
    (g.readGraphFromJSON (.parsed data)).state.graph.edges =
      g.graph.edges ++ (L.getD []).map (fun x => (x.field "source", x.field "target")) ∧
    (g.readGraphFromJSON (.parsed data)).state.graph.nodeDegrees = g.graph.nodeDegrees ∧
    (g.readGraphFromJSON (.parsed data)).state.degreeHistogram = g.degreeHistogram := by
  have hnodes : (loadNodes g data).thrown = false ∧
      (loadNodes g data).state.graph.nodes =
        g.graph.nodes ++ (N.getD []).map (fun x => x.field "id") ∧
      (loadNodes g data).state.graph.edges = g.graph.edges ∧
      (loadNodes g data).state.graph.nodeDegrees = g.graph.nodeDegrees ∧
      (loadNodes g data).state.degreeHistogram = g.degreeHistogram := by
    unfold loadNodes
    rw [hN]
    cases N with
    | none => simp [optionalArray, JsVal.truthy]
    | some xs =>
      obtain ⟨k, _, hn, he, hd, hh, hk, hok⟩ := pushNodes_spec xs g
      have hthr := hok hNe
      have hkl := hk hthr
      rw [hkl, List.take_length] at hn
      simp only [optionalArray, JsVal.truthy, JsVal.iterate, if_true, Option.getD_some]
      exact ⟨hthr, hn, he, hd, hh⟩
  have hlinks : ∀ g1 : GraphClass, (loadLinks g1 data).thrown = false ∧
      (loadLinks g1 data).state.graph.edges =
        g1.graph.edges ++ (L.getD []).map (fun x => (x.field "source", x.field "target")) ∧
      (loadLinks g1 data).state.graph.nodes = g1.graph.nodes ∧
      (loadLinks g1 data).state.graph.nodeDegrees = g1.graph.nodeDegrees ∧
      (loadLinks g1 data).state.degreeHistogram = g1.degreeHistogram := by
    intro g1
    unfold loadLinks
    rw [hL]
    cases L with
    | none => simp [optionalArray, JsVal.truthy]
    | some xs =>
      obtain ⟨k, _, he, hn, hd, hh, hk, hok⟩ := addLinks_spec xs g1
      have hthr := hok hLe
      have hkl := hk hthr
      rw [hkl, List.take_length] at he
      simp only [optionalArray, JsVal.truthy, JsVal.iterate, if_true, Option.getD_some]
      exact ⟨hthr, he, hn, hd, hh⟩
  obtain ⟨h1t, h1n, h1e, h1d, h1h⟩ := hnodes
  obtain ⟨h2t, h2e, h2n, h2d, h2h⟩ := hlinks (loadNodes g data).state
  simp only [GraphClass.readGraphFromJSON, tryLoad, h1t, Bool.false_eq_true, if_false]
  exact ⟨h2t, by rw [h2n, h1n], by rw [h2e, h1e], by rw [h2d, h1d], by rw [h2h, h1h]⟩

/-- C7, at a concrete input: the file of scenario 1 loaded into a new graph. -/
theorem C7_load_appends_in_input_order_witness :
    (tryLoad GraphClass.new scenario1File).thrown = false ∧
    (GraphClass.new.readGraphFromJSON scenario1File).state.graph.nodes =
      [] ++ [JsVal.num 1, .num 2, .num 3] ∧
    (GraphClass.new.readGraphFromJSON scenario1File).state.graph.edges =
      [] ++ [(JsVal.num 1, JsVal.num 2), (.num 2, .num 3)] ∧
    (GraphClass.new.readGraphFromJSON scenario1File).state.graph.nodeDegrees = [] ∧
    (GraphClass.new.readGraphFromJSON scenario1File).state.degreeHistogram = [] :=
  C7_load_appends_in_input_order GraphClass.new
    (.obj 0
      [("nodes", .arr 1 [.obj 2 [("id", .num 1)], .obj 3 [("id", .num 2)],
          .obj 4 [("id", .num 3)]]),
       ("links", .arr 5 [.obj 6 [("source", .num 1), ("target", .num 2)],
          .obj 7 [("source", .num 2), ("target", .num 3)]])])
    1 5
    (some [.obj 2 [("id", .num 1)], .obj 3 [("id", .num 2)], .obj 4 [("id", .num 3)]])
    (some [.obj 6 [("source", .num 1), ("target", .num 2)],
      .obj 7 [("source", .num 2), ("target", .num 3)]])
    rfl rfl
    (by
      intro x hx
      simp only [Option.getD_some, List.mem_cons, List.mem_singleton, List.not_mem_nil,
        or_false] at hx
      rcases hx with rfl | rfl | rfl <;> rfl)
    (by
      intro x hx
      simp only [Option.getD_some, List.mem_cons, List.mem_singleton, List.not_mem_nil,
        or_false] at hx
      rcases hx with rfl | rfl <;> exact ⟨rfl, rfl⟩)

/-- C9: in every state reachable from a new `GraphClass` by `addEdge`,
`readGraphFromJSON` (succeeding or failing), `addNodeDegreesAsAttributes` and
`calculateDegreeHistogram`, every key of the degree mapping is the property key of an
identifier that occurs in the node list, and every stored degree is an integer that is
at least 0. -/
theorem C9_degree_keys_are_nodes (g : GraphClass) (hg : Reachable g) :
    (∀ k ∈ g.graph.nodeDegrees.keys, ∃ n ∈ g.graph.nodes, propertyKey n = some k) ∧
    (∀ k d, g.graph.nodeDegrees.get? k = some d → (0 : Int) ≤ (d : Int)) := by
  refine ⟨?_, fun k d _ => Int.natCast_nonneg d⟩
  induction hg with
  | new =>
    intro k hk
    simp [GraphClass.new, PropMap.keys] at hk
  | addEdge g source target _ ih => exact ih
  | readGraphFromJSON g file _ ih =>
    obtain ⟨⟨ns, hn⟩, _, hd, _⟩ := tryLoad_frame g file
    intro k hk
    change k ∈ (tryLoad g file).state.graph.nodeDegrees.keys at hk
    rw [hd] at hk
    obtain ⟨n, hmem, hkey⟩ := ih k hk
    refine ⟨n, ?_, hkey⟩
    change n ∈ (tryLoad g file).state.graph.nodes
    rw [hn]
    exact List.mem_append_left _ hmem
  | addNodeDegreesAsAttributes g _ ih =>
    obtain ⟨_, hn, _, hd, _⟩ := addNodeDegrees_frame g
    intro k hk
    rw [hd] at hk
    rw [hn]
    rcases PropMap.mem_keys_foldl_assign (fun m => g.computeDegree m) k
      (processedNodes g.graph.nodes) g.graph.nodeDegrees hk with h1 | ⟨m, hm, hkey⟩
    · exact ih k h1
    · obtain ⟨hmem, hkm⟩ := mem_processedNodes _ m hm
      exact ⟨m, hmem, by rw [hkm, hkey]⟩
  | calculateDegreeHistogram g g' fuel _ hcalc ih =>
    rw [calculateDegreeHistogram_graph g g' fuel hcalc]
    exact ih

/-- C9, at a concrete state: scenario 1 loaded from its file, degrees computed. -/
theorem C9_degree_keys_are_nodes_witness :
    (∀ k ∈ (GraphClass.new.readGraphFromJSON
          scenario1File).state.addNodeDegreesAsAttributes.state.graph.nodeDegrees.keys,
        ∃ n ∈ (GraphClass.new.readGraphFromJSON
          scenario1File).state.addNodeDegreesAsAttributes.state.graph.nodes,
          propertyKey n = some k) ∧
    (∀ k d, (GraphClass.new.readGraphFromJSON
          scenario1File).state.addNodeDegreesAsAttributes.state.graph.nodeDegrees.get? k =
        some d → (0 : Int) ≤ (d : Int)) :=
  C9_degree_keys_are_nodes _
    (Reachable.addNodeDegreesAsAttributes _
      (Reachable.readGraphFromJSON _ scenario1File Reachable.new))

/-- C5: for every histogram the markup built by `displayHistogram` is, in order, the two
axis labels, the x-axis line, one tick followed by its label for each bucket, the
y-axis line, one tick followed by its label for each of the six values 0..5, and the
bars; it holds exactly one rectangle per bucket, and no lines or labels beyond the two
axis lines, the two axis labels and the ticks; for the empty histogram the markup is
built as well and holds no rectangle. -/
theorem C5_markup_element_counts (h : PropMap) :
    (displayHistogram h).children =
      axisLabels ++ [xAxisLine] ++
        tickLabelPairs (xTickLine (barWidth h)) (xTickLabel (barWidth h)) h.keys ++
        [yAxisLine] ++
        tickLabelPairs yTickLine (yTickLabel (mathMax h.values)) [0, 1, 2, 3, 4, 5] ++
        (displayHistogram h).rects ∧
    (displayHistogram h).rects.length = h.keys.length ∧
    (displayHistogram h).children.countP SvgElem.isRect = h.keys.length ∧
    (displayHistogram h).children.countP SvgElem.isLine = 1 + h.keys.length + 1 + 6 ∧
    (displayHistogram h).children.countP SvgElem.isText = 2 + h.keys.length + 6 ∧
    (displayHistogram []).rects = [] ∧
    (displayHistogram []).children.length = 16 := by
  have hx := xTicks_counts h (barWidth h)
  have hy := yTicks_counts (mathMax h.values)
  have hb := drawBars_counts (mathMax h.values) (barWidth h) h marginLeft
  have hlen : h.keys.length = h.length := by simp [PropMap.keys]
  refine ⟨?_, ?_, ?_, ?_, ?_, by decide, by decide⟩
  · rw [displayHistogram_rects, ← xTicks_eq, ← yTicks_eq]
    rfl
  · rw [displayHistogram_rects, drawBars_length, hlen]
  · simp only [displayHistogram, List.countP_append, hx, hy, hb, hlen]
    simp [axisLabels, xAxisLine, yAxisLine, SvgElem.isRect]
  · simp only [displayHistogram, List.countP_append, hx, hy, hb, hlen]
    simp [axisLabels, xAxisLine, yAxisLine, SvgElem.isLine]
  · simp only [displayHistogram, List.countP_append, hx, hy, hb, hlen]
    simp [axisLabels, xAxisLine, yAxisLine, SvgElem.isText]

/-- C10: for every non-empty histogram with `n` buckets, `displayHistogram` uses
barWidth = (640 - 5*(n-1)) / n, and the `i`-th rectangle, drawn for the `i`-th bucket in
enumeration order (i = 0..n-1), which for integer keys is ascending key order, has
x = 40 + i*(barWidth + 5) and width barWidth; so the first bar starts at x = 40 and the
last bar ends at x = 680, in exact rational arithmetic. -/
theorem C10_bar_positions (h : PropMap) (hne : h ≠ []) :
    barWidth h = .fin (specBarWidth h.length) ∧
    (displayHistogram h).rects.length = h.length ∧
    (∀ i : Nat, (displayHistogram h).rects[i]? =
      h[i]?.map (fun e =>
        SvgElem.rect (.fin (40 + i * (specBarWidth h.length + 5)))
          (svgHeight - marginBottom - barHeight (mathMax h.values) e.2)
          (.fin (specBarWidth h.length)) (barHeight (mathMax h.values) e.2))) ∧
    (∀ ks : List Nat, h.IndexKeys ks → ks.Sorted (· < ·) ∧
      ∀ i : Nat, h[i]?.map Prod.fst = ks[i]?.map PropKey.idx) ∧
    (40 : ℚ) + ((0 : Nat) : ℚ) * (specBarWidth h.length + 5) = 40 ∧
    (40 : ℚ) + ((h.length - 1 : Nat) : ℚ) * (specBarWidth h.length + 5) +
      specBarWidth h.length = 680 := by
  have hpos : 1 ≤ h.length := by
    cases h with
    | nil => exact absurd rfl hne
    | cons e rest => simp
  have hn : ((h.length : ℕ) : ℚ) ≠ 0 := by
    have : h.length ≠ 0 := by omega
    exact_mod_cast this
  refine ⟨barWidth_eq h hne, ?_, ?_, ?_, by simp, ?_⟩
  · rw [displayHistogram_rects, drawBars_length]
  · intro i
    rw [displayHistogram_rects, barWidth_eq h hne]
    have hm : marginLeft = JsNum.fin 40 := by simp [marginLeft, JsNum.ofNat_eq]
    rw [hm]
    exact drawBars_getElem? (mathMax h.values) (specBarWidth h.length) h 40 i
  · intro ks hik
    refine ⟨hik.2, fun i => ?_⟩
    have hkeys := hik.1
    unfold PropMap.keys at hkeys
    rw [← List.getElem?_map, ← List.getElem?_map, hkeys]
  · rw [Nat.cast_sub hpos]
    unfold specBarWidth
    field_simp
    ring

/-- C10, at a concrete histogram: the three buckets of scenario 1 give bars of width
210 at x = 40, 255 and 470. -/
theorem C10_bar_positions_witness :
    barWidth scenario1Histogram = .fin (specBarWidth scenario1Histogram.length) ∧
    (displayHistogram scenario1Histogram).rects.length = scenario1Histogram.length ∧
    (∀ i : Nat, (displayHistogram scenario1Histogram).rects[i]? =
      scenario1Histogram[i]?.map (fun e =>
        SvgElem.rect (.fin (40 + i * (specBarWidth scenario1Histogram.length + 5)))
          (svgHeight - marginBottom - barHeight (mathMax scenario1Histogram.values) e.2)
          (.fin (specBarWidth scenario1Histogram.length))
          (barHeight (mathMax scenario1Histogram.values) e.2))) ∧
    (∀ ks : List Nat, scenario1Histogram.IndexKeys ks → ks.Sorted (· < ·) ∧
      ∀ i : Nat, scenario1Histogram[i]?.map Prod.fst = ks[i]?.map PropKey.idx) ∧
    (40 : ℚ) + ((0 : Nat) : ℚ) * (specBarWidth scenario1Histogram.length + 5) = 40 ∧
    (40 : ℚ) + ((scenario1Histogram.length - 1 : Nat) : ℚ) *
      (specBarWidth scenario1Histogram.length + 5) +
      specBarWidth scenario1Histogram.length = 680 :=
  C10_bar_positions scenario1Histogram (by decide)

/-- C11 (as stated, refuted): in binary64, the arithmetic the code runs in, the chart of
the histogram with the counts 25 and 48, whose largest count is 48, draws the rectangle
of the count 25 with height 8796093022208001 * 2^(-46), printed 125.00000000000001,
which is not (25 / 48) * 240 = 125, and with top y = 135, so that the emitted y and
height do not add up to the baseline 260; only the rounded binary64 sum of the two is
260 again. -/
theorem C11_counterexample :
    0 < maxCount roundedHeights ∧
    maxCount roundedHeights = 48 ∧
    roundedHeights[0]? = some (PropKey.idx 0, 25) ∧
    (displayHistogram64 roundedHeights).rects[0]? =
      some (rect64 (.fin 5 3) (.fin 135 0) (.fin 635 (-1)) (.fin 8796093022208001 (-46))) ∧
    F64.toJsNum (.fin 8796093022208001 (-46)) ≠ .fin (specBarHeight 25 48) ∧
    F64.toJsNum (.fin 135 0) + F64.toJsNum (.fin 8796093022208001 (-46)) ≠ .fin 260 ∧
    F64.fin 135 0 + F64.fin 8796093022208001 (-46) = F64.fin 65 2 := by
  refine ⟨by decide, by decide, rfl, rfl, ?_, ?_, by decide⟩
  · simp [F64.toJsNum, specBarHeight]
    norm_num
  · simp [F64.toJsNum, JsNum.fin_add_fin]
    norm_num

/-- C11 (amended): in exact rational arithmetic, for every histogram whose largest count
`maxCount` is positive, the rectangle drawn for a bucket with count `c` has height
(c / maxCount) * 240 and top y = 260 - height; every bar height lies in [0, 240], a
bucket holding the largest count has height exactly 240, a zero-count bucket has height
0, and the bottom edge of every bar, y + height, is the baseline 260. -/
theorem C11_bar_heights (h : PropMap) (hpos : 0 < maxCount h) :
    mathMax h.values = .fin (maxCount h : ℚ) ∧
    (∀ i : Nat, (displayHistogram h).rects[i]? =
      h[i]?.map (fun e =>
        SvgElem.rect (.fin (40 + i * (specBarWidth h.length + 5)))
          (.fin (260 - specBarHeight e.2 (maxCount h)))
          (.fin (specBarWidth h.length)) (.fin (specBarHeight e.2 (maxCount h))))) ∧
    (∀ e ∈ h, 0 ≤ specBarHeight e.2 (maxCount h) ∧ specBarHeight e.2 (maxCount h) ≤ 240 ∧
      (e.2 = maxCount h → specBarHeight e.2 (maxCount h) = 240) ∧
      (e.2 = 0 → specBarHeight e.2 (maxCount h) = 0) ∧
      (260 - specBarHeight e.2 (maxCount h)) + specBarHeight e.2 (maxCount h) = 260) := by
  have hne : h ≠ [] := maxCount_pos_ne_nil h hpos
  have hm : (0 : ℚ) < (maxCount h : ℚ) := by exact_mod_cast hpos
  refine ⟨mathMax_eq h hne, ?_, ?_⟩
  · intro i
    rw [displayHistogram_rects, barWidth_eq h hne, mathMax_eq h hne]
    have hl : marginLeft = JsNum.fin 40 := by simp [marginLeft, JsNum.ofNat_eq]
    rw [hl, drawBars_getElem?]
    congr 1
    funext e
    rw [barHeight_fin _ _ hpos, barTop_fin]
  · intro e he
    have hle : (e.2 : ℚ) ≤ (maxCount h : ℚ) := by exact_mod_cast maxCount_ge h e he
    have h0 : (0 : ℚ) ≤ (e.2 : ℚ) := Nat.cast_nonneg _
    unfold specBarHeight
    refine ⟨by positivity, ?_, ?_, ?_, by ring⟩
    · have : (e.2 : ℚ) / (maxCount h : ℚ) ≤ 1 := (div_le_one hm).mpr hle
      linarith
    · intro heq
      rw [heq, div_self (ne_of_gt hm)]
      norm_num
    · intro heq
      rw [heq]
      simp

/-- C11 (amended), at a concrete histogram: the histogram of scenario 1, whose largest
count is 2. -/
theorem C11_bar_heights_witness :
    mathMax scenario1Histogram.values = .fin (maxCount scenario1Histogram : ℚ) ∧
    (∀ i : Nat, (displayHistogram scenario1Histogram).rects[i]? =
      scenario1Histogram[i]?.map (fun e =>
        SvgElem.rect (.fin (40 + i * (specBarWidth scenario1Histogram.length + 5)))
          (.fin (260 - specBarHeight e.2 (maxCount scenario1Histogram)))
          (.fin (specBarWidth scenario1Histogram.length))
          (.fin (specBarHeight e.2 (maxCount scenario1Histogram))))) ∧
    (∀ e ∈ scenario1Histogram,
      0 ≤ specBarHeight e.2 (maxCount scenario1Histogram) ∧
      specBarHeight e.2 (maxCount scenario1Histogram) ≤ 240 ∧
      (e.2 = maxCount scenario1Histogram →
        specBarHeight e.2 (maxCount scenario1Histogram) = 240) ∧
      (e.2 = 0 → specBarHeight e.2 (maxCount scenario1Histogram) = 0) ∧
      (260 - specBarHeight e.2 (maxCount scenario1Histogram)) +
        specBarHeight e.2 (maxCount scenario1Histogram) = 260) :=
  C11_bar_heights scenario1Histogram (by decide)

/-- C12: for every histogram whose largest count `maxCount` is at least 1, the y-axis
tick `i` (i = 0..5) drawn by `displayHistogram` is a mark from x = 35 to x = 40 at
y = 260 - 48*i with a label at the same height showing round(maxCount * i / 5), halves
rounded upwards; the label at i = 0 is 0, the label at i = 5 is `maxCount`, and the
labels are non-decreasing in `i`. -/
theorem C12_y_axis_ticks (h : PropMap) (hpos : 1 ≤ maxCount h) :
    yTicks (mathMax h.values) =
      tickLabelPairs yTickLine (yTickLabel (mathMax h.values)) [0, 1, 2, 3, 4, 5] ∧
    (∀ i : Nat, yTickLine i =
      .line (.fin 35) (.fin (260 - 48 * (i : ℚ))) (.fin 40) (.fin (260 - 48 * (i : ℚ)))) ∧
    (∀ i : Nat, yTickLabel (mathMax h.values) i =
      .text (.fin 30) (.fin (260 - 48 * (i : ℚ))) "end" 12 none
        (.number (.fin ((specTickLabel (maxCount h) i : ℤ) : ℚ)))) ∧
    specTickLabel (maxCount h) 0 = 0 ∧
    specTickLabel (maxCount h) 5 = maxCount h ∧
    (∀ i j : Nat, i ≤ j → specTickLabel (maxCount h) i ≤ specTickLabel (maxCount h) j) := by
  have hne : h ≠ [] := maxCount_pos_ne_nil h hpos
  have h35 : marginLeft - 5 = JsNum.fin 35 := by
    simp only [marginLeft, JsNum.ofNat_eq, JsNum.fin_sub_fin]
    congr 1
    norm_num
  have h30 : marginLeft - 10 = JsNum.fin 30 := by
    simp only [marginLeft, JsNum.ofNat_eq, JsNum.fin_sub_fin]
    congr 1
    norm_num
  have h40 : marginLeft = JsNum.fin 40 := by simp [marginLeft, JsNum.ofNat_eq]
  refine ⟨yTicks_eq _, ?_, ?_, ?_, ?_, fun i j hij => specTickLabel_mono _ hij⟩
  · intro i
    unfold yTickLine
    rw [h35, yTickPosition_eq, h40]
  · intro i
    simp only [yTickLabel, h30, yTickPosition_eq, mathMax_eq h hne, yTickValue_fin]
  · simp [specTickLabel, roundHalfUp]
    norm_num
  · unfold specTickLabel roundHalfUp
    rw [Int.floor_eq_iff]
    push_cast
    constructor
    · have : (0 : ℚ) ≤ (maxCount h : ℚ) := Nat.cast_nonneg _
      linarith
    · linarith

/-- C12, at a concrete histogram: the histogram of scenario 1, whose largest count is 2. -/
theorem C12_y_axis_ticks_witness :
    yTicks (mathMax scenario1Histogram.values) =
      tickLabelPairs yTickLine (yTickLabel (mathMax scenario1Histogram.values))
        [0, 1, 2, 3, 4, 5] ∧
    (∀ i : Nat, yTickLine i =
      .line (.fin 35) (.fin (260 - 48 * (i : ℚ))) (.fin 40) (.fin (260 - 48 * (i : ℚ)))) ∧
    (∀ i : Nat, yTickLabel (mathMax scenario1Histogram.values) i =
      .text (.fin 30) (.fin (260 - 48 * (i : ℚ))) "end" 12 none
        (.number (.fin ((specTickLabel (maxCount scenario1Histogram) i : ℤ) : ℚ)))) ∧
    specTickLabel (maxCount scenario1Histogram) 0 = 0 ∧
    specTickLabel (maxCount scenario1Histogram) 5 = maxCount scenario1Histogram ∧
    (∀ i j : Nat, i ≤ j →
      specTickLabel (maxCount scenario1Histogram) i ≤
        specTickLabel (maxCount scenario1Histogram) j) :=
  C12_y_axis_ticks scenario1Histogram (by decide)

/-- C20: for every histogram with n >= 1 buckets, the bar width computed by
`displayHistogram` is (640 - 5*(n-1)) / n, which is strictly positive if and only if
n <= 128, is 0 for n = 129 and negative for every n >= 130; so a graph whose largest
degree is 128 or more yields, after `calculateDegreeHistogram` on an empty histogram,
only rectangles of non-positive width. -/
theorem C20_bar_width_sign (h : PropMap) (hne : h ≠ []) :
    barWidth h = .fin (specBarWidth h.length) ∧
    (0 < specBarWidth h.length ↔ h.length ≤ 128) ∧
    (h.length = 129 → specBarWidth h.length = 0) ∧
    (130 ≤ h.length → specBarWidth h.length < 0) ∧
    (∀ (nodes : List JsVal) (edges : List (JsVal × JsVal)) (D : PropMap) (extra : Nat),
      128 ≤ maxDegree D →
      ∃ g', (GraphClass.withDegrees nodes edges D).calculateDegreeHistogram
          (maxDegree D + 2 + extra) = some g' ∧
        ∀ r ∈ (displayHistogram g'.degreeHistogram).rects,
          ∃ x y w ht, r = SvgElem.rect x y (.fin w) ht ∧ w ≤ 0) := by
  have hpos : 1 ≤ h.length := by
    cases h with
    | nil => exact absurd rfl hne
    | cons e rest => simp
  refine ⟨barWidth_eq h hne, specBarWidth_pos_iff _ hpos, ?_, ?_, ?_⟩
  · intro h129
    rw [h129]
    norm_num [specBarWidth]
  · intro h130
    have hq : (0 : ℚ) < (h.length : ℚ) := by exact_mod_cast hpos
    have h2 : (130 : ℚ) ≤ (h.length : ℚ) := by exact_mod_cast h130
    unfold specBarWidth
    apply div_neg_of_neg_of_pos _ hq
    linarith
  · intro nodes edges D extra hD
    have hDne : D ≠ [] := by
      intro e
      subst e
      simp [maxDegree, PropMap.values] at hD
    obtain ⟨h', hcalc, _, hlen, _⟩ := calculate_from_empty nodes edges D extra
    rw [if_neg hDne] at hlen
    have hne' : h' ≠ [] := by
      intro e
      subst e
      simp at hlen
    refine ⟨_, hcalc, ?_⟩
    intro r hr
    obtain ⟨x, y, ht, hr'⟩ := rects_width h' hne' r hr
    exact ⟨x, y, _, ht, hr', specBarWidth_nonpos _ (by omega)⟩

/-- C20, at a concrete histogram: the three buckets of scenario 1. -/
theorem C20_bar_width_sign_witness :
    barWidth scenario1Histogram = .fin (specBarWidth scenario1Histogram.length) ∧
    (0 < specBarWidth scenario1Histogram.length ↔ scenario1Histogram.length ≤ 128) ∧
    (scenario1Histogram.length = 129 → specBarWidth scenario1Histogram.length = 0) ∧
    (130 ≤ scenario1Histogram.length → specBarWidth scenario1Histogram.length < 0) ∧
    (∀ (nodes : List JsVal) (edges : List (JsVal × JsVal)) (D : PropMap) (extra : Nat),
      128 ≤ maxDegree D →
      ∃ g', (GraphClass.withDegrees nodes edges D).calculateDegreeHistogram
          (maxDegree D + 2 + extra) = some g' ∧
        ∀ r ∈ (displayHistogram g'.degreeHistogram).rects,
          ∃ x y w ht, r = SvgElem.rect x y (.fin w) ht ∧ w ≤ 0) :=
  C20_bar_width_sign scenario1Histogram (by decide)

set_option maxRecDepth 100000

/-- C15 (as stated, refuted): in binary64, the arithmetic the code runs in, the histogram
that `calculateDegreeHistogram` builds from an empty one and the mapping with one node
of degree 6 has the seven buckets 0 to 6; the x-axis tick of bucket 6 is drawn at
5598084916276663 * 2^(-43), printed 636.4285714285714, while the rectangle of that
bucket starts at 5214826577451885 * 2^(-43) with width 3066066710598217 * 2^(-45), so
that its centre, taken exactly or in binary64 (printed 636.4285714285713), is not the
position of the tick. -/
theorem C15_counterexample :
    lonelyDegree ≠ [] ∧
    (GraphClass.withDegrees [] [] lonelyDegree).calculateDegreeHistogram 8 =
      some { GraphClass.withDegrees [] [] lonelyDegree with degreeHistogram := sevenBuckets } ∧
    sevenBuckets[6]? = some (PropKey.idx 6, 1) ∧
    (displayHistogram64 sevenBuckets).children[3 + 2 * 6]? =
      some (line64 (.fin 5598084916276663 (-43)) (.fin 65 2)
        (.fin 5598084916276663 (-43)) (.fin 265 0)) ∧
    (displayHistogram64 sevenBuckets).rects[6]? =
      some (rect64 (.fin 5214826577451885 (-43)) (.fin 5 2) (.fin 3066066710598217 (-45))
        (.fin 15 4)) ∧
    F64.toJsNum (.fin 5598084916276663 (-43)) ≠
      F64.toJsNum (.fin 5214826577451885 (-43)) +
        F64.toJsNum (.fin 3066066710598217 (-45)) / 2 ∧
    F64.fin 5598084916276663 (-43) ≠
      F64.fin 5214826577451885 (-43) + F64.fin 3066066710598217 (-45) / 2 := by
  refine ⟨by decide, rfl, rfl, rfl, rfl, ?_, by decide⟩
  have h2 : ((2 : Nat) : ℚ) ≠ 0 := by norm_num
  simp only [F64.toJsNum, JsNum.ofNat_eq, JsNum.fin_div_fin _ _ h2, JsNum.fin_add_fin]
  norm_num

/-- C15 (amended): in exact rational arithmetic, for every non-empty node-to-degree
mapping `D`, in the histogram that `calculateDegreeHistogram` builds from an empty one
the `k`-th bucket has key `k`, and the markup of `displayHistogram` holds, at the place
of the `k`-th tick, a tick line and a label at tickX(k) = 40 + (barWidth + 5) * k
+ barWidth / 2, and, as its `k`-th rectangle, a bar at barX(k) = 40 + k * (barWidth + 5)
of width barWidth, so that tickX(k) = barX(k) + barWidth / 2: the tick of every bucket
is at the horizontal centre of the rectangle of that bucket. -/
theorem C15_ticks_at_bar_centres (nodes : List JsVal) (edges : List (JsVal × JsVal))
    (D : PropMap) (hD : D ≠ []) (extra : Nat) :
    ∃ g', (GraphClass.withDegrees nodes edges D).calculateDegreeHistogram
        (maxDegree D + 2 + extra) = some g' ∧
      g'.degreeHistogram.length = maxDegree D + 1 ∧
      barWidth g'.degreeHistogram = .fin (specBarWidth (maxDegree D + 1)) ∧
      ∀ k : Nat, k ≤ maxDegree D →
        ∃ c y ht tickX barX,
          g'.degreeHistogram[k]? = some (PropKey.idx k, c) ∧
          tickX = 40 + (specBarWidth (maxDegree D + 1) + 5) * k +
            specBarWidth (maxDegree D + 1) / 2 ∧
          barX = 40 + k * (specBarWidth (maxDegree D + 1) + 5) ∧
          (displayHistogram g'.degreeHistogram).children[3 + 2 * k]? =
            some (.line (.fin tickX) (.fin 260) (.fin tickX) (.fin 265)) ∧
          (displayHistogram g'.degreeHistogram).children[3 + 2 * k + 1]? =
            some (.text (.fin tickX) (.fin 280) "middle" 12 none (.key (PropKey.idx k))) ∧
          (displayHistogram g'.degreeHistogram).rects[k]? =
            some (.rect (.fin barX) y (.fin (specBarWidth (maxDegree D + 1))) ht) ∧
          xTickPosition (barWidth g'.degreeHistogram) (PropKey.idx k) = .fin tickX ∧
          tickX = barX + specBarWidth (maxDegree D + 1) / 2 := by
  obtain ⟨h', hcalc, hkeys, hlen, _⟩ := calculate_from_empty nodes edges D extra
  rw [if_neg hD] at hkeys hlen
  have hne' : h' ≠ [] := by
    intro e
    subst e
    simp at hlen
  have hbw : barWidth h' = .fin (specBarWidth (maxDegree D + 1)) := by
    rw [barWidth_eq h' hne', hlen]
  refine ⟨_, hcalc, hlen, hbw, ?_⟩
  intro k hk
  obtain ⟨c, hc⟩ := PropMap.indexKeys_range_getElem? h' _ hkeys k (by omega)
  have hl : marginLeft = JsNum.fin 40 := by simp [marginLeft, JsNum.ofNat_eq]
  have hc' : h'[k]? = some (PropKey.idx k, c) := hc
  have hkl : k < h'.keys.length := by
    simp only [PropMap.keys, List.length_map]
    omega
  have hkey : h'.keys[k]? = some (PropKey.idx k) := by
    simp [PropMap.keys, List.getElem?_map, hc']
  obtain ⟨ht1, ht2⟩ := displayHistogram_xTick h' k hkl
  refine ⟨c, svgHeight - marginBottom - barHeight (mathMax h'.values) c,
    barHeight (mathMax h'.values) c, _, _, hc, rfl, rfl, ?_, ?_, ?_, ?_, by ring⟩
  · show (displayHistogram h').children[3 + 2 * k]? = _
    rw [ht1, hkey, hbw, Option.map_some', xTickLine_fin]
  · show (displayHistogram h').children[3 + 2 * k + 1]? = _
    rw [ht2, hkey, hbw, Option.map_some', xTickLabel_fin]
  · show (displayHistogram h').rects[k]? = _
    rw [displayHistogram_rects, hbw, hl, drawBars_getElem?, hc']
    rfl
  · show xTickPosition (barWidth h') (PropKey.idx k) = _
    rw [hbw, xTickPosition_fin]
    congr 1
    ring

/-- C15 (amended), at a concrete mapping: the degrees of scenario 1. -/
theorem C15_ticks_at_bar_centres_witness :
    ∃ g', (GraphClass.withDegrees [] [] scenario1Degrees).calculateDegreeHistogram
        (maxDegree scenario1Degrees + 2 + 0) = some g' ∧
      g'.degreeHistogram.length = maxDegree scenario1Degrees + 1 ∧
      barWidth g'.degreeHistogram = .fin (specBarWidth (maxDegree scenario1Degrees + 1)) ∧
      ∀ k : Nat, k ≤ maxDegree scenario1Degrees →
        ∃ c y ht tickX barX,
          g'.degreeHistogram[k]? = some (PropKey.idx k, c) ∧
          tickX = 40 + (specBarWidth (maxDegree scenario1Degrees + 1) + 5) * k +
            specBarWidth (maxDegree scenario1Degrees + 1) / 2 ∧
          barX = 40 + k * (specBarWidth (maxDegree scenario1Degrees + 1) + 5) ∧
          (displayHistogram g'.degreeHistogram).children[3 + 2 * k]? =
            some (.line (.fin tickX) (.fin 260) (.fin tickX) (.fin 265)) ∧
          (displayHistogram g'.degreeHistogram).children[3 + 2 * k + 1]? =
            some (.text (.fin tickX) (.fin 280) "middle" 12 none (.key (PropKey.idx k))) ∧
          (displayHistogram g'.degreeHistogram).rects[k]? =
            some (.rect (.fin barX) y (.fin (specBarWidth (maxDegree scenario1Degrees + 1)))
              ht) ∧
          xTickPosition (barWidth g'.degreeHistogram) (PropKey.idx k) = .fin tickX ∧
          tickX = barX + specBarWidth (maxDegree scenario1Degrees + 1) / 2 :=
  C15_ticks_at_bar_centres [] [] scenario1Degrees (by decide) 0

/-- C17: for every node-to-degree mapping `D`, in the histogram that
`calculateDegreeHistogram` builds from an empty one the two divisors of
`displayHistogram`, `barCount` and the largest count `maxValue`, are zero or undefined
(minus infinity, the maximum of no values) exactly when `D` is empty: for the empty
mapping `barCount` is 0 and `maxValue` is minus infinity; for a non-empty mapping
`barCount` is at least 1 and `maxValue` is a count of at least 1, so a histogram of
zeros only never reaches the renderer. -/
theorem C17_divisors_vanish_iff_empty (nodes : List JsVal) (edges : List (JsVal × JsVal))
    (D : PropMap) (extra : Nat) :
    ∃ g', (GraphClass.withDegrees nodes edges D).calculateDegreeHistogram
        (maxDegree D + 2 + extra) = some g' ∧
      (D = [] → barCount g'.degreeHistogram = .fin 0 ∧
        mathMax g'.degreeHistogram.values = .negInf) ∧
      (D ≠ [] → barCount g'.degreeHistogram = .fin ((maxDegree D + 1 : Nat) : ℚ) ∧
        mathMax g'.degreeHistogram.values = .fin ((maxCount g'.degreeHistogram : Nat) : ℚ) ∧
        1 ≤ maxCount g'.degreeHistogram) ∧
      ((barCount g'.degreeHistogram = .fin 0 ∨ mathMax g'.degreeHistogram.values = .fin 0 ∨
          mathMax g'.degreeHistogram.values = .negInf) ↔ D = []) := by
  obtain ⟨h', hcalc, hkeys, hlen, hget⟩ := calculate_from_empty nodes edges D extra
  have hbc : barCount h' = .fin ((h'.length : Nat) : ℚ) := by
    simp [barCount, JsNum.ofNat, PropMap.keys]
  have hempty : D = [] → barCount h' = .fin 0 ∧ mathMax h'.values = .negInf := by
    intro hD
    rw [if_pos hD] at hlen
    have hnil : h' = [] := List.length_eq_zero.mp hlen
    subst hnil
    exact ⟨by simp [hbc], rfl⟩
  have hfull : D ≠ [] → barCount h' = .fin ((maxDegree D + 1 : Nat) : ℚ) ∧
      mathMax h'.values = .fin ((maxCount h' : Nat) : ℚ) ∧ 1 ≤ maxCount h' := by
    intro hD
    rw [if_neg hD] at hlen
    have hne' : h' ≠ [] := by
      intro e
      subst e
      simp at hlen
    refine ⟨by rw [hbc, hlen], mathMax_eq h' hne', ?_⟩
    have hg := hget (maxDegree D)
    rw [if_neg hD, if_pos (Nat.lt_succ_self _)] at hg
    have hmem := PropMap.get?_mem h' _ _ hg
    have hle := maxCount_ge h' _ hmem
    have hcount : 0 < nodesWithDegree D (maxDegree D) := by
      unfold nodesWithDegree
      exact List.count_pos_iff.mpr (maxDegree_mem D hD)
    exact le_trans hcount hle
  refine ⟨_, hcalc, hempty, hfull, ?_⟩
  show (barCount h' = .fin 0 ∨ mathMax h'.values = .fin 0 ∨ mathMax h'.values = .negInf) ↔ _
  constructor
  · intro hor
    by_contra hD
    obtain ⟨h1, h2, h3⟩ := hfull hD
    rcases hor with h | h | h
    · rw [h1] at h
      injection h with h
      have : (maxDegree D + 1 : ℕ) = 0 := by exact_mod_cast h
      omega
    · rw [h2] at h
      injection h with h
      have : maxCount h' = 0 := by exact_mod_cast h
      omega
    · rw [h2] at h
      cases h
  · intro hD
    exact Or.inl (hempty hD).1

/-- C17, at concrete mappings: the empty mapping gives `barCount` 0 and the maximum of
no values; the degrees of scenario 1 give three buckets and a largest count of at
least 1. -/
theorem C17_divisors_vanish_iff_empty_witness :
    (∃ g', (GraphClass.withDegrees [] [] []).calculateDegreeHistogram
        (maxDegree [] + 2 + 0) = some g' ∧
      barCount g'.degreeHistogram = .fin 0 ∧
      mathMax g'.degreeHistogram.values = .negInf) ∧
    (∃ g', (GraphClass.withDegrees [] [] scenario1Degrees).calculateDegreeHistogram
        (maxDegree scenario1Degrees + 2 + 0) = some g' ∧
      barCount g'.degreeHistogram = .fin ((maxDegree scenario1Degrees + 1 : Nat) : ℚ) ∧
      mathMax g'.degreeHistogram.values = .fin ((maxCount g'.degreeHistogram : Nat) : ℚ) ∧
      1 ≤ maxCount g'.degreeHistogram) := by
  constructor
  · obtain ⟨g', hcalc, hempty, _, _⟩ := C17_divisors_vanish_iff_empty [] [] [] 0
    exact ⟨g', hcalc, hempty rfl⟩
  · obtain ⟨g', hcalc, _, hfull, _⟩ := C17_divisors_vanish_iff_empty [] [] scenario1Degrees 0
    exact ⟨g', hcalc, hfull (by decide)⟩

/-- C16: the fill loop of `calculateDegreeHistogram` terminates on every histogram whose
keys are finitely many non-negative integers, although its bound grows with every key it
inserts: any fuel above `keyBound` lets it return, it runs exactly `keyBound` rounds,
which is M + 1 when the key set is non-empty with largest key M, and no round when the
histogram is empty. -/
theorem C16_fill_loop_terminates (h : PropMap) (ks : List Nat) (hik : h.IndexKeys ks)
    (extra : Nat) :
    (∃ h', fillLoop (keyBound ks + 1 + extra) 0 h = some (keyBound ks, h')) ∧
    fillRounds (keyBound ks + 1 + extra) 0 h = some (keyBound ks) ∧
    (ks = [] → keyBound ks = 0) ∧
    (∀ M, M ∈ ks → (∀ k ∈ ks, k ≤ M) → keyBound ks = M + 1) := by
  obtain ⟨h', hrun, _, _⟩ := fillLoop_from_zero h ks hik (keyBound ks + 1 + extra) (by omega)
  refine ⟨⟨h', hrun⟩, ?_, ?_, ?_⟩
  · have := (fillRounds_eq _ _ _ _ hrun).2
    simpa using this
  · intro hnil
    simp [keyBound, hnil]
  · intro M hM hall
    have hne : ks ≠ [] := List.ne_nil_of_mem hM
    have h1 := foldr_max_ge ks M hM
    have h2 := hall _ (foldr_max_mem ks hne)
    simp only [keyBound, hne, if_false]
    omega

/-- C16, at a concrete histogram: keys 3 and 7 only; the loop runs 8 rounds. -/
theorem C16_fill_loop_terminates_witness :
    (∃ h', fillLoop (keyBound [3, 7] + 1 + 0) 0 sparseHistogram =
      some (keyBound [3, 7], h')) ∧
    fillRounds (keyBound [3, 7] + 1 + 0) 0 sparseHistogram = some (keyBound [3, 7]) ∧
    (([3, 7] : List Nat) = [] → keyBound [3, 7] = 0) ∧
    (∀ M, M ∈ ([3, 7] : List Nat) → (∀ k ∈ ([3, 7] : List Nat), k ≤ M) →
      keyBound [3, 7] = M + 1) :=
  C16_fill_loop_terminates sparseHistogram [3, 7] ⟨rfl, by simp⟩ 0

/-- C14 (as stated, refuted): there is no node-to-degree mapping for which
`calculateDegreeHistogram`, run on an empty histogram, returns with some integer in
[0, largest degree] left without a bucket. -/
theorem C14_counterexample :
    ¬ ∃ (nodes : List JsVal) (edges : List (JsVal × JsVal)) (D : PropMap) (fuel : Nat)
        (g' : GraphClass), D ≠ [] ∧
        (GraphClass.withDegrees nodes edges D).calculateDegreeHistogram fuel = some g' ∧
        ∃ i, i ≤ maxDegree D ∧ g'.degreeHistogram.get? (PropKey.idx i) = none := by
  rintro ⟨nodes, edges, D, fuel, g', hD, hcalc, i, hi, hnone⟩
  have hget := calculate_any_fuel nodes edges D fuel g' hcalc i
  rw [if_neg hD, if_pos (by omega)] at hget
  rw [hget] at hnone
  exact absurd hnone (by simp)

/-- C14 (amended): for every non-empty node-to-degree mapping, sparse degree values and
degree values above the number of distinct degree values included, the fill pass of
`calculateDegreeHistogram`, run on an empty histogram, never under-fills: the call
returns, and every integer `i` in [0, largest degree] has a bucket, holding the number
of properties with degree `i`; the degrees 3 and 7 give buckets 0..7. -/
theorem C14_fill_pass_never_underfills (nodes : List JsVal)
    (edges : List (JsVal × JsVal)) (D : PropMap) (hD : D ≠ []) (extra : Nat) :
    (∃ g', (GraphClass.withDegrees nodes edges D).calculateDegreeHistogram
        (maxDegree D + 2 + extra) = some g' ∧
      ∀ i, i ≤ maxDegree D →
        g'.degreeHistogram.get? (PropKey.idx i) = some (nodesWithDegree D i)) ∧
    (∀ fuel g', (GraphClass.withDegrees nodes edges D).calculateDegreeHistogram fuel =
        some g' →
      ∀ i, i ≤ maxDegree D → (g'.degreeHistogram.get? (PropKey.idx i)).isSome = true) ∧
    ((GraphClass.withDegrees [] [] sparseDegrees).calculateDegreeHistogram 9).map
        (fun g' => g'.degreeHistogram) =
      some [(.idx 0, 0), (.idx 1, 0), (.idx 2, 0), (.idx 3, 1), (.idx 4, 0), (.idx 5, 0),
        (.idx 6, 0), (.idx 7, 1)] := by
  refine ⟨?_, ?_, by decide⟩
  · obtain ⟨h', hcalc, _, _, hget⟩ := calculate_from_empty nodes edges D extra
    refine ⟨_, hcalc, ?_⟩
    intro i hi
    have := hget i
    rw [if_neg hD, if_pos (by omega)] at this
    exact this
  · intro fuel g' hcalc i hi
    have hget := calculate_any_fuel nodes edges D fuel g' hcalc i
    rw [if_neg hD, if_pos (by omega)] at hget
    rw [hget]
    rfl

/-- C14 (amended), at a concrete mapping: the sparse degrees 3 and 7. -/
theorem C14_fill_pass_never_underfills_witness :
    ∃ g', (GraphClass.withDegrees [] [] sparseDegrees).calculateDegreeHistogram
        (maxDegree sparseDegrees + 2 + 0) = some g' ∧
      ∀ i, i ≤ maxDegree sparseDegrees →
        g'.degreeHistogram.get? (PropKey.idx i) = some (nodesWithDegree sparseDegrees i) :=
  (C14_fill_pass_never_underfills [] [] sparseDegrees (by decide) 0).1

/-- C13: for every node-to-degree mapping `D`, a second call of
`calculateDegreeHistogram` without resetting the histogram returns as well, leaves the
keys as they were after the first call, and leaves in every bucket exactly twice the
count it held after the first call, so the buckets filled with 0 stay 0. -/
theorem C13_second_call_doubles (nodes : List JsVal) (edges : List (JsVal × JsVal))
    (D : PropMap) (extra : Nat) :
    ∃ g1 g2, (GraphClass.withDegrees nodes edges D).calculateDegreeHistogram
        (maxDegree D + 2 + extra) = some g1 ∧
      g1.calculateDegreeHistogram (maxDegree D + 2 + extra) = some g2 ∧
      g2.degreeHistogram.keys = g1.degreeHistogram.keys ∧
      (∀ key c, g1.degreeHistogram.get? key = some c →
        g2.degreeHistogram.get? key = some (2 * c)) ∧
      (∀ key, g1.degreeHistogram.get? key = some 0 →
        g2.degreeHistogram.get? key = some 0) := by
  obtain ⟨h1, hcalc1, hkeys1, _, hget1⟩ := calculate_from_empty nodes edges D extra
  have hbound : ∀ d ∈ D.values, d < (if D = [] then 0 else maxDegree D + 1) := by
    intro d hd
    have hne : D ≠ [] := by
      intro e
      subst e
      simp [PropMap.values] at hd
    have := maxDegree_ge D d hd
    rw [if_neg hne]
    omega
  have hkeysC := countDegrees_keeps_range D h1 _ hkeys1 hbound
  have hkb : keyBound (List.range (if D = [] then 0 else maxDegree D + 1)) =
      (if D = [] then 0 else maxDegree D + 1) := by
    by_cases hD : D = []
    · simp [hD, keyBound]
    · have hne : List.range (maxDegree D + 1) ≠ [] := by simp
      have h1 := foldr_max_ge (List.range (maxDegree D + 1)) (maxDegree D) (by simp)
      have h2 := foldr_max_mem (List.range (maxDegree D + 1)) hne
      rw [List.mem_range] at h2
      simp only [hD, if_false, keyBound, hne]
      omega
  obtain ⟨h2, hrun2, hkeys2, hget2⟩ := fillLoop_from_zero (countDegrees D h1) _ hkeysC
    (maxDegree D + 2 + extra) (by rw [hkb]; split <;> omega)
  rw [hkb] at hkeys2 hget2
  have hdouble : ∀ key c, h1.get? key = some c → h2.get? key = some (2 * c) := by
    intro key c hc
    have hin : key ∈ h1.keys := by
      by_contra hnot
      rw [(PropMap.get?_eq_none_iff h1 key).mpr hnot] at hc
      exact absurd hc (by simp)
    rw [hkeys1.1, List.mem_map] at hin
    obtain ⟨k, hk, rfl⟩ := hin
    have hkB := List.mem_range.mp hk
    have hg1 := hget1 k
    rw [if_pos hkB] at hg1
    rw [hg1] at hc
    have hcn : nodesWithDegree D k = c := Option.some.inj hc
    have hcd : (countDegrees D h1).get? (PropKey.idx k) = some (2 * c) := by
      rw [countDegrees_get?, hg1, hcn]
      by_cases h0 : c = 0
      · simp [h0]
      · simp [h0]; omega
    rw [hget2 k, hcd]
    simp
  refine ⟨{ GraphClass.withDegrees nodes edges D with degreeHistogram := h1 },
    { GraphClass.withDegrees nodes edges D with degreeHistogram := h2 }, hcalc1, ?_, ?_,
    hdouble, ?_⟩
  · simp [GraphClass.calculateDegreeHistogram, GraphClass.withDegrees, hrun2]
  · show h2.keys = h1.keys
    rw [hkeys2.1, hkeys1.1]
  · intro key h0
    have := hdouble key 0 h0
    simpa using this

/-- C18 (as stated, refuted): with the node list `[1, "1"]`, two distinct identifiers
that share the property key `"1"`, the degree mapping has one key, and the counts of the
histogram add up to 1, not to the number 2 of distinct node identifiers. -/
theorem C18_counterexample :
    ¬ (∀ (g : GraphClass), g.graph.nodeDegrees = [] → g.degreeHistogram = [] →
        ∀ (fuel : Nat) (g' : GraphClass),
          g.addNodeDegreesAsAttributes.state.calculateDegreeHistogram fuel = some g' →
          histogramTotal g'.degreeHistogram = (distinctNodes g.graph.nodes).length) := by
  intro h
  have h1 := h (collidingNodes []) rfl rfl 3
    { graph := { nodes := [.num 1, .str "1"], edges := [], nodeDegrees := [(.idx 1, 0)] },
      degreeHistogram := [(.idx 0, 1)] } rfl
  revert h1
  decide

/-- C18 (amended): for every node-to-degree mapping `D`, after
`calculateDegreeHistogram` run on an empty histogram the sum of all histogram counts
equals the number of keys of `D`; when `D` is the mapping that
`addNodeDegreesAsAttributes` builds from an empty one, its keys are, each once, the
property keys other than `__proto__` of the nodes the loop got through (all listed nodes
when no key conversion throws, the nodes before the first such throw otherwise), so that
number is the number of distinct such property keys: a node listed twice is counted
once, and so are two identifiers that share a key. -/
theorem C18_histogram_total_is_key_count (nodes : List JsVal)
    (edges : List (JsVal × JsVal)) (D : PropMap) (extra : Nat) :
    (∃ g', (GraphClass.withDegrees nodes edges D).calculateDegreeHistogram
        (maxDegree D + 2 + extra) = some g' ∧
      histogramTotal g'.degreeHistogram = D.keys.length) ∧
    (∀ g : GraphClass, g.graph.nodeDegrees = [] →
      g.addNodeDegreesAsAttributes.state.graph.nodeDegrees.keys.Nodup ∧
      (∀ k, k ∈ g.addNodeDegreesAsAttributes.state.graph.nodeDegrees.keys ↔
        k ≠ PropKey.name "__proto__" ∧
          ∃ n ∈ processedNodes g.graph.nodes, propertyKey n = some k) ∧
      g.addNodeDegreesAsAttributes.state.graph.nodeDegrees.keys.length =
        (((processedNodes g.graph.nodes).map keyOf).toFinset.erase
          (PropKey.name "__proto__")).card ∧
      ((∀ m ∈ g.graph.nodes, (propertyKey m).isSome = true) →
        processedNodes g.graph.nodes = g.graph.nodes ∧
        g.addNodeDegreesAsAttributes.thrown = false)) ∧
    (GraphClass.addNodeDegreesAsAttributes
      { graph := { nodes := [.num 1, .num 1, .num 2], edges := [], nodeDegrees := [] },
        degreeHistogram := [] }).state.graph.nodeDegrees.keys = [.idx 1, .idx 2] := by
  refine ⟨histogramTotal_eq nodes edges D extra, fun g h0 => ?_, by decide⟩
  obtain ⟨h1, h2, h3⟩ := addNodeDegrees_keys g h0
  exact ⟨h1, h2, h3, fun hall => ⟨(processedNodes_eq_self_iff _).mpr hall,
    (addNodeDegrees_frame g).2.2.2.2.mpr hall⟩⟩

/-- C18 (amended), at a concrete graph: scenario 1, whose degree mapping starts
empty. -/
theorem C18_histogram_total_is_key_count_witness :
    scenario1.addNodeDegreesAsAttributes.state.graph.nodeDegrees.keys.Nodup ∧
    (∀ k, k ∈ scenario1.addNodeDegreesAsAttributes.state.graph.nodeDegrees.keys ↔
      k ≠ PropKey.name "__proto__" ∧
        ∃ n ∈ processedNodes scenario1.graph.nodes, propertyKey n = some k) ∧
    scenario1.addNodeDegreesAsAttributes.state.graph.nodeDegrees.keys.length =
      (((processedNodes scenario1.graph.nodes).map keyOf).toFinset.erase
        (PropKey.name "__proto__")).card ∧
    ((∀ m ∈ scenario1.graph.nodes, (propertyKey m).isSome = true) →
      processedNodes scenario1.graph.nodes = scenario1.graph.nodes ∧
      scenario1.addNodeDegreesAsAttributes.thrown = false) :=
  (C18_histogram_total_is_key_count [] [] [] 0).2.1 scenario1 rfl

/-- C19 (as stated, refuted): the node list `[1, "1"]` has no duplicate identifier and
the single edge `(1, 1)` has its endpoints in it, but both nodes read the slot `"1"`,
which holds the degree 0 of the string; the stored degrees add up to 0, not to
2 * 1 - 1 = 1. -/
theorem C19_counterexample :
    ¬ (∀ (g : GraphClass),
        g.graph.nodes.Pairwise (fun x y => strictEq x y = false) →
        (∀ e ∈ g.graph.edges, (∃ n ∈ g.graph.nodes, strictEq e.1 n = true) ∧
          (∃ n ∈ g.graph.nodes, strictEq e.2 n = true)) →
        (g.graph.nodes.map
            (fun n => (g.addNodeDegreesAsAttributes.state.storedDegree n).getD 0)).sum =
          2 * g.graph.edges.length -
            g.graph.edges.countP (fun e => strictEq e.1 e.2)) := by
  intro h
  have h1 := h (collidingNodes [(.num 1, .num 1)]) (by decide) (by decide)
  revert h1
  decide

/-- C19 (amended): for every graph whose node list has no duplicate identifiers, in
which every edge endpoint occurs in the node list, the key conversion of no listed node
throws, no listed node has the property key `__proto__` and no two listed nodes share a
property key, `addNodeDegreesAsAttributes` returns normally, every listed node has its
own degree stored, and the sum of the stored degrees over all nodes equals
2 * (number of edges) minus the number of self-loop edges. -/
theorem C19_stored_degree_sum (g : GraphClass)
    (hd : g.graph.nodes.Pairwise (fun x y => strictEq x y = false))
    (hends : ∀ e ∈ g.graph.edges, (∃ n ∈ g.graph.nodes, strictEq e.1 n = true) ∧
      (∃ n ∈ g.graph.nodes, strictEq e.2 n = true))
    (hconv : ∀ m ∈ g.graph.nodes, (propertyKey m).isSome = true)
    (hkeys : ∀ m ∈ g.graph.nodes, ∀ n ∈ g.graph.nodes,
      propertyKey m = propertyKey n → strictEq m n = true)
    (hproto : ∀ n ∈ g.graph.nodes, propertyKey n ≠ some (PropKey.name "__proto__")) :
    g.addNodeDegreesAsAttributes.thrown = false ∧
    (∀ n ∈ g.graph.nodes,
      g.addNodeDegreesAsAttributes.state.storedDegree n = some (g.computeDegree n)) ∧
    (g.graph.nodes.map
        (fun n => (g.addNodeDegreesAsAttributes.state.storedDegree n).getD 0)).sum =
      2 * g.graph.edges.length - g.graph.edges.countP (fun e => strictEq e.1 e.2) := by
  have hproc : processedNodes g.graph.nodes = g.graph.nodes :=
    (processedNodes_eq_self_iff _).mpr hconv
  have hstored : ∀ n ∈ g.graph.nodes,
      g.addNodeDegreesAsAttributes.state.storedDegree n = some (g.computeDegree n) := by
    intro n hn
    apply storedDegree_after g n (by rw [hproc]; exact hn) (hproto n hn)
    intro m hm hk
    rw [hproc] at hm
    exact hkeys m hm n hn hk
  refine ⟨(addNodeDegrees_frame g).2.2.2.2.mpr hconv, hstored, ?_⟩
  have hmap : g.graph.nodes.map
        (fun n => (g.addNodeDegreesAsAttributes.state.storedDegree n).getD 0) =
      g.graph.nodes.map (fun n => g.computeDegree n) := by
    apply List.map_congr_left
    intro n hn
    rw [hstored n hn]
    rfl
  rw [hmap]
  exact computeDegree_sum g hd hends

/-- C19 (amended), at a concrete graph: scenario 1, three nodes and two edges. -/
theorem C19_stored_degree_sum_witness :
    scenario1.addNodeDegreesAsAttributes.thrown = false ∧
    (∀ n ∈ scenario1.graph.nodes,
      scenario1.addNodeDegreesAsAttributes.state.storedDegree n =
        some (scenario1.computeDegree n)) ∧
    (scenario1.graph.nodes.map
        (fun n => (scenario1.addNodeDegreesAsAttributes.state.storedDegree n).getD 0)).sum =
      2 * scenario1.graph.edges.length -
        scenario1.graph.edges.countP (fun e => strictEq e.1 e.2) :=
  C19_stored_degree_sum scenario1 (by decide) (by decide) (by decide) (by decide)
    (by decide)
